import Mathlib

/-!
Verification development for the crddagt task-graph engine.

This file gives a shallow embedding, in Lean, of the components of the
crddagt C++ repository that the specification's claims are about:

* `IterableUnionFind` (src/crddagt/common/iterable_union_find.inline.hpp),
  embedded as `UF` below: union-by-rank, two-pass path compression, and a
  circular intrusive list for class enumeration.
* `VarData` (src/crddagt/common/vardata.inline.hpp), the type-erased
  value box, embedded as `VarData` with type tags modelled as `Nat`
  (tag `0` plays the role of `typeid(void)`).
* `GraphCore` (src/crddagt/common/graph_core.cpp): steps, fields,
  explicit links, field equivalence, eager validation, diagnostics
  (Kahn cycle detection) and graph export.
* `GraphBuilder::build` (src/crddagt/common/graph_builder.cpp):
  predecessor counts and successor lists from deduplicated combined links.
* `TaskWrapper::run` and `SingleThreadedExecutor::execute`
  (src/crddagt/execution/*.cpp): the single-threaded execution model.

Modelling conventions: `size_t` indices become `Nat`; `std::type_index`
becomes a `Nat` tag; C++ exceptions become `Except`/`Option` error codes;
while-loops whose termination depends on data-structure invariants take an
explicit fuel argument chosen large enough that, on states satisfying the
invariants proved below, the fuel never runs out.  Diagnostic message
strings and blame-ranking lists are not modelled: no claim mentions them.
-/

-- ============================================================================
-- Basic enums (src/crddagt/common/graph_core_enums.hpp)
-- ============================================================================

/-- Field usage tag: Create < Read < Destroy (graph_core_enums.hpp). -/
inductive Usage where
  | Create
  | Read
  | Destroy
deriving DecidableEq

/-- Numeric rank of a usage, mirroring `static_cast<int>(usage)` in
`GraphCore::get_implicit_edge` (graph_core.cpp lines 333-354). -/
def Usage.rank : Usage → Nat
  | .Create => 0
  | .Read => 1
  | .Destroy => 2

/-- Trust level attached to links (graph_core_enums.hpp). -/
inductive TrustLevel where
  | Low
  | Middle
  | High
deriving DecidableEq

-- ============================================================================
-- IterableUnionFind (src/crddagt/common/iterable_union_find.inline.hpp)
-- ============================================================================

/-- One node of the union-find: parent pointer, rank, class size (valid at
the root), and the `next` pointer of the circular membership list. -/
structure UFNode where
  parent : Nat
  rank : Nat
  size : Nat
  next : Nat
deriving DecidableEq

/-- The iterable union-find structure: a growable array of nodes.  The C++
`Idx` template parameter is `size_t` in `GraphCore`; indices are `Nat` here,
and the `make_set` capacity guard (`Idx` overflow at 2^64) is omitted: every
state with fewer than 2^64 elements is reachable in both models. -/
structure UF where
  nodes : List UFNode
deriving DecidableEq

namespace UF

/-- Number of elements (`element_count`). -/
def n (s : UF) : Nat := s.nodes.length

/-- Node access; the default value is irrelevant for in-range indices. -/
def getNode (s : UF) (x : Nat) : UFNode := s.nodes.getD x ⟨x, 0, 0, x⟩

def parent (s : UF) (x : Nat) : Nat := (s.getNode x).parent

def rankOf (s : UF) (x : Nat) : Nat := (s.getNode x).rank

def sizeOf (s : UF) (x : Nat) : Nat := (s.getNode x).size

/-- The `next` pointer of the circular class list. -/
def nextp (s : UF) (x : Nat) : Nat := (s.getNode x).next

/-- Update helpers: functional versions of `m_nodes[x].field = v`. -/
def setParent (s : UF) (x v : Nat) : UF :=
  ⟨s.nodes.set x { s.getNode x with parent := v }⟩

def setRank (s : UF) (x v : Nat) : UF :=
  ⟨s.nodes.set x { s.getNode x with rank := v }⟩

def setSize (s : UF) (x v : Nat) : UF :=
  ⟨s.nodes.set x { s.getNode x with size := v }⟩

def setNext (s : UF) (x v : Nat) : UF :=
  ⟨s.nodes.set x { s.getNode x with next := v }⟩

/-- `make_set()`: append a fresh singleton (self-parent, rank 0, size 1,
self-loop `next`), returning its index implicitly as the old length. -/
def make_set (s : UF) : UF :=
  ⟨s.nodes ++ [⟨s.nodes.length, 0, 1, s.nodes.length⟩]⟩

/-- Root-finding loop `while (m_nodes[root].parent != root)`, with fuel.
On states satisfying the invariants below, parent chains have strictly
increasing ranks bounded by `n`, so fuel `n` always reaches the root. -/
def rootAux (s : UF) : Nat → Nat → Nat
  | 0, x => x
  | f + 1, x => if s.parent x = x then x else rootAux s f (s.parent x)

/-- `class_root(x)`: non-compressing root lookup. -/
def class_root (s : UF) (x : Nat) : Nat := rootAux s s.n x

/-- `class_size(x)`: size stored at the class root. -/
def class_size (s : UF) (x : Nat) : Nat := s.sizeOf (s.class_root x)

/-- `same_class(a, b)`. -/
def same_class (s : UF) (a b : Nat) : Prop := s.class_root a = s.class_root b

/-- Pass 2 of `find`: rewrite every parent on the chain from `x` to point
at `root` (`while (m_nodes[x].parent != root) { ... }`), with fuel. -/
def compressAux (s : UF) (root : Nat) : Nat → Nat → UF
  | 0, _ => s
  | f + 1, x =>
    if s.parent x = root then s
    else compressAux (s.setParent x root) root f (s.parent x)

/-- `find(x)`: two-pass root-finding with path compression.  Returns the
root and the compressed state. -/
def find (s : UF) (x : Nat) : Nat × UF :=
  let r := s.class_root x
  (r, compressAux s r s.n x)

/-- `unite(a, b)` (iterable_union_find.inline.hpp lines 64-105): find both
roots (compressing), union by rank, combine sizes, zero the old root's
size, then splice the two circular lists by swapping the `next` pointers
stored at the two roots.  Returns the new state and whether a merge
happened. -/
def unite (s : UF) (a b : Nat) : UF × Bool :=
  let root_a := (s.find a).1
  let s1 := (s.find a).2
  let root_b := (s1.find b).1
  let s2 := (s1.find b).2
  if root_a = root_b then (s2, false)
  else
    let combined := s2.sizeOf root_a + s2.sizeOf root_b
    let s3 :=
      if s2.rankOf root_a < s2.rankOf root_b then s2.setParent root_a root_b
      else if s2.rankOf root_b < s2.rankOf root_a then s2.setParent root_b root_a
      else (s2.setParent root_b root_a).setRank root_a (s2.rankOf root_a + 1)
    let newRoot :=
      if s2.rankOf root_a < s2.rankOf root_b then root_b else root_a
    let oldRoot :=
      if s2.rankOf root_a < s2.rankOf root_b then root_a else root_b
    let s4 := (s3.setSize newRoot combined).setSize oldRoot 0
    let na := s4.nextp root_a
    let nb := s4.nextp root_b
    let s5 := (s4.setNext root_a nb).setNext root_b na
    (s5, true)

/-- The walking part of `get_class_members`: after emitting `x`, keep
emitting and following `next` until the walk returns to `x` (the do-while
loop of iterable_union_find.inline.hpp lines 128-137), with fuel. -/
def walkAux (s : UF) (x : Nat) : Nat → Nat → List Nat
  | 0, _ => []
  | f + 1, cur => if cur = x then [] else cur :: walkAux s x f (s.nextp cur)

/-- `get_class_members(x, out)`: the circular-list walk starting at `x`.
Fuel `n` suffices because class lists have at most `n` members. -/
def get_class_members (s : UF) (x : Nat) : List Nat :=
  x :: walkAux s x s.n (s.nextp x)

/-- The empty structure (default-constructed `IterableUnionFind`). -/
def empty : UF := ⟨[]⟩

/-- Decidable well-formedness of the union-find state, satisfied by every
state the C++ class can reach: parent and next pointers stay in range,
ranks strictly increase towards the root and are bounded by `n`, and each
root's rank is below its class size (the classic union-by-rank bound). -/
def Bounded (s : UF) : Prop :=
  ∀ x, x < s.n →
    s.parent x < s.n ∧ s.nextp x < s.n ∧
    (s.parent x ≠ x → s.rankOf x < s.rankOf (s.parent x)) ∧
    s.rankOf x < s.n ∧
    (s.parent x = x → s.rankOf x + 1 ≤ s.sizeOf x)

instance (s : UF) : Decidable s.Bounded := by
  unfold Bounded; infer_instance

/-- `RootRel s x r`: following parent pointers from `x` reaches the root
`r`.  This is the graph of the C++ root-finding loop. -/
inductive RootRel (s : UF) : Nat → Nat → Prop where
  | root (x : Nat) (h : s.parent x = x) : RootRel s x x
  | step (x r : Nat) (h : s.parent x ≠ x) (h2 : RootRel s (s.parent x) r) :
      RootRel s x r

/-- `IsCycle s L`: the list `L` is one full turn of a circular `next`
list: following `next` from the `i`-th entry reaches the `(i+1 mod |L|)`-th. -/
def IsCycle (s : UF) (L : List Nat) : Prop :=
  L ≠ [] ∧ ∀ i, i < L.length → s.nextp (L.getD i 0) = L.getD ((i + 1) % L.length) 0

/-- States reachable through the public mutating API of
`IterableUnionFind` (`make_set`, `unite`, and the path compression that
`find` performs, with in-range arguments). -/
inductive Reachable : UF → Prop where
  | empty : Reachable UF.empty
  | mk {s : UF} : Reachable s → Reachable s.make_set
  | un {s : UF} {a b : Nat} : Reachable s → a < s.n → b < s.n →
      Reachable (s.unite a b).1
  | fnd {s : UF} {x : Nat} : Reachable s → x < s.n → Reachable (s.find x).2

/-- The circular-list invariant: every in-range element has a full cycle
list starting at itself whose members are exactly its equivalence class,
and the size stored at the class root is the class cardinality. -/
def CycleInv (s : UF) : Prop :=
  ∀ x, x < s.n → ∃ L, IsCycle s L ∧ L.Nodup ∧ L.getD 0 0 = x ∧
    (∀ y, y ∈ L ↔ y < s.n ∧ s.class_root y = s.class_root x) ∧
    s.sizeOf (s.class_root x) = L.length

/-- The full union-find invariant maintained by the public API. -/
def Inv (s : UF) : Prop := s.Bounded ∧ CycleInv s

/-- Modelled from the spec's words, for refinement comparison only: a
variant of `unite` that splices the circular lists by swapping the `next`
pointers stored at the two *input* positions `a` and `b` themselves
(`unite` above, the faithful embedding of the code, swaps at the roots). -/
def unite_splice_at_inputs (s : UF) (a b : Nat) : UF × Bool :=
  let root_a := (s.find a).1
  let s1 := (s.find a).2
  let root_b := (s1.find b).1
  let s2 := (s1.find b).2
  if root_a = root_b then (s2, false)
  else
    let combined := s2.sizeOf root_a + s2.sizeOf root_b
    let s3 :=
      if s2.rankOf root_a < s2.rankOf root_b then s2.setParent root_a root_b
      else if s2.rankOf root_b < s2.rankOf root_a then s2.setParent root_b root_a
      else (s2.setParent root_b root_a).setRank root_a (s2.rankOf root_a + 1)
    let newRoot :=
      if s2.rankOf root_a < s2.rankOf root_b then root_b else root_a
    let oldRoot :=
      if s2.rankOf root_a < s2.rankOf root_b then root_a else root_b
    let s4 := (s3.setSize newRoot combined).setSize oldRoot 0
    let na := s4.nextp a
    let nb := s4.nextp b
    let s5 := (s4.setNext a nb).setNext b na
    (s5, true)

end UF

/-- Three singletons with `{0, 1}` united: a state in which the inputs of
the next `unite` call (1 and 2) differ from the class roots (0 and 2). -/
def ufDemo : UF := ((UF.empty.make_set.make_set.make_set).unite 0 1).1

-- ============================================================================
-- VarData (src/crddagt/common/vardata.inline.hpp)
-- ============================================================================

/-- The type-erased value box.  `m_pvoid : shared_ptr<void>` is modelled as
an optional abstract value, `m_ti : std::type_index` as a `Nat` tag where
`0` stands for `typeid(void)`.  The invariant `m_pvoid == nullptr` iff
`m_ti == typeid(void)` is a documented class invariant, not enforced here. -/
structure VarData where
  pvoid : Option Nat
  ti : Nat
deriving DecidableEq

namespace VarData

/-- The `typeid(void)` sentinel tag. -/
def voidTag : Nat := 0

/-- The empty box produced by `reset()` and by default construction. -/
def reset : VarData := ⟨none, voidTag⟩

/-- `release<T>()` (vardata.inline.hpp lines 151-164): if the box is null
or the tag differs from `T`, return null and leave the box as it is;
otherwise hand out the stored value and reset the box. -/
def release (b : VarData) (T : Nat) : Option Nat × VarData :=
  if b.pvoid = none ∨ b.ti ≠ T then (none, b)
  else (b.pvoid, VarData.reset)

end VarData

-- ============================================================================
-- GraphCore (src/crddagt/common/graph_core.cpp): state and error codes
-- ============================================================================

/-- Error codes of `GraphCoreError` (graph_core_exceptions.hpp), restricted
to the ones `GraphCore` raises. -/
inductive GraphCoreErrorCode where
  | InvalidStepIndex
  | DuplicateStepIndex
  | InvalidFieldIndex
  | DuplicateFieldIndex
  | TypeMismatch
  | MultipleCreate
  | MultipleDestroy
  | UnsafeSelfAliasing
  | CycleDetected
  | InvalidState
deriving DecidableEq

/-- Severity of a diagnostic item (graph_core_diagnostics.hpp). -/
inductive DiagnosticSeverity where
  | Warning
  | Error
deriving DecidableEq

/-- Category of a diagnostic item (graph_core_diagnostics.hpp). -/
inductive DiagnosticCategory where
  | Cycle
  | MultipleCreate
  | MultipleDestroy
  | UnsafeSelfAliasing
  | MissingCreate
  | TypeMismatch
  | OrphanStep
  | UnusedData
  | InternalError
deriving DecidableEq

/-- One diagnostic item.  The human-readable `message` string and the
blame-ranked `blamed_step_links` / `blamed_field_links` lists of the C++
struct are not modelled: no claim mentions them. -/
structure DiagnosticItem where
  severity : DiagnosticSeverity
  category : DiagnosticCategory
  involved_steps : List Nat
  involved_fields : List Nat
deriving DecidableEq

/-- The diagnostics report: errors and warnings in emission order. -/
structure GraphCoreDiagnostics where
  errors : List DiagnosticItem
  warnings : List DiagnosticItem
deriving DecidableEq

namespace GraphCoreDiagnostics

def has_errors (d : GraphCoreDiagnostics) : Bool := !d.errors.isEmpty

def is_valid (d : GraphCoreDiagnostics) : Bool := d.errors.isEmpty

/-- All items, errors first (graph_core_diagnostics.hpp `all_items`). -/
def all_items (d : GraphCoreDiagnostics) : List DiagnosticItem :=
  d.errors ++ d.warnings

end GraphCoreDiagnostics

/-- The mutable state of `GraphCore` (graph_core.hpp / graph_core.cpp).
`std::type_index` values are modelled as `Nat` tags. -/
structure GraphCore where
  eager_validation : Bool
  step_count : Nat
  step_fields : List (List Nat)
  step_successors : List (List Nat)
  field_count : Nat
  field_owner_step : List Nat
  field_types : List Nat
  field_usages : List Usage
  explicit_step_links : List (Nat × Nat)
  explicit_step_link_trust : List TrustLevel
  field_links : List (Nat × Nat)
  field_link_trust : List TrustLevel
  field_uf : UF
deriving DecidableEq

namespace GraphCore

/-- A freshly constructed `GraphCore(eager_validation)`. -/
def init (eager : Bool) : GraphCore :=
  ⟨eager, 0, [], [], 0, [], [], [], [], [], [], [], UF.empty⟩

/-- `add_step` (graph_core.cpp lines 40-59). -/
def add_step (gc : GraphCore) (step_idx : Nat) :
    Except GraphCoreErrorCode GraphCore :=
  if step_idx ≠ gc.step_count then
    if step_idx < gc.step_count then .error .DuplicateStepIndex
    else .error .InvalidStepIndex
  else
    .ok { gc with
      step_fields := gc.step_fields ++ [[]]
      step_successors := gc.step_successors ++ [[]]
      step_count := gc.step_count + 1 }

/-- `add_field` (graph_core.cpp lines 61-98). -/
def add_field (gc : GraphCore) (step_idx field_idx ti : Nat) (usage : Usage) :
    Except GraphCoreErrorCode GraphCore :=
  if gc.step_count ≤ step_idx then .error .InvalidStepIndex
  else if field_idx ≠ gc.field_count then
    if field_idx < gc.field_count then .error .DuplicateFieldIndex
    else .error .InvalidFieldIndex
  else
    .ok { gc with
      step_fields :=
        gc.step_fields.set step_idx ((gc.step_fields.getD step_idx []) ++ [field_idx])
      field_owner_step := gc.field_owner_step ++ [step_idx]
      field_types := gc.field_types ++ [ti]
      field_usages := gc.field_usages ++ [usage]
      field_uf := gc.field_uf.make_set
      field_count := gc.field_count + 1 }

end GraphCore

/-- The DFS stack loop of `GraphCore::is_reachable_from` (graph_core.cpp
lines 356-393), with fuel.  Stack top is the list head; newly discovered
successors are pushed so that the last one ends on top, as with the C++
`push_back`/`back` pair.  Fuel bounds the iteration count; the loop pops
one entry per iteration and pushes each adjacency list at most once, so
`total-successors + 2` iterations always suffice. -/
def reachAux (succs : List (List Nat)) (target : Nat) :
    Nat → List Nat → List Bool → Bool
  | 0, _, _ => false
  | _ + 1, [], _ => false
  | f + 1, current :: stack, visited =>
    if visited.getD current false then reachAux succs target f stack visited
    else
      let visited' := visited.set current true
      let succ := succs.getD current []
      if succ.contains target then true
      else
        reachAux succs target f
          ((succ.filter (fun s => !visited'.getD s false)).reverse ++ stack)
          visited'

/-- `is_reachable_from(from, target)` over a successor adjacency list. -/
def is_reachable_from (succs : List (List Nat)) (n : Nat)
    (src target : Nat) : Bool :=
  if src = target then true
  else
    reachAux succs target ((succs.map List.length).sum + 2) [src]
      (List.replicate n false)

namespace GraphCore

/-- `link_steps` (graph_core.cpp lines 104-149). -/
def link_steps (gc : GraphCore) (bef aft : Nat) (trust : TrustLevel) :
    Except GraphCoreErrorCode GraphCore :=
  if gc.step_count ≤ bef then .error .InvalidStepIndex
  else if gc.step_count ≤ aft then .error .InvalidStepIndex
  else if bef = aft then .error .CycleDetected
  else if gc.eager_validation &&
      is_reachable_from gc.step_successors gc.step_count aft bef then
    .error .CycleDetected
  else
    .ok { gc with
      explicit_step_links := gc.explicit_step_links ++ [(bef, aft)]
      explicit_step_link_trust := gc.explicit_step_link_trust ++ [trust]
      step_successors :=
        gc.step_successors.set bef ((gc.step_successors.getD bef []) ++ [aft]) }

/-- `get_implicit_edge` (graph_core.cpp lines 333-354): direct the edge
from the lower usage rank to the higher; equal ranks (Read-Read) give no
edge. -/
def get_implicit_edge (step_a : Nat) (usage_a : Usage) (step_b : Nat)
    (usage_b : Usage) : Option (Nat × Nat) :=
  if usage_a.rank < usage_b.rank then some (step_a, step_b)
  else if usage_b.rank < usage_a.rank then some (step_b, step_a)
  else none

/-- Owning step of a field (reads `m_field_owner_step`; the default value
is never hit on well-formed states). -/
def ownerOf (gc : GraphCore) (f : Nat) : Nat := gc.field_owner_step.getD f 0

/-- Usage of a field (reads `m_field_usages`). -/
def usageOf (gc : GraphCore) (f : Nat) : Usage :=
  gc.field_usages.getD f Usage.Read

/-- Type tag of a field (reads `m_field_types`). -/
def typeOf (gc : GraphCore) (f : Nat) : Nat := gc.field_types.getD f 0

end GraphCore

/-- Association-list accumulation of one step's usage: the model of the
`std::unordered_map<StepIdx, std::vector<Usage>>` in eager `link_fields`
(entries in first-encounter order; only the existence of an offending
step matters to the raised error code, not the map's iteration order). -/
def addStepUsage (acc : List (Nat × List Usage)) (sidx : Nat) (u : Usage) :
    List (Nat × List Usage) :=
  match acc with
  | [] => [(sidx, [u])]
  | (s, us) :: rest =>
    if s = sidx then (s, us ++ [u]) :: rest
    else (s, us) :: addStepUsage rest sidx u

namespace GraphCore

/-- The merged per-step usage multisets of a list of fields. -/
def stepUsagesOf (gc : GraphCore) (fields : List Nat) :
    List (Nat × List Usage) :=
  fields.foldl (fun acc f => addStepUsage acc (gc.ownerOf f) (gc.usageOf f)) []

/-- Append each `(before, after)` edge to the successor adjacency list
(the `m_step_successors[before].push_back(after)` loop). -/
def addSuccessorEdges (succs : List (List Nat)) (edges : List (Nat × Nat)) :
    List (List Nat) :=
  edges.foldl (fun acc e => acc.set e.1 ((acc.getD e.1 []) ++ [e.2])) succs

/-- `link_fields` (graph_core.cpp lines 155-327).  The result pairs the
new state with the raised error code, if any; as in the C++, the state
returned alongside an error reflects only the path compression performed
by the two `find` calls (the equivalence classes, links, and successor
lists are untouched), because every mutation of those comes after the
last `throw`. -/
def link_fields (gc : GraphCore) (f1 f2 : Nat) (trust : TrustLevel) :
    GraphCore × Option GraphCoreErrorCode :=
  if gc.field_count ≤ f1 then (gc, some .InvalidFieldIndex)
  else if gc.field_count ≤ f2 then (gc, some .InvalidFieldIndex)
  else if f1 = f2 then (gc, none)
  else if gc.typeOf f1 ≠ gc.typeOf f2 then (gc, some .TypeMismatch)
  else
    let r1 := (gc.field_uf.find f1).1
    let ufA := (gc.field_uf.find f1).2
    let r2 := (ufA.find f2).1
    let ufB := (ufA.find f2).2
    let gc1 := { gc with field_uf := ufB }
    if r1 = r2 then
      ({ gc1 with
          field_links := gc1.field_links ++ [(f1, f2)]
          field_link_trust := gc1.field_link_trust ++ [trust] }, none)
    else if gc.eager_validation then
      let class_one := ufB.get_class_members f1
      let class_two := ufB.get_class_members f2
      let creates_one :=
        class_one.countP (fun f => decide (gc.usageOf f = Usage.Create))
      let creates_two :=
        class_two.countP (fun f => decide (gc.usageOf f = Usage.Create))
      let destroys_one :=
        class_one.countP (fun f => decide (gc.usageOf f = Usage.Destroy))
      let destroys_two :=
        class_two.countP (fun f => decide (gc.usageOf f = Usage.Destroy))
      if creates_one + creates_two > 1 then (gc1, some .MultipleCreate)
      else if destroys_one + destroys_two > 1 then (gc1, some .MultipleDestroy)
      else if (gc.stepUsagesOf (class_one ++ class_two)).any
          (fun p => decide (p.2.length > 1) &&
            p.2.any (fun u => decide (u ≠ Usage.Read))) then
        (gc1, some .UnsafeSelfAliasing)
      else
        let new_edges := class_one.flatMap (fun fa =>
          class_two.filterMap (fun fb =>
            if gc.ownerOf fa = gc.ownerOf fb then none
            else get_implicit_edge (gc.ownerOf fa) (gc.usageOf fa)
              (gc.ownerOf fb) (gc.usageOf fb)))
        if new_edges.any (fun e =>
            is_reachable_from gc.step_successors gc.step_count e.2 e.1) then
          (gc1, some .CycleDetected)
        else
          ({ gc1 with
              step_successors := addSuccessorEdges gc1.step_successors new_edges
              field_links := gc1.field_links ++ [(f1, f2)]
              field_link_trust := gc1.field_link_trust ++ [trust]
              field_uf := (ufB.unite f1 f2).1 }, none)
    else
      ({ gc1 with
          field_links := gc1.field_links ++ [(f1, f2)]
          field_link_trust := gc1.field_link_trust ++ [trust]
          field_uf := (ufB.unite f1 f2).1 }, none)

end GraphCore

-- ============================================================================
-- GraphCore: equivalence classes, diagnostics, export
-- ============================================================================

/-- Add a field to its root's bucket, creating the bucket at the end on
first occurrence. -/
def addClassMember (acc : List (Nat × List Nat)) (root f : Nat) :
    List (Nat × List Nat) :=
  match acc with
  | [] => [(root, [f])]
  | (r, fs) :: rest =>
    if r = root then (r, fs ++ [f]) :: rest
    else (r, fs) :: addClassMember rest root f

namespace GraphCore

/-- The field equivalence classes: fields `0..field_count-1` grouped by
class root, classes in first-occurrence order and fields within a class
in index order.  Models the `equiv_classes` map of `get_diagnostics`
(graph_core.cpp lines 407-414) and the `root_to_data` discovery order of
`export_graph` (lines 815-829); the C++ iterates the diagnostics map in
unspecified hash order, and no claim depends on the class order.  The
C++ calls `find` (compressing); `class_root` returns the identical root
without the unobservable compression. -/
def fieldClasses (gc : GraphCore) : List (Nat × List Nat) :=
  (List.range gc.field_count).foldl
    (fun acc f => addClassMember acc (gc.field_uf.class_root f) f) []

/-- Fields of a class with usage Create, in class order. -/
def createFields (gc : GraphCore) (fs : List Nat) : List Nat :=
  fs.filter (fun f => decide (gc.usageOf f = Usage.Create))

/-- Fields of a class with usage Read, in class order. -/
def readFields (gc : GraphCore) (fs : List Nat) : List Nat :=
  fs.filter (fun f => decide (gc.usageOf f = Usage.Read))

/-- Fields of a class with usage Destroy, in class order. -/
def destroyFields (gc : GraphCore) (fs : List Nat) : List Nat :=
  fs.filter (fun f => decide (gc.usageOf f = Usage.Destroy))

/-- The per-step `(field, usage)` map of one class in `get_diagnostics`
phase 2, steps in first-encounter order. -/
def classStepUsages (gc : GraphCore) (fs : List Nat) :
    List (Nat × List Usage) :=
  gc.stepUsagesOf fs

/-- Per-step field lists of one class (parallels `classStepUsages`). -/
def classStepFields (gc : GraphCore) (fs : List Nat) (sidx : Nat) :
    List Nat :=
  fs.filter (fun f => decide (gc.ownerOf f = sidx))

/-- Phase-2 diagnostics of one equivalence class (graph_core.cpp lines
420-546): MultipleCreate, MultipleDestroy, MissingCreate (severity by the
seal flag), then UnsafeSelfAliasing per step.  Returns (errors, warnings)
in emission order. -/
def classItems (gc : GraphCore) (treat_as_sealed : Bool) (fs : List Nat) :
    List DiagnosticItem × List DiagnosticItem :=
  let cf := gc.createFields fs
  let rf := gc.readFields fs
  let df := gc.destroyFields fs
  let multi_create : List DiagnosticItem :=
    if cf.length > 1 then
      [⟨.Error, .MultipleCreate, cf.map gc.ownerOf, cf⟩]
    else []
  let multi_destroy : List DiagnosticItem :=
    if df.length > 1 then
      [⟨.Error, .MultipleDestroy, df.map gc.ownerOf, df⟩]
    else []
  let missing : List DiagnosticItem :=
    if cf.isEmpty && (!rf.isEmpty || !df.isEmpty) then
      [⟨if treat_as_sealed then .Error else .Warning, .MissingCreate,
        fs.map gc.ownerOf, fs⟩]
    else []
  let selfalias : List DiagnosticItem :=
    (gc.classStepUsages fs).filterMap (fun p =>
      if decide (p.2.length > 1) &&
          p.2.any (fun u => decide (u ≠ Usage.Read)) then
        some ⟨.Error, .UnsafeSelfAliasing, [p.1], gc.classStepFields fs p.1⟩
      else none)
  (multi_create ++ multi_destroy ++ (if treat_as_sealed then missing else []) ++
      selfalias,
    if treat_as_sealed then [] else missing)

/-- Cross-product links `(a, b)` for `a` in `as_`, `b` in `bs`, skipping
equal steps (the Create→Read / Create→Destroy / Read→Destroy loops). -/
def crossLinks (as_ bs : List Nat) : List (Nat × Nat) :=
  as_.flatMap (fun a => (bs.filter (fun b => decide (b ≠ a))).map (fun b => (a, b)))

/-- The implicit step links contributed by one class. -/
def classImplicitLinks (gc : GraphCore) (fs : List Nat) : List (Nat × Nat) :=
  let cs := (gc.createFields fs).map gc.ownerOf
  let rs := (gc.readFields fs).map gc.ownerOf
  let ds := (gc.destroyFields fs).map gc.ownerOf
  crossLinks cs rs ++ crossLinks cs ds ++ crossLinks rs ds

/-- All implicit step links, per class in class order.  This single
definition embeds both computations of the implicit edge set in the C++
— phase 4 of `get_diagnostics` (lines 609-666) and `export_graph`
(lines 866-924) — which emit identical link lists per class. -/
def implicitLinks (gc : GraphCore) : List (Nat × Nat) :=
  gc.fieldClasses.flatMap (fun c => gc.classImplicitLinks c.2)

/-- Whether a step appears in an explicit link (phase-3 orphan scan). -/
def stepHasLink (gc : GraphCore) (sidx : Nat) : Bool :=
  gc.explicit_step_links.any (fun l => decide (l.1 = sidx) || decide (l.2 = sidx))

end GraphCore

-- ============================================================================
-- Kahn's algorithm (graph_core.cpp lines 668-704)
-- ============================================================================

/-- Successor adjacency from a link list. -/
def buildSuccessors (n : Nat) (links : List (Nat × Nat)) : List (List Nat) :=
  links.foldl (fun acc l => acc.set l.1 ((acc.getD l.1 []) ++ [l.2]))
    (List.replicate n [])

/-- In-degrees from a link list.  `Int` models the `size_t` counter: after
a decrement below zero the value can never test equal to zero again, as
with the C++ unsigned wrap-around. -/
def buildInDegree (n : Nat) (links : List (Nat × Nat)) : List Int :=
  links.foldl (fun acc l => acc.set l.2 ((acc.getD l.2 0) + 1))
    (List.replicate n 0)

/-- One node's successor processing: decrement each in-degree, enqueue on
the zero transition. -/
def kahnVisit (succ : List Nat) (queue : List Nat) (indeg : List Int) :
    List Nat × List Int :=
  succ.foldl
    (fun acc v =>
      let indeg' := acc.2.set v (acc.2.getD v 0 - 1)
      if indeg'.getD v 0 = 0 then (acc.1 ++ [v], indeg') else (acc.1, indeg'))
    (queue, indeg)

/-- The FIFO processing loop, with fuel.  `kahn_queue_drains` below shows
fuel `n + 1` always returns with an empty queue, so the fuel never cuts
the C++ loop short.  Returns (final queue, final in-degrees, popped). -/
def kahnLoop (succs : List (List Nat)) :
    Nat → List Nat → List Int → List Nat → List Nat × List Int × List Nat
  | 0, queue, indeg, popped => (queue, indeg, popped)
  | _ + 1, [], indeg, popped => ([], indeg, popped)
  | f + 1, s :: queue, indeg, popped =>
    let step := kahnVisit (succs.getD s []) queue indeg
    kahnLoop succs f step.1 step.2 (popped ++ [s])

/-- Kahn's algorithm: returns the processed (popped) steps in order and
the final in-degrees. -/
def kahnRun (n : Nat) (links : List (Nat × Nat)) : List Nat × List Int :=
  let succs := buildSuccessors n links
  let indeg := buildInDegree n links
  let q0 := (List.range n).filter (fun s => decide (indeg.getD s 0 = 0))
  let res := kahnLoop succs (n + 1) q0 indeg []
  (res.2.2, res.2.1)

/-- The loop invariant of Kahn's algorithm on `n` nodes: the popped and
queued nodes are distinct in-range nodes whose in-degree counter already
hit zero (so, with the unsigned-wrap modelling, can never again test as
zero and cause a duplicate push). -/
def KahnInv (n : Nat) (queue : List Nat) (indeg : List Int)
    (popped : List Nat) : Prop :=
  popped.Nodup ∧ queue.Nodup ∧ (∀ v ∈ popped, v ∉ queue) ∧
  (∀ v ∈ popped, v < n) ∧ (∀ v ∈ queue, v < n) ∧
  (∀ v, v ∈ popped ∨ v ∈ queue → indeg.getD v 0 ≤ 0) ∧
  indeg.length = n

namespace GraphCore

/-- The combined edge set of `get_diagnostics` phase 4 and of
`export_graph`: explicit links then implicit links. -/
def combinedLinks (gc : GraphCore) : List (Nat × Nat) :=
  gc.explicit_step_links ++ gc.implicitLinks

/-- `get_diagnostics(treat_as_sealed)` (graph_core.cpp lines 399-731). -/
def get_diagnostics (gc : GraphCore) (treat_as_sealed : Bool) :
    GraphCoreDiagnostics :=
  let classes := gc.fieldClasses
  let phase2 := classes.map (fun c => gc.classItems treat_as_sealed c.2)
  let errors2 := phase2.flatMap Prod.fst
  let warnings2 := phase2.flatMap Prod.snd
  let orphans : List DiagnosticItem :=
    (List.range gc.step_count).filterMap (fun sidx =>
      if (gc.step_fields.getD sidx []).isEmpty && !gc.stepHasLink sidx then
        some ⟨.Warning, .OrphanStep, [sidx], []⟩
      else none)
  let unused : List DiagnosticItem :=
    classes.filterMap (fun c =>
      match c.2 with
      | [f] =>
        if gc.usageOf f = Usage.Create then
          some ⟨.Warning, .UnusedData, [gc.ownerOf f], [f]⟩
        else none
      | _ => none)
  let cyc : List DiagnosticItem :=
    if gc.step_count > 0 then
      let kr := kahnRun gc.step_count gc.combinedLinks
      if kr.1.length < gc.step_count then
        [⟨.Error, .Cycle,
          (List.range gc.step_count).filter (fun s => decide (kr.2.getD s 0 > 0)),
          []⟩]
      else []
    else []
  ⟨errors2 ++ cyc, warnings2 ++ orphans ++ unused⟩

end GraphCore

-- ============================================================================
-- Export (graph_core.cpp lines 800-934)
-- ============================================================================

/-- One data object's description (exported_graph.hpp `DataInfo`): the
dense data index, the shared type tag, and the `(step, field, usage)`
records in field order. -/
structure DataInfo where
  didx : Nat
  ti : Nat
  field_usages : List (Nat × Nat × Usage)
deriving DecidableEq

/-- The exported graph (exported_graph.hpp `ExportedGraph`). -/
structure ExportedGraph where
  field_data_pairs : List (Nat × Nat)
  data_infos : List DataInfo
  explicit_step_links : List (Nat × Nat)
  implicit_step_links : List (Nat × Nat)
  combined_step_links : List (Nat × Nat)
deriving DecidableEq

namespace GraphCore

/-- The dense data index of a field: the position of its class in
discovery order (the `root_to_data` map of `export_graph`). -/
def dataIdxOf (gc : GraphCore) (f : Nat) : Nat :=
  gc.fieldClasses.findIdx (fun c => decide (c.1 = gc.field_uf.class_root f))

/-- `export_graph()` (graph_core.cpp lines 800-934): check sealed
diagnostics, then emit field-data pairs, data infos, and the explicit,
implicit, and combined link lists. -/
def export_graph (gc : GraphCore) : Except GraphCoreErrorCode ExportedGraph :=
  if (gc.get_diagnostics true).has_errors then .error .InvalidState
  else
    let classes := gc.fieldClasses
    .ok
      { field_data_pairs :=
          (List.range gc.field_count).map (fun f => (f, gc.dataIdxOf f))
        data_infos := classes.enum.map (fun p =>
          ⟨p.1, gc.typeOf (p.2.2.headD 0),
            p.2.2.map (fun f => (gc.ownerOf f, f, gc.usageOf f))⟩)
        explicit_step_links := gc.explicit_step_links
        implicit_step_links := gc.implicitLinks
        combined_step_links := gc.explicit_step_links ++ gc.implicitLinks }

/-- Decidable well-formedness of a `GraphCore` state, satisfied by every
state built through the API: the parallel arrays have the advertised
lengths, stored indices are in range, and the union-find is well-formed. -/
def WF (gc : GraphCore) : Prop :=
  gc.step_fields.length = gc.step_count ∧
  gc.step_successors.length = gc.step_count ∧
  gc.field_owner_step.length = gc.field_count ∧
  gc.field_types.length = gc.field_count ∧
  gc.field_usages.length = gc.field_count ∧
  gc.field_uf.n = gc.field_count ∧
  gc.field_uf.Bounded ∧
  (∀ l ∈ gc.explicit_step_links, l.1 < gc.step_count ∧ l.2 < gc.step_count) ∧
  (∀ s ∈ gc.field_owner_step, s < gc.step_count)

instance (gc : GraphCore) : Decidable gc.WF := by
  unfold WF; infer_instance

end GraphCore

-- ============================================================================
-- GraphBuilder::build (src/crddagt/common/graph_builder.cpp lines 71-162)
-- ============================================================================

/-- The execution plan (executable_graph.hpp `ExecutableGraph`), restricted
to its index-valued fields: the step handles, data handles, and access
rights carry opaque user pointers resolved through the pointer
registries, which no claim mentions. -/
structure ExecutableGraph where
  predecessor_counts : List Nat
  successors : List (List Nat)
  step_tokens : List Nat
  graph_token : Nat
deriving DecidableEq

/-- Failures of `GraphBuilder::build`. -/
inductive GraphBuildError where
  | ValidationFailed
  | CoreError (code : GraphCoreErrorCode)
deriving DecidableEq

/-- The predecessor-count / successor-list computation of
`GraphBuilder::build` (graph_builder.cpp lines 123-138): fold over the
combined links keeping per-step predecessor sets so that duplicate edges
count once.  Returns (predecessor_counts, successors, predecessor_sets). -/
def computePredSucc (num_steps : Nat) (links : List (Nat × Nat)) :
    List Nat × List (List Nat) × List (List Nat) :=
  links.foldl
    (fun acc l =>
      if l.1 ∈ acc.2.2.getD l.2 [] then acc
      else
        (acc.1.set l.2 (acc.1.getD l.2 0 + 1),
          acc.2.1.set l.1 ((acc.2.1.getD l.1 []) ++ [l.2]),
          acc.2.2.set l.2 ((acc.2.2.getD l.2 []) ++ [l.1])))
    (List.replicate num_steps 0, List.replicate num_steps [],
      List.replicate num_steps [])

/-- The invariant of the `computePredSucc` fold, relative to the prefix
`P` of links already processed: the three accumulator tables have one row
per step, the per-step predecessor sets hold exactly the distinct sources
of the processed edges, the counts are the set sizes, and each successor
list holds each distinct processed edge target exactly once. -/
def PredSuccInv (n : Nat) (P : List (Nat × Nat))
    (acc : List Nat × List (List Nat) × List (List Nat)) : Prop :=
  acc.1.length = n ∧ acc.2.1.length = n ∧ acc.2.2.length = n ∧
  (∀ s, (acc.2.2.getD s []).Nodup) ∧
  (∀ b s, b ∈ acc.2.2.getD s [] ↔ (b, s) ∈ P) ∧
  (∀ s, acc.1.getD s 0 = (acc.2.2.getD s []).length) ∧
  (∀ b s, (acc.2.1.getD b []).count s = if (b, s) ∈ P then 1 else 0)

namespace GraphBuilder

/-- `GraphBuilder::build()`: raise on sealed-diagnostics errors, export,
then assemble the plan (tokens `1..N`, graph token `0`). -/
def build (gc : GraphCore) : Except GraphBuildError ExecutableGraph :=
  if (gc.get_diagnostics true).has_errors then .error .ValidationFailed
  else
    match gc.export_graph with
    | .error c => .error (.CoreError c)
    | .ok g =>
      let ps := computePredSucc gc.step_count g.combined_step_links
      .ok
        { predecessor_counts := ps.1
          successors := ps.2.1
          step_tokens := (List.range gc.step_count).map (· + 1)
          graph_token := 0 }

end GraphBuilder

-- ============================================================================
-- Execution model (src/crddagt/execution)
-- ============================================================================

/-- Task lifecycle states (`StepState`). -/
inductive StepState where
  | NotReady
  | Ready
  | Queued
  | Executing
  | Succeeded
  | Failed
  | Cancelled
deriving DecidableEq

/-- A task wrapper (task_wrapper.hpp): lifecycle state, remaining
predecessor counter, successor indices, captured-exception flag.  The
step handle, token, and timing fields are omitted; the user callback is
modelled by the executor's `throws` map.  The counter is `Nat`; the
`prev == 1` zero-transition test behaves identically to the C++ `size_t`
`fetch_sub`. -/
structure TaskW where
  state : StepState
  preds_remaining : Nat
  succs : List Nat
  has_exception : Bool
deriving DecidableEq

/-- `TaskWrapper`'s constructor: `Ready` when no predecessors remain. -/
def TaskW.init (pred_count : Nat) (succs : List Nat) : TaskW :=
  ⟨if pred_count = 0 then .Ready else .NotReady, pred_count, succs, false⟩

/-- The single-threaded executor's run state: wrappers, FIFO ready queue
of task indices, stop flag, completed counter.  Within `execute()` the
executor and all wrappers are alive, so the weak-pointer locks of the C++
always succeed and are not modelled. -/
structure ExecState where
  tasks : List TaskW
  queue : List Nat
  stop : Bool
  completed_count : Nat
deriving DecidableEq

namespace ExecState

def getTask (st : ExecState) (i : Nat) : TaskW :=
  st.tasks.getD i ⟨.NotReady, 0, [], false⟩

def setTask (st : ExecState) (i : Nat) (t : TaskW) : ExecState :=
  { st with tasks := st.tasks.set i t }

/-- `decrement_predecessor_count` (task_wrapper.cpp lines 86-96): the
call that moves the counter from 1 to 0 also stores `Ready` and reports
the transition. -/
def decrementPred (st : ExecState) (j : Nat) : ExecState × Bool :=
  let t := st.getTask j
  if t.preds_remaining = 1 then
    (st.setTask j { t with preds_remaining := 0, state := .Ready }, true)
  else
    (st.setTask j { t with preds_remaining := t.preds_remaining - 1 }, false)

/-- `mark_queued` (task_wrapper.cpp lines 111-116): CAS Ready → Queued. -/
def markQueued (st : ExecState) (j : Nat) : ExecState × Bool :=
  let t := st.getTask j
  if t.state = .Ready then (st.setTask j { t with state := .Queued }, true)
  else (st, false)

/-- `SingleThreadedExecutor::enqueue` (lines 142-145). -/
def enqueue (st : ExecState) (j : Nat) : ExecState :=
  { st with queue := st.queue ++ [j] }

/-- `notify_successors` (task_wrapper.cpp lines 124-145): decrement each
successor; on the zero transition, CAS it Ready → Queued and enqueue it
(the enqueue is unconditional after a true decrement, as in the C++). -/
def notifySuccessors (st : ExecState) (i : Nat) : ExecState :=
  (st.getTask i).succs.foldl
    (fun acc j =>
      let dp := decrementPred acc j
      if dp.2 then ((markQueued dp.1 j).1.enqueue j) else dp.1)
    st

/-- The per-successor body of `notify_successors`. -/
def notifyStep (acc : ExecState) (j : Nat) : ExecState :=
  let dp := decrementPred acc j
  if dp.2 then ((markQueued dp.1 j).1.enqueue j) else dp.1

/-- `SingleThreadedExecutor::notify_completion` (lines 147-159): count
the completion and raise the stop flag when aborting on a failure. -/
def notifyCompletion (abort_on_failure : Bool) (st : ExecState) (i : Nat) :
    ExecState :=
  let st1 := { st with completed_count := st.completed_count + 1 }
  if abort_on_failure && decide ((st1.getTask i).state = .Failed) then
    { st1 with stop := true }
  else st1

/-- `TaskWrapper::run` (task_wrapper.cpp lines 31-84): stop check, CAS
Queued → Executing, the user callback inside the exception guard, then
successor notification and the completion callback. -/
def runTask (abort_on_failure : Bool) (throws : Nat → Bool) (st : ExecState)
    (i : Nat) : ExecState :=
  if st.stop then
    notifyCompletion abort_on_failure
      (st.setTask i { st.getTask i with state := .Cancelled }) i
  else if (st.getTask i).state = .Queued then
    let st1 := st.setTask i { st.getTask i with state := .Executing }
    let st2 :=
      if throws i then
        st1.setTask i
          { st1.getTask i with state := .Failed, has_exception := true }
      else st1.setTask i { st1.getTask i with state := .Succeeded }
    notifyCompletion abort_on_failure (st2.notifySuccessors i) i
  else notifyCompletion abort_on_failure st i

end ExecState

/-- The main processing loop (single_threaded_executor.cpp lines 53-60):
pop and run while the queue is non-empty and no stop was requested; with
fuel (each task is enqueued at most twice, so `2n + 2` iterations cover
every run the loop can perform). -/
def execLoop (abort_on_failure : Bool) (throws : Nat → Bool) :
    Nat → ExecState → ExecState
  | 0, st => st
  | f + 1, st =>
    match st.queue with
    | [] => st
    | i :: rest =>
      if st.stop then st
      else
        execLoop abort_on_failure throws f
          (ExecState.runTask abort_on_failure throws { st with queue := rest } i)

/-- The outcome record (execution_result.hpp), restricted to the fields
the claims mention; error messages and durations are omitted. -/
structure ExecutionResult where
  success : Bool
  stopped : Bool
  failed_steps : List Nat
  cancelled_steps : List Nat
  completed_steps : List Nat
deriving DecidableEq

/-- Result assembly (single_threaded_executor.cpp lines 62-134): walk the
wrappers in index order, bucket by final state; a cancelled-bucket entry
clears `success` when there was neither a stop nor an earlier failure;
`Executing` is recorded as a failure; a stop with cancellations clears
`success` at the end. -/
def assembleResult (stopped : Bool) (tasks : List TaskW) : ExecutionResult :=
  let r :=
    tasks.enum.foldl
      (fun (r : ExecutionResult) p =>
        match p.2.state with
        | .Succeeded => { r with completed_steps := r.completed_steps ++ [p.1] }
        | .Failed =>
          { r with success := false, failed_steps := r.failed_steps ++ [p.1] }
        | .Executing =>
          { r with success := false, failed_steps := r.failed_steps ++ [p.1] }
        | _ =>
          let r1 := { r with cancelled_steps := r.cancelled_steps ++ [p.1] }
          if !stopped && r1.failed_steps.isEmpty then
            { r1 with success := false }
          else r1)
      ⟨true, stopped, [], [], []⟩
  if stopped && !r.cancelled_steps.isEmpty then { r with success := false } else r

namespace SingleThreadedExecutor

/-- `SingleThreadedExecutor::execute` (lines 11-140) on a fresh executor
(stop flag clear): handle the empty graph, build wrappers from the plan,
wire successors, enqueue the initially ready tasks (CAS Ready → Queued,
then push), drain the queue, and assemble the result.  `throws i` tells
whether step `i`'s `execute()` raises. -/
def execute (abort_on_failure : Bool) (throws : Nat → Bool)
    (graph : ExecutableGraph) : ExecutionResult :=
  let num := graph.predecessor_counts.length
  if num = 0 then ⟨true, false, [], [], []⟩
  else
    let tasks := (List.range num).map (fun i =>
      TaskW.init (graph.predecessor_counts.getD i 0) (graph.successors.getD i []))
    let st0 : ExecState := ⟨tasks, [], false, 0⟩
    let st1 :=
      (List.range num).foldl
        (fun (acc : ExecState) i =>
          if (acc.getTask i).preds_remaining = 0 then
            ((ExecState.markQueued acc i).1.enqueue i)
          else acc)
        st0
    let stF := execLoop abort_on_failure throws (2 * num + 2) st1
    assembleResult stF.stop stF.tasks

end SingleThreadedExecutor

-- ============================================================================
-- Concrete example graphs used by the witnesses
-- ============================================================================

/-- Unwrap a construction step that is expected to succeed (used only to
script the concrete example graphs below; the witnesses evaluate the
results, so a silent failure here could not go unnoticed). -/
def orInit (r : Except GraphCoreErrorCode GraphCore) : GraphCore :=
  match r with
  | .ok g => g
  | .error _ => GraphCore.init false

/-- Scenario S1: three steps with int-typed Create/Read/Destroy fields,
linked into one data object (eager mode). -/
def gcS1 : GraphCore :=
  let g := GraphCore.init true
  let g := orInit (g.add_step 0)
  let g := orInit (g.add_step 1)
  let g := orInit (g.add_step 2)
  let g := orInit (g.add_field 0 0 1 Usage.Create)
  let g := orInit (g.add_field 1 1 1 Usage.Read)
  let g := orInit (g.add_field 2 2 1 Usage.Destroy)
  let g := (g.link_fields 0 1 TrustLevel.High).1
  (g.link_fields 1 2 TrustLevel.High).1

/-- Scenario S3 prefix: eager mode, Create/Read linked, plus a second
Create field in a separate class — the state just before the offending
`link_fields(1, 2)` call. -/
def gcS3 : GraphCore :=
  let g := GraphCore.init true
  let g := orInit (g.add_step 0)
  let g := orInit (g.add_step 1)
  let g := orInit (g.add_step 2)
  let g := orInit (g.add_field 0 0 1 Usage.Create)
  let g := orInit (g.add_field 1 1 1 Usage.Read)
  let g := orInit (g.add_field 2 2 1 Usage.Create)
  (g.link_fields 0 1 TrustLevel.High).1

/-- Scenario S6 graph: two steps, Create → Read on one int data object. -/
def gcS6 : GraphCore :=
  let g := GraphCore.init true
  let g := orInit (g.add_step 0)
  let g := orInit (g.add_step 1)
  let g := orInit (g.add_field 0 0 1 Usage.Create)
  let g := orInit (g.add_field 1 1 1 Usage.Read)
  (g.link_fields 0 1 TrustLevel.High).1

/-- A graph whose only field is a singleton Read (MissingCreate case). -/
def gcSingletonRead : GraphCore :=
  let g := GraphCore.init false
  let g := orInit (g.add_step 0)
  orInit (g.add_field 0 0 1 Usage.Read)

/-- The plan built from `gcS6`. -/
def planS6 : ExecutableGraph :=
  (GraphBuilder.build gcS6).toOption.getD ⟨[], [], [], 0⟩

/-- The exported graph of `gcS1`. -/
def exportedS1 : ExportedGraph :=
  (gcS1.export_graph).toOption.getD ⟨[], [], [], [], []⟩

/-- The plan built from `gcS1`. -/
def planS1 : ExecutableGraph :=
  (GraphBuilder.build gcS1).toOption.getD ⟨[], [], [], 0⟩

/-- The fixed severity of each diagnostic category other than
`MissingCreate` (whose severity depends on the seal flag; its row below
is never used by the theorems).  `TypeMismatch` and `InternalError` are
never emitted by `get_diagnostics`, so any value is vacuously fixed; they
are mapped to `Error` per the header's classification. -/
def catFixedSeverity : DiagnosticCategory → DiagnosticSeverity
  | .Cycle => .Error
  | .MultipleCreate => .Error
  | .MultipleDestroy => .Error
  | .UnsafeSelfAliasing => .Error
  | .MissingCreate => .Warning
  | .TypeMismatch => .Error
  | .OrphanStep => .Warning
  | .UnusedData => .Warning
  | .InternalError => .Error

/-- The executor state for `planS6` after the initial enqueue of the
ready task 0 (what `execute` reaches just before its main loop). -/
def stInitS6 : ExecState :=
  ⟨[⟨.Queued, 0, [1], false⟩, ⟨.NotReady, 1, [], false⟩], [0], false, 0⟩

instance {ε α : Type} [DecidableEq ε] [DecidableEq α] :
    DecidableEq (Except ε α) := fun x y =>
  match x, y with
  | .ok a, .ok b =>
    if h : a = b then .isTrue (by rw [h])
    else .isFalse (by intro he; cases he; exact h rfl)
  | .error a, .error b =>
    if h : a = b then .isTrue (by rw [h])
    else .isFalse (by intro he; cases he; exact h rfl)
  | .ok _, .error _ => .isFalse (by intro he; cases he)
  | .error _, .ok _ => .isFalse (by intro he; cases he)

-- ============================================================================
-- UF: basic update lemmas
-- ============================================================================

namespace UF

theorem getD_set_self {α : Type} (l : List α) (i : Nat) (a d : α)
    (h : i < l.length) : (l.set i a).getD i d = a := by
  rw [List.getD_eq_getD_get?, List.get?_eq_getElem?, List.getElem?_set_eq_of_lt a h]
  rfl

theorem getD_set_ne {α : Type} (l : List α) (i j : Nat) (a d : α)
    (h : i ≠ j) : (l.set i a).getD j d = l.getD j d := by
  rw [List.getD_eq_getD_get?, List.get?_eq_getElem?, List.getElem?_set_ne h,
    ← List.get?_eq_getElem?, ← List.getD_eq_getD_get?]

theorem mk_set_oob (s : UF) (x : Nat) (nd : UFNode) (h : s.n ≤ x) :
    UF.mk (s.nodes.set x nd) = s := by
  rw [List.set_eq_of_length_le h]

theorem n_set (s : UF) (x : Nat) (nd : UFNode) :
    (UF.mk (s.nodes.set x nd)).n = s.n := by
  simp [UF.n]

theorem getNode_set_self (s : UF) (x : Nat) (nd : UFNode) (h : x < s.n) :
    (UF.mk (s.nodes.set x nd)).getNode x = nd :=
  getD_set_self s.nodes x nd _ h

theorem getNode_set_ne (s : UF) (x y : Nat) (nd : UFNode) (h : x ≠ y) :
    (UF.mk (s.nodes.set x nd)).getNode y = s.getNode y :=
  getD_set_ne s.nodes x y nd _ h

theorem setParent_parent_self (s : UF) (x v : Nat) (h : x < s.n) :
    (s.setParent x v).parent x = v := by
  simp [UF.setParent, UF.parent, getNode_set_self s x _ h]

theorem setParent_parent_ne (s : UF) (x v y : Nat) (h : x ≠ y) :
    (s.setParent x v).parent y = s.parent y := by
  simp [UF.setParent, UF.parent, getNode_set_ne s x y _ h]

theorem setParent_rank (s : UF) (x v y : Nat) :
    (s.setParent x v).rankOf y = s.rankOf y := by
  rcases Nat.lt_or_ge x s.n with h | h
  · rcases eq_or_ne x y with rfl | hne
    · simp [UF.setParent, UF.rankOf, getNode_set_self s x _ h]
    · simp [UF.setParent, UF.rankOf, getNode_set_ne s x y _ hne]
  · simp [UF.setParent, mk_set_oob s x _ h]

theorem setParent_next (s : UF) (x v y : Nat) :
    (s.setParent x v).nextp y = s.nextp y := by
  rcases Nat.lt_or_ge x s.n with h | h
  · rcases eq_or_ne x y with rfl | hne
    · simp [UF.setParent, UF.nextp, getNode_set_self s x _ h]
    · simp [UF.setParent, UF.nextp, getNode_set_ne s x y _ hne]
  · simp [UF.setParent, mk_set_oob s x _ h]

theorem setParent_size (s : UF) (x v y : Nat) :
    (s.setParent x v).sizeOf y = s.sizeOf y := by
  rcases Nat.lt_or_ge x s.n with h | h
  · rcases eq_or_ne x y with rfl | hne
    · simp [UF.setParent, UF.sizeOf, getNode_set_self s x _ h]
    · simp [UF.setParent, UF.sizeOf, getNode_set_ne s x y _ hne]
  · simp [UF.setParent, mk_set_oob s x _ h]

theorem setParent_n (s : UF) (x v : Nat) : (s.setParent x v).n = s.n :=
  n_set s x _

theorem setRank_parent (s : UF) (x v y : Nat) :
    (s.setRank x v).parent y = s.parent y := by
  rcases Nat.lt_or_ge x s.n with h | h
  · rcases eq_or_ne x y with rfl | hne
    · simp [UF.setRank, UF.parent, getNode_set_self s x _ h]
    · simp [UF.setRank, UF.parent, getNode_set_ne s x y _ hne]
  · simp [UF.setRank, mk_set_oob s x _ h]

theorem setRank_next (s : UF) (x v y : Nat) :
    (s.setRank x v).nextp y = s.nextp y := by
  rcases Nat.lt_or_ge x s.n with h | h
  · rcases eq_or_ne x y with rfl | hne
    · simp [UF.setRank, UF.nextp, getNode_set_self s x _ h]
    · simp [UF.setRank, UF.nextp, getNode_set_ne s x y _ hne]
  · simp [UF.setRank, mk_set_oob s x _ h]

theorem setRank_size (s : UF) (x v y : Nat) :
    (s.setRank x v).sizeOf y = s.sizeOf y := by
  rcases Nat.lt_or_ge x s.n with h | h
  · rcases eq_or_ne x y with rfl | hne
    · simp [UF.setRank, UF.sizeOf, getNode_set_self s x _ h]
    · simp [UF.setRank, UF.sizeOf, getNode_set_ne s x y _ hne]
  · simp [UF.setRank, mk_set_oob s x _ h]

theorem setRank_rank_self (s : UF) (x v : Nat) (h : x < s.n) :
    (s.setRank x v).rankOf x = v := by
  simp [UF.setRank, UF.rankOf, getNode_set_self s x _ h]

theorem setRank_rank_ne (s : UF) (x v y : Nat) (h : x ≠ y) :
    (s.setRank x v).rankOf y = s.rankOf y := by
  simp [UF.setRank, UF.rankOf, getNode_set_ne s x y _ h]

theorem setRank_n (s : UF) (x v : Nat) : (s.setRank x v).n = s.n :=
  n_set s x _

theorem setSize_parent (s : UF) (x v y : Nat) :
    (s.setSize x v).parent y = s.parent y := by
  rcases Nat.lt_or_ge x s.n with h | h
  · rcases eq_or_ne x y with rfl | hne
    · simp [UF.setSize, UF.parent, getNode_set_self s x _ h]
    · simp [UF.setSize, UF.parent, getNode_set_ne s x y _ hne]
  · simp [UF.setSize, mk_set_oob s x _ h]

theorem setSize_next (s : UF) (x v y : Nat) :
    (s.setSize x v).nextp y = s.nextp y := by
  rcases Nat.lt_or_ge x s.n with h | h
  · rcases eq_or_ne x y with rfl | hne
    · simp [UF.setSize, UF.nextp, getNode_set_self s x _ h]
    · simp [UF.setSize, UF.nextp, getNode_set_ne s x y _ hne]
  · simp [UF.setSize, mk_set_oob s x _ h]

theorem setSize_rank (s : UF) (x v y : Nat) :
    (s.setSize x v).rankOf y = s.rankOf y := by
  rcases Nat.lt_or_ge x s.n with h | h
  · rcases eq_or_ne x y with rfl | hne
    · simp [UF.setSize, UF.rankOf, getNode_set_self s x _ h]
    · simp [UF.setSize, UF.rankOf, getNode_set_ne s x y _ hne]
  · simp [UF.setSize, mk_set_oob s x _ h]

theorem setSize_size_self (s : UF) (x v : Nat) (h : x < s.n) :
    (s.setSize x v).sizeOf x = v := by
  simp [UF.setSize, UF.sizeOf, getNode_set_self s x _ h]

theorem setSize_size_ne (s : UF) (x v y : Nat) (h : x ≠ y) :
    (s.setSize x v).sizeOf y = s.sizeOf y := by
  simp [UF.setSize, UF.sizeOf, getNode_set_ne s x y _ h]

theorem setSize_n (s : UF) (x v : Nat) : (s.setSize x v).n = s.n :=
  n_set s x _

theorem setNext_parent (s : UF) (x v y : Nat) :
    (s.setNext x v).parent y = s.parent y := by
  rcases Nat.lt_or_ge x s.n with h | h
  · rcases eq_or_ne x y with rfl | hne
    · simp [UF.setNext, UF.parent, getNode_set_self s x _ h]
    · simp [UF.setNext, UF.parent, getNode_set_ne s x y _ hne]
  · simp [UF.setNext, mk_set_oob s x _ h]

theorem setNext_rank (s : UF) (x v y : Nat) :
    (s.setNext x v).rankOf y = s.rankOf y := by
  rcases Nat.lt_or_ge x s.n with h | h
  · rcases eq_or_ne x y with rfl | hne
    · simp [UF.setNext, UF.rankOf, getNode_set_self s x _ h]
    · simp [UF.setNext, UF.rankOf, getNode_set_ne s x y _ hne]
  · simp [UF.setNext, mk_set_oob s x _ h]

theorem setNext_size (s : UF) (x v y : Nat) :
    (s.setNext x v).sizeOf y = s.sizeOf y := by
  rcases Nat.lt_or_ge x s.n with h | h
  · rcases eq_or_ne x y with rfl | hne
    · simp [UF.setNext, UF.sizeOf, getNode_set_self s x _ h]
    · simp [UF.setNext, UF.sizeOf, getNode_set_ne s x y _ hne]
  · simp [UF.setNext, mk_set_oob s x _ h]

theorem setNext_next_self (s : UF) (x v : Nat) (h : x < s.n) :
    (s.setNext x v).nextp x = v := by
  simp [UF.setNext, UF.nextp, getNode_set_self s x _ h]

theorem setNext_next_ne (s : UF) (x v y : Nat) (h : x ≠ y) :
    (s.setNext x v).nextp y = s.nextp y := by
  simp [UF.setNext, UF.nextp, getNode_set_ne s x y _ h]

theorem setNext_n (s : UF) (x v : Nat) : (s.setNext x v).n = s.n :=
  n_set s x _

end UF

-- ============================================================================
-- UF: well-formedness and the root relation
-- ============================================================================

namespace UF

theorem RootRel.isRoot {s : UF} {x r : Nat} (h : RootRel s x r) :
    s.parent r = r := by
  induction h with
  | root x h => exact h
  | step x r h h2 ih => exact ih

theorem RootRel.unique {s : UF} {x r r' : Nat}
    (h : RootRel s x r) (h' : RootRel s x r') : r = r' := by
  induction h with
  | root x hx =>
    cases h' with
    | root _ _ => rfl
    | step _ _ hne _ => exact absurd hx hne
  | step x r hne h2 ih =>
    cases h' with
    | root _ hx => exact absurd hx hne
    | step _ _ _ h2' => exact ih h2'

theorem RootRel.lt {s : UF} (hB : s.Bounded) {x r : Nat}
    (h : RootRel s x r) (hx : x < s.n) : r < s.n := by
  induction h with
  | root x _ => exact hx
  | step x r _ h2 ih => exact ih ((hB x hx).1)

theorem RootRel.rank_le {s : UF} (hB : s.Bounded) {x r : Nat}
    (h : RootRel s x r) (hx : x < s.n) : s.rankOf x ≤ s.rankOf r := by
  induction h with
  | root x _ => exact Nat.le_refl _
  | step x r hne h2 ih =>
    exact Nat.le_trans (Nat.le_of_lt ((hB x hx).2.2.1 hne)) (ih ((hB x hx).1))

theorem RootRel.rank_lt {s : UF} (hB : s.Bounded) {x r : Nat}
    (h : RootRel s x r) (hx : x < s.n) (hne : x ≠ r) :
    s.rankOf x < s.rankOf r := by
  cases h with
  | root _ _ => exact absurd rfl hne
  | step _ _ hp h2 =>
    exact Nat.lt_of_lt_of_le ((hB x hx).2.2.1 hp) (h2.rank_le hB ((hB x hx).1))

theorem rootAux_of_isRoot (s : UF) (f x : Nat) (h : s.parent x = x) :
    rootAux s f x = x := by
  cases f with
  | zero => rfl
  | succ f => simp [rootAux, h]

theorem rootAux_eq {s : UF} (hB : s.Bounded) :
    ∀ (f x r : Nat), x < s.n → RootRel s x r → s.n ≤ f + s.rankOf x →
      rootAux s f x = r := by
  intro f
  induction f with
  | zero =>
    intro x r hx hrel hf
    by_cases hp : s.parent x = x
    · cases hrel with
      | root _ _ => rfl
      | step _ _ hne _ => exact absurd hp hne
    · exact absurd hf (Nat.not_le_of_lt (by simpa using (hB x hx).2.2.2.1))
  | succ f ih =>
    intro x r hx hrel hf
    by_cases hp : s.parent x = x
    · rw [rootAux_of_isRoot s _ x hp]
      cases hrel with
      | root _ _ => rfl
      | step _ _ hne _ => exact absurd hp hne
    · cases hrel with
      | root _ hr => exact absurd hr hp
      | step _ _ _ h2 =>
        have hpx : s.parent x < s.n := (hB x hx).1
        have hrk : s.rankOf x + 1 ≤ s.rankOf (s.parent x) :=
          (hB x hx).2.2.1 hp
        have : s.n ≤ f + s.rankOf (s.parent x) := by omega
        simpa [rootAux, hp] using ih (s.parent x) r hpx h2 this

theorem rootrel_exists {s : UF} (hB : s.Bounded) :
    ∀ (k x : Nat), x < s.n → s.n - s.rankOf x ≤ k → ∃ r, RootRel s x r := by
  intro k
  induction k with
  | zero =>
    intro x hx hk
    have := (hB x hx).2.2.2.1
    omega
  | succ k ih =>
    intro x hx hk
    by_cases hp : s.parent x = x
    · exact ⟨x, RootRel.root x hp⟩
    · have hpx : s.parent x < s.n := (hB x hx).1
      have hrk : s.rankOf x < s.rankOf (s.parent x) := (hB x hx).2.2.1 hp
      have hub : s.rankOf (s.parent x) < s.n := (hB (s.parent x) hpx).2.2.2.1
      obtain ⟨r, hr⟩ := ih (s.parent x) hpx (by omega)
      exact ⟨r, RootRel.step x r hp hr⟩

theorem class_root_rootrel {s : UF} (hB : s.Bounded) {x : Nat} (hx : x < s.n) :
    RootRel s x (s.class_root x) := by
  obtain ⟨r, hr⟩ := rootrel_exists hB s.n x hx (Nat.sub_le _ _)
  have : s.class_root x = r :=
    rootAux_eq hB s.n x r hx hr (Nat.le_add_right _ _)
  rw [this]; exact hr

theorem class_root_eq_of_rootrel {s : UF} (hB : s.Bounded) {x r : Nat}
    (hx : x < s.n) (h : RootRel s x r) : s.class_root x = r :=
  (class_root_rootrel hB hx).unique h

theorem class_root_lt {s : UF} (hB : s.Bounded) {x : Nat} (hx : x < s.n) :
    s.class_root x < s.n :=
  (class_root_rootrel hB hx).lt hB hx

theorem class_root_isRoot {s : UF} (hB : s.Bounded) {x : Nat} (hx : x < s.n) :
    s.parent (s.class_root x) = s.class_root x :=
  (class_root_rootrel hB hx).isRoot

theorem rootrel_congr {s s' : UF} (h : ∀ z, s'.parent z = s.parent z)
    {y ρ : Nat} (hrel : RootRel s y ρ) : RootRel s' y ρ := by
  induction hrel with
  | root x hx => exact RootRel.root x (by rw [h]; exact hx)
  | step x r hne h2 ih =>
    exact RootRel.step x r (by rw [h]; exact hne) (by rw [h]; exact ih)

theorem rootAux_congr {s s' : UF} (h : ∀ z, s'.parent z = s.parent z) :
    ∀ (f x : Nat), rootAux s' f x = rootAux s f x := by
  intro f
  induction f with
  | zero => intro x; rfl
  | succ f ih => intro x; simp [rootAux, h, ih]

theorem class_root_congr {s s' : UF} (h : ∀ z, s'.parent z = s.parent z)
    (hn : s'.n = s.n) (x : Nat) : s'.class_root x = s.class_root x := by
  unfold class_root
  rw [hn, rootAux_congr h]

-- ----------------------------------------------------------------------------
-- Path compression preserves roots
-- ----------------------------------------------------------------------------

/-- Setting the parent of `x` directly to its own root preserves every
`RootRel` fact (the heart of path-compression correctness). -/
theorem rootrel_setParent_compress {s : UF} {x r : Nat}
    (hx : x < s.n) (hxr : RootRel s x r) (hne : x ≠ r) :
    ∀ {y ρ : Nat}, RootRel s y ρ → RootRel (s.setParent x r) y ρ := by
  have hroot : s.parent r = r := hxr.isRoot
  have hrx : r ≠ x := fun h => hne h.symm
  intro y ρ hrel
  induction hrel with
  | root z hz =>
    rcases eq_or_ne z x with hzx | hzx
    · exfalso
      rw [hzx] at hz
      cases hxr with
      | root _ _ => exact hne rfl
      | step _ _ hp _ => exact hp hz
    · exact RootRel.root z (by rw [setParent_parent_ne s x r z (fun h => hzx h.symm)]; exact hz)
  | step z ρ2 hp h2 ih =>
    rcases eq_or_ne z x with hzx | hzx
    · have hzr : RootRel s x ρ2 := by
        rw [hzx] at hp h2
        exact RootRel.step x ρ2 hp h2
      have hρ : ρ2 = r := hzr.unique hxr
      rw [hzx, hρ]
      have hpr : (s.setParent x r).parent x = r := setParent_parent_self s x r hx
      have hrr : (s.setParent x r).parent r = r := by
        rw [setParent_parent_ne s x r r hne]; exact hroot
      exact RootRel.step x r (by rw [hpr]; exact hrx) (by rw [hpr]; exact RootRel.root r hrr)
    · have hparent : (s.setParent x r).parent z = s.parent z :=
        setParent_parent_ne s x r z (fun h => hzx h.symm)
      exact RootRel.step z ρ2 (by rw [hparent]; exact hp) (by rw [hparent]; exact ih)

/-- Setting the parent of `x` directly to its own root preserves the
well-formedness bundle. -/
theorem bounded_setParent_compress {s : UF} (hB : s.Bounded) {x r : Nat}
    (hx : x < s.n) (hxr : RootRel s x r) (hne : x ≠ r) :
    (s.setParent x r).Bounded := by
  have hr : r < s.n := hxr.lt hB hx
  have hrklt : s.rankOf x < s.rankOf r := hxr.rank_lt hB hx hne
  intro z hz
  rw [setParent_n] at hz
  have hb := hB z hz
  rcases eq_or_ne z x with rfl | hzx
  · refine ⟨?_, ?_, ?_, ?_, ?_⟩
    · rw [setParent_parent_self s z r hx, setParent_n]; exact hr
    · rw [setParent_next, setParent_n]; exact hb.2.1
    · intro _
      rw [setParent_parent_self s z r hx, setParent_rank, setParent_rank]
      exact hrklt
    · rw [setParent_rank, setParent_n]; exact hb.2.2.2.1
    · intro hcontra
      rw [setParent_parent_self s z r hx] at hcontra
      exact absurd hcontra.symm hne
  · have hparent : (s.setParent x r).parent z = s.parent z :=
      setParent_parent_ne s x r z (fun h => hzx h.symm)
    refine ⟨?_, ?_, ?_, ?_, ?_⟩
    · rw [hparent, setParent_n]; exact hb.1
    · rw [setParent_next, setParent_n]; exact hb.2.1
    · intro hne2
      rw [hparent] at hne2 ⊢
      rw [setParent_rank, setParent_rank]
      exact hb.2.2.1 hne2
    · rw [setParent_rank, setParent_n]; exact hb.2.2.2.1
    · intro heq
      rw [hparent] at heq
      rw [setParent_rank, setParent_size]
      exact hb.2.2.2.2 heq

/-- Master lemma about `compressAux` (pass 2 of `find`): it preserves
well-formedness, the element count, every `next`, `rank`, and `size`
value, and every root fact. -/
theorem compressAux_spec :
    ∀ (f : Nat) (s : UF) (x r : Nat), s.Bounded → x < s.n →
      RootRel s x r →
      (compressAux s r f x).Bounded ∧
      (compressAux s r f x).n = s.n ∧
      (∀ y, (compressAux s r f x).nextp y = s.nextp y) ∧
      (∀ y, (compressAux s r f x).rankOf y = s.rankOf y) ∧
      (∀ y, (compressAux s r f x).sizeOf y = s.sizeOf y) ∧
      (∀ y ρ, RootRel s y ρ → RootRel (compressAux s r f x) y ρ) := by
  intro f
  induction f with
  | zero =>
    intro s x r hB hx hxr
    exact ⟨hB, rfl, fun y => rfl, fun y => rfl, fun y => rfl, fun y ρ h => h⟩
  | succ f ih =>
    intro s x r hB hx hxr
    by_cases hstop : s.parent x = r
    · simp only [compressAux, hstop, if_pos rfl]
      exact ⟨hB, rfl, fun y => rfl, fun y => rfl, fun y => rfl, fun y ρ h => h⟩
    · have hroot : s.parent r = r := hxr.isRoot
      have hne : x ≠ r := by
        intro h; subst h; exact hstop hroot
      have hstep : RootRel s (s.parent x) r := by
        cases hxr with
        | root _ hpx => exact absurd (hpx.trans rfl) (by rw [hpx] at hstop; intro _; exact hstop rfl)
        | step _ _ _ h2 => exact h2
      have hpx : s.parent x < s.n := (hB x hx).1
      have hB' : (s.setParent x r).Bounded :=
        bounded_setParent_compress hB hx hxr hne
      have htrans : ∀ {y ρ : Nat}, RootRel s y ρ → RootRel (s.setParent x r) y ρ :=
        rootrel_setParent_compress hx hxr hne
      have hpx' : s.parent x < (s.setParent x r).n := by rw [setParent_n]; exact hpx
      have hstep' : RootRel (s.setParent x r) (s.parent x) r := htrans hstep
      obtain ⟨ihB, ihn, ihnext, ihrank, ihsize, ihrel⟩ :=
        ih (s.setParent x r) (s.parent x) r hB' hpx' hstep'
      have hunfold :
          compressAux s r (f + 1) x =
            compressAux (s.setParent x r) r f (s.parent x) := by
        simp [compressAux, hstop]
      rw [hunfold]
      refine ⟨ihB, by rw [ihn, setParent_n], ?_, ?_, ?_, ?_⟩
      · intro y; rw [ihnext y, setParent_next]
      · intro y; rw [ihrank y, setParent_rank]
      · intro y; rw [ihsize y, setParent_size]
      · intro y ρ h; exact ihrel y ρ (htrans h)

/-- `find` returns the class root and a state that differs from the input
only by path compression: same size, same class structure, same circular
lists. -/
theorem find_spec {s : UF} (hB : s.Bounded) {x : Nat} (hx : x < s.n) :
    (s.find x).1 = s.class_root x ∧
    (s.find x).2.Bounded ∧
    (s.find x).2.n = s.n ∧
    (∀ y, (s.find x).2.nextp y = s.nextp y) ∧
    (∀ y, (s.find x).2.rankOf y = s.rankOf y) ∧
    (∀ y, (s.find x).2.sizeOf y = s.sizeOf y) ∧
    (∀ y ρ, RootRel s y ρ → RootRel (s.find x).2 y ρ) ∧
    (∀ y, y < s.n → (s.find x).2.class_root y = s.class_root y) := by
  have hxr : RootRel s x (s.class_root x) := class_root_rootrel hB hx
  obtain ⟨hB', hn', hnext', hrank', hsize', hrel'⟩ :=
    compressAux_spec s.n s x (s.class_root x) hB hx hxr
  refine ⟨rfl, hB', hn', hnext', hrank', hsize', hrel', ?_⟩
  intro y hy
  have : RootRel (s.find x).2 y (s.class_root y) :=
    hrel' y (s.class_root y) (class_root_rootrel hB hy)
  exact class_root_eq_of_rootrel hB' (by rw [hn']; exact hy) this

end UF

-- ============================================================================
-- C10: VarData.release
-- ============================================================================

/-- C10: for every VarData box, `release<T>()` called when the box is empty
or when the stored type tag differs from `T` returns a null pointer and
leaves the box unchanged; only when the tag matches `T` (on a non-empty
box) does it return the stored value and reset the box to empty. -/
theorem vardata_release_spec (b : VarData) (T : Nat) :
    ((b.pvoid = none ∨ b.ti ≠ T) → b.release T = (none, b)) ∧
    (∀ v, b.pvoid = some v → b.ti = T → b.release T = (some v, VarData.reset)) := by
  constructor
  · intro h
    simp [VarData.release, h]
  · intro v hv ht
    simp [VarData.release, hv, ht]

/-- Witness for C10: a box holding tag 2 refuses tag 3 untouched, and
releases its value under tag 2. -/
theorem vardata_release_spec_witness :
    (VarData.mk (some 7) 2).release 3 = (none, VarData.mk (some 7) 2) ∧
    (VarData.mk (some 7) 2).release 2 = (some 7, VarData.reset) :=
  ⟨(vardata_release_spec ⟨some 7, 2⟩ 3).1 (by decide),
   (vardata_release_spec ⟨some 7, 2⟩ 2).2 7 rfl rfl⟩

-- ============================================================================
-- C8: where unite splices the circular lists
-- ============================================================================

/-- Helper: the union-by-rank parent update (whichever of the three
branches is taken) does not change any `next` pointer. -/
theorem unite_branch_next (s2 : UF) (ra rb k : Nat) (y : Nat) :
    (if s2.rankOf ra < s2.rankOf rb then s2.setParent ra rb
     else if s2.rankOf rb < s2.rankOf ra then s2.setParent rb ra
     else (s2.setParent rb ra).setRank ra k).nextp y = s2.nextp y := by
  split_ifs <;> simp [UF.setParent_next, UF.setRank_next]

/-- Helper: the union-by-rank parent update does not change the count. -/
theorem unite_branch_n (s2 : UF) (ra rb k : Nat) :
    (if s2.rankOf ra < s2.rankOf rb then s2.setParent ra rb
     else if s2.rankOf rb < s2.rankOf ra then s2.setParent rb ra
     else (s2.setParent rb ra).setRank ra k).n = s2.n := by
  split_ifs <;> simp [UF.setParent_n, UF.setRank_n]

/-- C8 (amended): on any well-formed state, `unite(a, b)` with `a` and `b`
in distinct classes splices the two circular membership lists by swapping
the `next` pointers stored at the two class roots: the roots' `next`
pointers are exchanged and every other `next` pointer is untouched. -/
theorem unite_splices_at_roots (s : UF) (hB : s.Bounded) (a b : Nat)
    (ha : a < s.n) (hb : b < s.n)
    (hne : s.class_root a ≠ s.class_root b) :
    (s.unite a b).1.nextp (s.class_root a) = s.nextp (s.class_root b) ∧
    (s.unite a b).1.nextp (s.class_root b) = s.nextp (s.class_root a) ∧
    ∀ y, y ≠ s.class_root a → y ≠ s.class_root b →
      (s.unite a b).1.nextp y = s.nextp y := by
  obtain ⟨hra, hB1, hn1, hnext1, hrank1, hsize1, hrel1, hcr1⟩ := UF.find_spec hB ha
  have hb1 : b < (s.find a).2.n := by rw [hn1]; exact hb
  obtain ⟨hrb, hB2, hn2, hnext2, hrank2, hsize2, hrel2, hcr2⟩ := UF.find_spec hB1 hb1
  have hrb' : ((s.find a).2.find b).1 = s.class_root b := by
    rw [hrb, hcr1 b hb]
  have hguard : (s.find a).1 ≠ ((s.find a).2.find b).1 := by
    rw [hra, hrb']; exact hne
  have hralt : s.class_root a < s.n := UF.class_root_lt hB ha
  have hrblt : s.class_root b < s.n := UF.class_root_lt hB hb
  have hunf : s.unite a b =
      (let s2 := ((s.find a).2.find b).2
       let ra := (s.find a).1
       let rb := ((s.find a).2.find b).1
       let combined := s2.sizeOf ra + s2.sizeOf rb
       let s3 :=
         if s2.rankOf ra < s2.rankOf rb then s2.setParent ra rb
         else if s2.rankOf rb < s2.rankOf ra then s2.setParent rb ra
         else (s2.setParent rb ra).setRank ra (s2.rankOf ra + 1)
       let newRoot := if s2.rankOf ra < s2.rankOf rb then rb else ra
       let oldRoot := if s2.rankOf ra < s2.rankOf rb then ra else rb
       let s4 := (s3.setSize newRoot combined).setSize oldRoot 0
       ((s4.setNext ra (s4.nextp rb)).setNext rb (s4.nextp ra), true)) := by
    rw [UF.unite]
    simp only [if_neg hguard]
  rw [hunf]
  simp only []
  set s2 := ((s.find a).2.find b).2 with hs2def
  have hnext20 : ∀ y, s2.nextp y = s.nextp y := fun y => by
    rw [hnext2 y, hnext1 y]
  have hn20 : s2.n = s.n := by rw [hn2, hn1]
  set ra := (s.find a).1 with hradef
  set rb := ((s.find a).2.find b).1 with hrbdef
  set s3 :=
    (if s2.rankOf ra < s2.rankOf rb then s2.setParent ra rb
     else if s2.rankOf rb < s2.rankOf ra then s2.setParent rb ra
     else (s2.setParent rb ra).setRank ra (s2.rankOf ra + 1)) with hs3def
  have hnext3 : ∀ y, s3.nextp y = s.nextp y := fun y => by
    rw [hs3def, unite_branch_next, hnext20]
  have hn3 : s3.n = s.n := by rw [hs3def, unite_branch_n, hn20]
  set nr := (if s2.rankOf ra < s2.rankOf rb then rb else ra) with hnrdef
  set odr := (if s2.rankOf ra < s2.rankOf rb then ra else rb) with hodrdef
  set s4 := ((s3.setSize nr (s2.sizeOf ra + s2.sizeOf rb)).setSize odr 0) with hs4def
  have hnext4 : ∀ y, s4.nextp y = s.nextp y := fun y => by
    rw [hs4def, UF.setSize_next, UF.setSize_next, hnext3]
  have hn4 : s4.n = s.n := by rw [hs4def, UF.setSize_n, UF.setSize_n, hn3]
  have hraval : ra = s.class_root a := hra
  have hrbval : rb = s.class_root b := hrb'
  have hrane : ra ≠ rb := by rw [hraval, hrbval]; exact hne
  have hralt4 : ra < s4.n := by rw [hn4, hraval]; exact hralt
  have hrblt4 : rb < s4.n := by rw [hn4, hrbval]; exact hrblt
  refine ⟨?_, ?_, ?_⟩
  · rw [← hraval]
    rw [UF.setNext_next_ne _ rb _ _ (fun h => hrane h.symm)]
    rw [UF.setNext_next_self _ ra _ hralt4]
    rw [hnext4, hrbval]
  · rw [← hrbval]
    rw [UF.setNext_next_self _ rb _ (by rw [UF.setNext_n]; exact hrblt4)]
    rw [hnext4, hraval]
  · intro y hya hyb
    have hya' : ra ≠ y := by rw [hraval]; exact fun h => hya h.symm
    have hyb' : rb ≠ y := by rw [hrbval]; exact fun h => hyb h.symm
    rw [UF.setNext_next_ne _ rb _ _ hyb', UF.setNext_next_ne _ ra _ _ hya', hnext4]

/-- Witness for the amended C8 theorem at the concrete three-element state
`ufDemo`: inputs 1 and 2 have class roots 0 and 2, and the splice happens
at those roots. -/
theorem unite_splices_at_roots_witness :
    (ufDemo.unite 1 2).1.nextp (ufDemo.class_root 1) =
        ufDemo.nextp (ufDemo.class_root 2) ∧
    (ufDemo.unite 1 2).1.nextp (ufDemo.class_root 2) =
        ufDemo.nextp (ufDemo.class_root 1) ∧
    ∀ y, y ≠ ufDemo.class_root 1 → y ≠ ufDemo.class_root 2 →
      (ufDemo.unite 1 2).1.nextp y = ufDemo.nextp y :=
  unite_splices_at_roots ufDemo (by decide) 1 2 (by decide) (by decide) (by decide)

/-- C8 counterexample: on the three-element state `ufDemo` (where the
inputs of `unite(1, 2)` are not the class roots), the code's `unite` does
not swap the `next` pointers at the input positions: the state it produces
differs from the one the input-position splice would produce — the code
leaves `next[1] = 0` while the input-position splice would set
`next[1] = 2`. -/
theorem unite_input_splice_counterexample :
    (ufDemo.unite 1 2).1 ≠ (UF.unite_splice_at_inputs ufDemo 1 2).1 ∧
    (ufDemo.unite 1 2).1.nextp 1 = 0 ∧
    (UF.unite_splice_at_inputs ufDemo 1 2).1.nextp 1 = 2 := by
  refine ⟨?_, by decide, by decide⟩
  decide

-- ============================================================================
-- C9 development: list helpers
-- ============================================================================

/-- A duplicate-free list of naturals all below `m` has length at most `m`. -/
theorem nodup_bounded_length_le (L : List Nat) (m : Nat) (hnd : L.Nodup)
    (hb : ∀ y ∈ L, y < m) : L.length ≤ m := by
  have h1 : L.toFinset.card = L.length := List.toFinset_card_of_nodup hnd
  have h2 : L.toFinset ⊆ Finset.range m := by
    intro y hy
    rw [Finset.mem_range]
    exact hb y (List.mem_toFinset.1 hy)
  have := Finset.card_le_card h2
  rw [h1, Finset.card_range] at this
  exact this

/-- Two disjoint duplicate-free lists of naturals below `m` have combined
length at most `m`. -/
theorem disjoint_nodup_length_le (A B : List Nat) (m : Nat)
    (hA : A.Nodup) (hB : B.Nodup) (hdisj : ∀ y ∈ A, y ∉ B)
    (hbA : ∀ y ∈ A, y < m) (hbB : ∀ y ∈ B, y < m) :
    A.length + B.length ≤ m := by
  have hnd : (A ++ B).Nodup := by
    rw [List.nodup_append]
    exact ⟨hA, hB, fun y hy => hdisj y hy⟩
  have := nodup_bounded_length_le (A ++ B) m hnd (by
    intro y hy
    rcases List.mem_append.1 hy with h | h
    · exact hbA y h
    · exact hbB y h)
  simpa using this

/-- Membership of a `getD` read at a valid index. -/
theorem getD_mem (L : List Nat) (i : Nat) (h : i < L.length) :
    L.getD i 0 ∈ L := by
  rw [List.getD_eq_getElem L 0 h]
  exact List.getElem_mem h

-- ============================================================================
-- C9 development: make_set preservation
-- ============================================================================

namespace UF

theorem make_set_n (s : UF) : s.make_set.n = s.n + 1 := by
  simp [make_set, n]

theorem make_set_getNode_lt (s : UF) (x : Nat) (h : x < s.n) :
    s.make_set.getNode x = s.getNode x := by
  unfold make_set getNode
  simp only []
  rw [List.getD_append _ _ _ _ h]

theorem make_set_getNode_at_n (s : UF) :
    s.make_set.getNode s.n = ⟨s.n, 0, 1, s.n⟩ := by
  unfold make_set getNode n
  simp only []
  rw [List.getD_append_right _ _ _ _ (Nat.le_refl _)]
  simp

theorem make_set_getNode_gt (s : UF) (x : Nat) (h : s.n < x) :
    s.make_set.getNode x = ⟨x, 0, 0, x⟩ := by
  unfold make_set getNode
  simp only []
  rw [List.getD_eq_default]
  simp only [List.length_append, List.length_singleton]
  exact h

theorem getNode_oob (s : UF) (x : Nat) (h : s.n ≤ x) :
    s.getNode x = ⟨x, 0, 0, x⟩ := by
  unfold getNode
  rw [List.getD_eq_default _ _ h]

theorem make_set_parent (s : UF) (x : Nat) :
    s.make_set.parent x = s.parent x := by
  rcases Nat.lt_trichotomy x s.n with h | h | h
  · simp [UF.parent, make_set_getNode_lt s x h]
  · rw [UF.parent, UF.parent, h, make_set_getNode_at_n,
      getNode_oob s s.n (Nat.le_refl _)]
  · rw [UF.parent, UF.parent, make_set_getNode_gt s x h,
      getNode_oob s x (Nat.le_of_lt h)]

theorem make_set_next (s : UF) (x : Nat) :
    s.make_set.nextp x = s.nextp x := by
  rcases Nat.lt_trichotomy x s.n with h | h | h
  · simp [UF.nextp, make_set_getNode_lt s x h]
  · rw [UF.nextp, UF.nextp, h, make_set_getNode_at_n,
      getNode_oob s s.n (Nat.le_refl _)]
  · rw [UF.nextp, UF.nextp, make_set_getNode_gt s x h,
      getNode_oob s x (Nat.le_of_lt h)]

theorem make_set_rank (s : UF) (x : Nat) :
    s.make_set.rankOf x = s.rankOf x := by
  rcases Nat.lt_trichotomy x s.n with h | h | h
  · simp [UF.rankOf, make_set_getNode_lt s x h]
  · rw [UF.rankOf, UF.rankOf, h, make_set_getNode_at_n,
      getNode_oob s s.n (Nat.le_refl _)]
  · rw [UF.rankOf, UF.rankOf, make_set_getNode_gt s x h,
      getNode_oob s x (Nat.le_of_lt h)]

theorem make_set_size_lt (s : UF) (x : Nat) (h : x < s.n) :
    s.make_set.sizeOf x = s.sizeOf x := by
  simp [UF.sizeOf, make_set_getNode_lt s x h]

theorem make_set_size_at_n (s : UF) : s.make_set.sizeOf s.n = 1 := by
  rw [UF.sizeOf, make_set_getNode_at_n]

theorem parent_oob (s : UF) (x : Nat) (h : s.n ≤ x) : s.parent x = x := by
  rw [UF.parent, getNode_oob s x h]

theorem next_oob (s : UF) (x : Nat) (h : s.n ≤ x) : s.nextp x = x := by
  rw [UF.nextp, getNode_oob s x h]

theorem rank_oob (s : UF) (x : Nat) (h : s.n ≤ x) : s.rankOf x = 0 := by
  rw [UF.rankOf, getNode_oob s x h]

theorem make_set_bounded (s : UF) (hB : s.Bounded) : s.make_set.Bounded := by
  intro z hz
  rw [make_set_n] at hz
  rw [make_set_parent, make_set_next, make_set_rank, make_set_rank, make_set_n]
  rcases Nat.lt_or_ge z s.n with h | h
  · obtain ⟨h1, h2, h3, h4, h5⟩ := hB z h
    refine ⟨by omega, by omega, h3, by omega, ?_⟩
    intro hp
    rw [make_set_size_lt s z h]
    exact h5 hp
  · have hz' : z = s.n := by omega
    rw [hz', parent_oob s s.n (Nat.le_refl _), next_oob s s.n (Nat.le_refl _),
      rank_oob s s.n (Nat.le_refl _), make_set_size_at_n]
    refine ⟨by omega, by omega, by intro hc; exact absurd rfl hc, by omega, by omega⟩

theorem make_set_class_root (s : UF) (hB : s.Bounded) (x : Nat) (hx : x < s.n) :
    s.make_set.class_root x = s.class_root x := by
  have hrel : RootRel s x (s.class_root x) := class_root_rootrel hB hx
  have hrel' : RootRel s.make_set x (s.class_root x) :=
    rootrel_congr (fun z => make_set_parent s z) hrel
  exact class_root_eq_of_rootrel (make_set_bounded s hB)
    (by rw [make_set_n]; omega) hrel'

end UF

-- ============================================================================
-- C9 development: cycle lists, rotations, merging
-- ============================================================================

theorem add_mod_mod (a b m : Nat) : (a % m + b) % m = (a + b) % m := by
  conv_rhs => rw [Nat.add_mod]
  conv_lhs => rw [Nat.add_mod]
  rw [Nat.mod_mod_of_dvd _ (dvd_refl m)]

/-- Reading a rotated list at a valid index. -/
theorem getD_rotate (L : List Nat) (k i : Nat) (h : i < L.length) :
    (L.rotate k).getD i 0 = L.getD ((i + k) % L.length) 0 := by
  have hlen : (L.rotate k).length = L.length := List.length_rotate L k
  have hi : i < (L.rotate k).length := by rw [hlen]; exact h
  have hmod : (i + k) % L.length < L.length :=
    Nat.mod_lt _ (Nat.lt_of_le_of_lt (Nat.zero_le i) h)
  rw [List.getD_eq_getElem _ _ hi, List.getD_eq_getElem _ _ hmod]
  have := List.get_rotate L k ⟨i, hi⟩
  simpa using this

namespace UF

theorem isCycle_congr {s t : UF} (h : ∀ y, t.nextp y = s.nextp y)
    {L : List Nat} (hc : IsCycle s L) : IsCycle t L :=
  ⟨hc.1, fun i hi => by rw [h]; exact hc.2 i hi⟩

theorem isCycle_rotate {s : UF} {L : List Nat} (hc : IsCycle s L) (k : Nat) :
    IsCycle s (L.rotate k) := by
  refine ⟨by rw [Ne, List.rotate_eq_nil_iff]; exact hc.1, ?_⟩
  intro i hi
  rw [List.length_rotate] at hi
  have hlen0 : 0 < L.length := Nat.lt_of_le_of_lt (Nat.zero_le i) hi
  rw [getD_rotate L k i hi, List.length_rotate,
    getD_rotate L k ((i + 1) % L.length) (Nat.mod_lt _ hlen0)]
  rw [hc.2 ((i + k) % L.length) (Nat.mod_lt _ hlen0)]
  congr 1
  rw [add_mod_mod, add_mod_mod]
  congr 1
  omega

/-- Splicing two disjoint cycles: if `pa` is the last entry of cycle `A`
and `pb` the last entry of cycle `B`, and `t` differs from `s` only in
that the `next` pointers at `pa` and `pb` are exchanged, then `A ++ B` is
a cycle of `t`. -/
theorem isCycle_merge {s t : UF} {A B : List Nat} {pa pb : Nat}
    (hA : IsCycle s A) (hB : IsCycle s B)
    (hnda : A.Nodup) (hndb : B.Nodup)
    (halast : A.getD (A.length - 1) 0 = pa)
    (hblast : B.getD (B.length - 1) 0 = pb)
    (hdisj : ∀ y ∈ A, y ∉ B)
    (hswap1 : t.nextp pa = s.nextp pb)
    (hswap2 : t.nextp pb = s.nextp pa)
    (hother : ∀ y, y ≠ pa → y ≠ pb → t.nextp y = s.nextp y) :
    IsCycle t (A ++ B) := by
  have hA0 : 0 < A.length := List.length_pos.2 hA.1
  have hB0 : 0 < B.length := List.length_pos.2 hB.1
  have hpaA : pa ∈ A := halast ▸ getD_mem A _ (by omega)
  have hpbB : pb ∈ B := hblast ▸ getD_mem B _ (by omega)
  refine ⟨by simp [hA.1], ?_⟩
  intro i hi
  rw [List.length_append] at hi
  have hlen : (A ++ B).length = A.length + B.length := List.length_append A B
  rcases Nat.lt_trichotomy i (A.length - 1) with hcase | hcase | hcase
  · -- interior of A
    have hiA : i < A.length := by omega
    have hi1A : i + 1 < A.length := by omega
    rw [List.getD_append _ _ _ _ hiA]
    have hne_pa : A.getD i 0 ≠ pa := by
      intro he
      have : i = A.length - 1 := by
        have h1 := List.getD_eq_getElem A 0 hiA
        have h2 := List.getD_eq_getElem A 0 (show A.length - 1 < A.length by omega)
        rw [h1] at he
        rw [h2] at halast
        have := (List.Nodup.getElem_inj_iff hnda).1 (he.trans halast.symm)
        omega
      omega
    have hne_pb : A.getD i 0 ≠ pb := by
      intro he
      exact hdisj _ (getD_mem A i hiA) (he ▸ hpbB)
    rw [hother _ hne_pa hne_pb, hA.2 i hiA, Nat.mod_eq_of_lt hi1A]
    rw [hlen, Nat.mod_eq_of_lt (by omega), List.getD_append _ _ _ _ hi1A]
  · -- the entry pa: jump into B
    rw [hcase, List.getD_append _ _ _ _ (by omega), halast, hswap1]
    have := hB.2 (B.length - 1) (by omega)
    rw [hblast] at this
    rw [this]
    have hmod : (B.length - 1 + 1) % B.length = 0 := by
      have : B.length - 1 + 1 = B.length := by omega
      rw [this, Nat.mod_self]
    rw [hmod, hlen, Nat.mod_eq_of_lt (by omega)]
    have : A.length - 1 + 1 = A.length := by omega
    rw [this, List.getD_append_right _ _ _ _ (Nat.le_refl _), Nat.sub_self]
  · -- inside B
    have hiB : A.length ≤ i := by omega
    have hj : i - A.length < B.length := by omega
    rw [List.getD_append_right _ _ _ _ hiB]
    rcases Nat.lt_trichotomy (i - A.length) (B.length - 1) with hc2 | hc2 | hc2
    · -- interior of B
      have hne_pb : B.getD (i - A.length) 0 ≠ pb := by
        intro he
        have h1 := List.getD_eq_getElem B 0 hj
        have h2 := List.getD_eq_getElem B 0 (show B.length - 1 < B.length by omega)
        rw [h1] at he
        rw [h2] at hblast
        have := (List.Nodup.getElem_inj_iff hndb).1 (he.trans hblast.symm)
        omega
      have hne_pa : B.getD (i - A.length) 0 ≠ pa := by
        intro he
        exact hdisj pa hpaA (he ▸ getD_mem B _ hj)
      rw [hother _ hne_pa hne_pb, hB.2 _ hj,
        Nat.mod_eq_of_lt (show i - A.length + 1 < B.length by omega)]
      rw [hlen, Nat.mod_eq_of_lt (by omega),
        List.getD_append_right _ _ _ _ (show A.length ≤ i + 1 by omega)]
      congr 1
      omega
    · -- the entry pb: wrap to the front of A
      rw [hc2, hblast, hswap2]
      have := hA.2 (A.length - 1) (by omega)
      rw [halast] at this
      rw [this]
      have hmod : (A.length - 1 + 1) % A.length = 0 := by
        have : A.length - 1 + 1 = A.length := by omega
        rw [this, Nat.mod_self]
      rw [hmod]
      have hI : i = A.length + B.length - 1 := by omega
      have : (i + 1) % (A ++ B).length = 0 := by
        rw [hlen, hI]
        have : A.length + B.length - 1 + 1 = A.length + B.length := by omega
        rw [this, Nat.mod_self]
      rw [this, List.getD_append _ _ _ _ hA0]
    · omega

end UF

-- ============================================================================
-- C9 development: the class-members walk reads off a cycle list
-- ============================================================================

namespace UF

theorem isCycle_congr_mem {s t : UF} {L : List Nat}
    (h : ∀ y ∈ L, t.nextp y = s.nextp y) (hc : IsCycle s L) : IsCycle t L :=
  ⟨hc.1, fun i hi => by rw [h _ (getD_mem L i hi)]; exact hc.2 i hi⟩

theorem class_root_of_root (s : UF) (x : Nat) (h : s.parent x = x) :
    s.class_root x = x :=
  rootAux_of_isRoot s s.n x h

theorem walkAux_cycle {s : UF} {L : List Nat} (hc : IsCycle s L)
    (hnd : L.Nodup) :
    ∀ (m j f : Nat), j + m = L.length → 1 ≤ j → m ≤ f →
      walkAux s (L.getD 0 0) f (L.getD (j % L.length) 0) = L.drop j := by
  intro m
  induction m with
  | zero =>
    intro j f hj h1 hf
    have hjlen : j = L.length := by omega
    rw [hjlen, Nat.mod_self, List.drop_length]
    cases f with
    | zero => rfl
    | succ f => simp [walkAux]
  | succ m ih =>
    intro j f hj h1 hf
    have hjlt : j < L.length := by omega
    have hmod : j % L.length = j := Nat.mod_eq_of_lt hjlt
    cases f with
    | zero => omega
    | succ f =>
      have hne : L.getD (j % L.length) 0 ≠ L.getD 0 0 := by
        rw [hmod]
        intro he
        rw [List.getD_eq_getElem L 0 hjlt,
          List.getD_eq_getElem L 0 (by omega : 0 < L.length)] at he
        have := (List.Nodup.getElem_inj_iff hnd).1 he
        omega
      rw [walkAux, if_neg hne]
      have hnext : s.nextp (L.getD (j % L.length) 0) =
          L.getD ((j + 1) % L.length) 0 := by
        rw [hmod]
        exact hc.2 j hjlt
      rw [hnext, ih (j + 1) f (by omega) (by omega) (by omega)]
      rw [hmod]
      rw [List.drop_eq_getElem_cons hjlt, ← List.getD_eq_getElem L 0 hjlt]

/-- The do-while walk of `get_class_members`, started at the head of a
cycle list, returns exactly that list (given enough fuel). -/
theorem get_class_members_of_cycle {s : UF} {L : List Nat} (hc : IsCycle s L)
    (hnd : L.Nodup) (hfuel : L.length - 1 ≤ s.n) :
    s.get_class_members (L.getD 0 0) = L := by
  unfold get_class_members
  have hlen0 : 0 < L.length := List.length_pos.2 hc.1
  have h1 : s.nextp (L.getD 0 0) = L.getD (1 % L.length) 0 := by
    have := hc.2 0 hlen0
    simpa using this
  rw [h1, walkAux_cycle hc hnd (L.length - 1) 1 s.n (by omega) (by omega) hfuel]
  cases L with
  | nil => exact absurd rfl hc.1
  | cons a t => simp

theorem rotate_one_last (L : List Nat) (h : L ≠ []) :
    (L.rotate 1).getD ((L.rotate 1).length - 1) 0 = L.getD 0 0 := by
  have hlen0 : 0 < L.length := List.length_pos.2 h
  rw [List.length_rotate, getD_rotate L 1 (L.length - 1) (by omega)]
  congr 1
  have : L.length - 1 + 1 = L.length := by omega
  rw [this, Nat.mod_self]

theorem rotate_indexOf_head (M : List Nat) (x : Nat) (hx : x ∈ M) :
    (M.rotate (M.indexOf x)).getD 0 0 = x := by
  have hidx : M.indexOf x < M.length := List.indexOf_lt_length.2 hx
  have hlen0 : 0 < M.length := by omega
  rw [getD_rotate M _ 0 hlen0]
  have : (0 + M.indexOf x) % M.length = M.indexOf x := by
    rw [Nat.zero_add]
    exact Nat.mod_eq_of_lt hidx
  rw [this, List.getD_eq_getElem M 0 hidx]
  have := List.indexOf_get (show M.indexOf x < M.length from hidx)
  rw [List.get_eq_getElem] at this
  exact this

end UF

-- ============================================================================
-- C9 development: invariant preservation through unite's merge
-- ============================================================================

namespace UF

/-- The `RootRel` mapping induced by hanging the root `odr` under the root
`nr`: every old root fact survives, with `odr` renamed to `nr`. -/
theorem rootrel_reparent {s2 t5 : UF} {nr odr : Nat}
    (hp5 : ∀ y, t5.parent y = if y = odr then nr else s2.parent y)
    (hnr_root : s2.parent nr = nr) (hodr_root : s2.parent odr = odr)
    (hne : odr ≠ nr) :
    ∀ {y ρ : Nat}, RootRel s2 y ρ → RootRel t5 y (if ρ = odr then nr else ρ) := by
  intro y ρ hrel
  induction hrel with
  | root z hz =>
    rcases eq_or_ne z odr with hzo | hzo
    · rw [hzo, if_pos rfl]
      have hpo : t5.parent odr = nr := by rw [hp5]; simp
      have hpn : t5.parent nr = nr := by
        rw [hp5, if_neg (Ne.symm hne)]; exact hnr_root
      refine RootRel.step odr nr ?_ ?_
      · rw [hpo]; exact Ne.symm hne
      · rw [hpo]; exact RootRel.root nr hpn
    · rw [if_neg hzo]
      exact RootRel.root z (by rw [hp5, if_neg hzo]; exact hz)
  | step z ρ2 hp h2 ih =>
    have hzo : z ≠ odr := by
      intro he; rw [he] at hp; exact hp hodr_root
    have hpz : t5.parent z = s2.parent z := by rw [hp5, if_neg hzo]
    exact RootRel.step z _ (by rw [hpz]; exact hp) (by rw [hpz]; exact ih)

/-- Invariant preservation through the merging phase of `unite`, generic
over the three union-by-rank branches: `odr` is hung under `nr`, the new
root's rank may grow (tie bump), sizes are combined at `nr`, and the
circular lists are spliced by exchanging the `next` pointers of the two
roots. -/
theorem inv_merge {s2 t5 : UF} {nr odr : Nat}
    (hB2 : s2.Bounded) (hci2 : CycleInv s2)
    (hnrlt : nr < s2.n) (hodrlt : odr < s2.n)
    (hnr_root : s2.parent nr = nr) (hodr_root : s2.parent odr = odr)
    (hne : odr ≠ nr)
    (hn5 : t5.n = s2.n)
    (hp5 : ∀ y, t5.parent y = if y = odr then nr else s2.parent y)
    (hrank5_ne : ∀ y, y ≠ nr → t5.rankOf y = s2.rankOf y)
    (hrank5_ge : s2.rankOf nr ≤ t5.rankOf nr)
    (hrank5_odr : s2.rankOf odr < t5.rankOf nr)
    (hrank5_bound : t5.rankOf nr + 1 ≤ s2.sizeOf nr + s2.sizeOf odr)
    (hrank5_lt : t5.rankOf nr < s2.n)
    (hnext5a : t5.nextp nr = s2.nextp odr)
    (hnext5b : t5.nextp odr = s2.nextp nr)
    (hnext5o : ∀ y, y ≠ nr → y ≠ odr → t5.nextp y = s2.nextp y)
    (hsize5a : t5.sizeOf nr = s2.sizeOf nr + s2.sizeOf odr)
    (hsize5o : ∀ y, y ≠ nr → y ≠ odr → t5.sizeOf y = s2.sizeOf y) :
    Inv t5 := by
  have hmap0 : ∀ {y ρ : Nat}, RootRel s2 y ρ →
      RootRel t5 y (if ρ = odr then nr else ρ) :=
    rootrel_reparent hp5 hnr_root hodr_root hne
  have hB5 : t5.Bounded := by
    intro z hz
    rw [hn5] at hz
    obtain ⟨hb1, hb2, hb3, hb4, hb5⟩ := hB2 z hz
    refine ⟨?_, ?_, ?_, ?_, ?_⟩
    · rw [hp5, hn5]
      split_ifs with h
      · exact hnrlt
      · exact hb1
    · rw [hn5]
      rcases eq_or_ne z nr with rfl | hznr
      · rw [hnext5a]; exact (hB2 odr hodrlt).2.1
      · rcases eq_or_ne z odr with rfl | hzodr
        · rw [hnext5b]; exact (hB2 nr hnrlt).2.1
        · rw [hnext5o z hznr hzodr]; exact hb2
    · intro hpz
      rw [hp5] at hpz ⊢
      by_cases hzo : z = odr
      · rw [if_pos hzo]
        rw [hzo, hrank5_ne odr hne]
        exact hrank5_odr
      · rw [if_neg hzo] at hpz ⊢
        have hzr : z ≠ nr := by
          intro he; rw [he] at hpz; exact hpz hnr_root
        rw [hrank5_ne z hzr]
        rcases eq_or_ne (s2.parent z) nr with hpn | hpn
        · rw [hpn]
          exact Nat.lt_of_lt_of_le (by rw [← hpn]; exact hb3 hpz) hrank5_ge
        · rw [hrank5_ne _ hpn]; exact hb3 hpz
    · rw [hn5]
      rcases eq_or_ne z nr with rfl | hznr
      · exact hrank5_lt
      · rw [hrank5_ne z hznr]; exact hb4
    · intro hpz
      rw [hp5] at hpz
      by_cases hzo : z = odr
      · rw [if_pos hzo] at hpz
        exfalso
        rw [hzo] at hpz
        exact hne hpz.symm
      · rw [if_neg hzo] at hpz
        rcases eq_or_ne z nr with rfl | hznr
        · rw [hsize5a]
          exact hrank5_bound
        · rw [hrank5_ne z hznr, hsize5o z hznr hzo]
          exact hb5 hpz
  have hmap : ∀ y, y < s2.n →
      t5.class_root y =
        (if s2.class_root y = odr then nr else s2.class_root y) := by
    intro y hy
    exact class_root_eq_of_rootrel hB5 (by rw [hn5]; exact hy)
      (hmap0 (class_root_rootrel hB2 hy))
  have hcr_nr : s2.class_root nr = nr := class_root_of_root _ _ hnr_root
  have hcr_odr : s2.class_root odr = odr := class_root_of_root _ _ hodr_root
  obtain ⟨Ln, hcLn, hndLn, hheadLn, hmemLn, hszLn⟩ := hci2 nr hnrlt
  obtain ⟨Lo, hcLo, hndLo, hheadLo, hmemLo, hszLo⟩ := hci2 odr hodrlt
  have hLnne : Ln ≠ [] := hcLn.1
  have hLone : Lo ≠ [] := hcLo.1
  have hmemLn' : ∀ y, y ∈ Ln ↔ y < s2.n ∧ s2.class_root y = nr := by
    intro y; rw [hmemLn y, hcr_nr]
  have hmemLo' : ∀ y, y ∈ Lo ↔ y < s2.n ∧ s2.class_root y = odr := by
    intro y; rw [hmemLo y, hcr_odr]
  have hlastA : (Ln.rotate 1).getD ((Ln.rotate 1).length - 1) 0 = nr := by
    rw [rotate_one_last Ln hLnne, hheadLn]
  have hlastB : (Lo.rotate 1).getD ((Lo.rotate 1).length - 1) 0 = odr := by
    rw [rotate_one_last Lo hLone, hheadLo]
  have hdisj : ∀ y ∈ Ln.rotate 1, y ∉ Lo.rotate 1 := by
    intro y hy hy2
    rw [List.mem_rotate] at hy hy2
    have h1 := ((hmemLn' y).1 hy).2
    have h2 := ((hmemLo' y).1 hy2).2
    rw [h1] at h2
    exact hne h2.symm
  have hM : IsCycle t5 (Ln.rotate 1 ++ Lo.rotate 1) :=
    isCycle_merge (isCycle_rotate hcLn 1) (isCycle_rotate hcLo 1)
      (List.nodup_rotate.2 hndLn) (List.nodup_rotate.2 hndLo)
      hlastA hlastB hdisj hnext5a hnext5b hnext5o
  have hndM : (Ln.rotate 1 ++ Lo.rotate 1).Nodup := by
    rw [List.nodup_append]
    exact ⟨List.nodup_rotate.2 hndLn, List.nodup_rotate.2 hndLo, hdisj⟩
  have hmemM : ∀ y, y ∈ Ln.rotate 1 ++ Lo.rotate 1 ↔
      (y < s2.n ∧ (s2.class_root y = nr ∨ s2.class_root y = odr)) := by
    intro y
    rw [List.mem_append, List.mem_rotate, List.mem_rotate, hmemLn' y, hmemLo' y]
    constructor
    · rintro (⟨h1, h2⟩ | ⟨h1, h2⟩)
      · exact ⟨h1, Or.inl h2⟩
      · exact ⟨h1, Or.inr h2⟩
    · rintro ⟨h1, h2 | h2⟩
      · exact Or.inl ⟨h1, h2⟩
      · exact Or.inr ⟨h1, h2⟩
  have hlenM : (Ln.rotate 1 ++ Lo.rotate 1).length =
      s2.sizeOf nr + s2.sizeOf odr := by
    rw [List.length_append, List.length_rotate, List.length_rotate]
    rw [hcr_nr] at hszLn
    rw [hcr_odr] at hszLo
    omega
  refine ⟨hB5, ?_⟩
  intro x hx
  rw [hn5] at hx
  by_cases hxm : s2.class_root x = nr ∨ s2.class_root x = odr
  · have hcr5x : t5.class_root x = nr := by
      rw [hmap x hx]
      rcases hxm with h | h
      · rw [h, if_neg (Ne.symm hne)]
      · rw [h, if_pos rfl]
    have hxM : x ∈ Ln.rotate 1 ++ Lo.rotate 1 := (hmemM x).2 ⟨hx, hxm⟩
    refine ⟨(Ln.rotate 1 ++ Lo.rotate 1).rotate
        ((Ln.rotate 1 ++ Lo.rotate 1).indexOf x),
      isCycle_rotate hM _, List.nodup_rotate.2 hndM,
      rotate_indexOf_head _ x hxM, ?_, ?_⟩
    · intro y
      rw [List.mem_rotate, hmemM y, hn5, hcr5x]
      constructor
      · rintro ⟨hy, hcy⟩
        refine ⟨hy, ?_⟩
        rw [hmap y hy]
        rcases hcy with h | h
        · rw [h, if_neg (Ne.symm hne)]
        · rw [h, if_pos rfl]
      · rintro ⟨hy, hcy⟩
        refine ⟨hy, ?_⟩
        rw [hmap y hy] at hcy
        by_cases hco : s2.class_root y = odr
        · exact Or.inr hco
        · rw [if_neg hco] at hcy
          exact Or.inl hcy
    · rw [hcr5x, hsize5a, List.length_rotate, hlenM]
  · push_neg at hxm
    obtain ⟨Lx, hcLx, hndLx, hheadLx, hmemLx, hszLx⟩ := hci2 x hx
    have hmemLx' : ∀ y ∈ Lx, y ≠ nr ∧ y ≠ odr := by
      intro y hy
      obtain ⟨hy1, hy2⟩ := (hmemLx y).1 hy
      constructor
      · intro he
        rw [he, hcr_nr] at hy2
        exact hxm.1 hy2.symm
      · intro he
        rw [he, hcr_odr] at hy2
        exact hxm.2 hy2.symm
    have hcr5x : t5.class_root x = s2.class_root x := by
      rw [hmap x hx, if_neg hxm.2]
    refine ⟨Lx,
      isCycle_congr_mem
        (fun y hy => hnext5o y (hmemLx' y hy).1 (hmemLx' y hy).2) hcLx,
      hndLx, hheadLx, ?_, ?_⟩
    · intro y
      rw [hmemLx y, hn5, hcr5x]
      constructor
      · rintro ⟨hy, he⟩
        refine ⟨hy, ?_⟩
        rw [hmap y hy, he, if_neg hxm.2]
      · rintro ⟨hy, he⟩
        rw [hmap y hy] at he
        refine ⟨hy, ?_⟩
        by_cases hco : s2.class_root y = odr
        · rw [if_pos hco] at he
          exact absurd he.symm hxm.1
        · rw [if_neg hco] at he
          exact he
    · rw [hcr5x, hsize5o _ hxm.1 hxm.2]
      exact hszLx

end UF

-- ============================================================================
-- C9 development: Inv is preserved by every API operation
-- ============================================================================

namespace UF

theorem setParent_parent_ite (s : UF) (x v y : Nat) (hx : x < s.n) :
    (s.setParent x v).parent y = if y = x then v else s.parent y := by
  split_ifs with h
  · rw [h]; exact setParent_parent_self s x v hx
  · exact setParent_parent_ne s x v y (fun he => h he.symm)

theorem inv_empty : Inv UF.empty := by
  constructor
  · intro x hx
    simp [UF.empty, UF.n] at hx
  · intro x hx
    simp [UF.empty, UF.n] at hx

theorem cycleInv_transfer {s t : UF} (hn : t.n = s.n)
    (hnext : ∀ y, t.nextp y = s.nextp y)
    (hsize : ∀ y, t.sizeOf y = s.sizeOf y)
    (hcr : ∀ y, y < s.n → t.class_root y = s.class_root y)
    (hci : CycleInv s) : CycleInv t := by
  intro x hx
  rw [hn] at hx
  obtain ⟨L, hcyc, hnd, hhead, hmem, hsz⟩ := hci x hx
  refine ⟨L, isCycle_congr hnext hcyc, hnd, hhead, ?_, ?_⟩
  · intro y
    rw [hmem y, hn]
    constructor
    · rintro ⟨hy, he⟩
      exact ⟨hy, by rw [hcr y hy, hcr x hx]; exact he⟩
    · rintro ⟨hy, he⟩
      exact ⟨hy, by rw [hcr y hy, hcr x hx] at he; exact he⟩
  · rw [hsize, hcr x hx]
    exact hsz

theorem inv_find {s : UF} (hI : Inv s) {x : Nat} (hx : x < s.n) :
    Inv (s.find x).2 := by
  obtain ⟨hB, hci⟩ := hI
  obtain ⟨_, hB', hn', hnext', hrank', hsize', hrel', hcr'⟩ := find_spec hB hx
  exact ⟨hB', cycleInv_transfer hn' hnext' hsize' hcr' hci⟩

theorem inv_make_set {s : UF} (hI : Inv s) : Inv s.make_set := by
  obtain ⟨hB, hci⟩ := hI
  refine ⟨make_set_bounded s hB, ?_⟩
  intro x hx
  rw [make_set_n] at hx
  have hcrn : s.make_set.class_root s.n = s.n := by
    apply class_root_of_root
    rw [make_set_parent]
    exact parent_oob s s.n (Nat.le_refl _)
  rcases Nat.lt_or_ge x s.n with hxlt | hxge
  · obtain ⟨L, hcyc, hnd, hhead, hmem, hsz⟩ := hci x hxlt
    have hmemb : ∀ y ∈ L, y < s.n := fun y hy => ((hmem y).1 hy).1
    refine ⟨L, isCycle_congr (make_set_next s) hcyc, hnd, hhead, ?_, ?_⟩
    · intro y
      rw [hmem y, make_set_n]
      constructor
      · rintro ⟨hy, he⟩
        refine ⟨by omega, ?_⟩
        rw [make_set_class_root s hB y hy, make_set_class_root s hB x hxlt]
        exact he
      · rintro ⟨hy, he⟩
        rcases Nat.lt_trichotomy y s.n with h | h | h
        · refine ⟨h, ?_⟩
          rw [make_set_class_root s hB y h, make_set_class_root s hB x hxlt] at he
          exact he
        · exfalso
          rw [h, hcrn, make_set_class_root s hB x hxlt] at he
          have := class_root_lt hB hxlt
          omega
        · omega
    · rw [make_set_class_root s hB x hxlt, make_set_size_lt s _ (class_root_lt hB hxlt)]
      exact hsz
  · have hxeq : x = s.n := by omega
    refine ⟨[s.n], ?_, by simp, by rw [hxeq]; simp, ?_, ?_⟩
    · refine ⟨by simp, ?_⟩
      intro i hi
      simp only [List.length_singleton] at hi
      have : i = 0 := by omega
      rw [this]
      have h01 : (0 + 1) % ([s.n] : List Nat).length = 0 := by simp
      rw [h01]
      simp only [List.getD_cons_zero]
      rw [make_set_next]
      exact next_oob s s.n (Nat.le_refl _)
    · intro y
      simp only [List.mem_singleton]
      constructor
      · intro he
        rw [he, hxeq, make_set_n]
        exact ⟨by omega, rfl⟩
      · rintro ⟨hy, he⟩
        rw [make_set_n] at hy
        rw [hxeq, hcrn] at he
        rcases Nat.lt_or_ge y s.n with h | h
        · exfalso
          rw [make_set_class_root s hB y h] at he
          have := class_root_lt hB h
          omega
        · omega
    · rw [hxeq, hcrn, make_set_size_at_n]
      simp

/-- Invariant preservation through the merging tail of `unite`, shared by
the three union-by-rank branches: once the parent/rank updates `s3` are
characterised, the size updates and root splice preserve the invariant. -/
theorem inv_unite_branch {s2 : UF} (hB2 : Bounded s2) (hci2 : CycleInv s2)
    {ra rb nr odr : Nat} (hra : ra < s2.n) (hrb : rb < s2.n)
    (hset : (nr = ra ∧ odr = rb) ∨ (nr = rb ∧ odr = ra))
    (hra_root : s2.parent ra = ra) (hrb_root : s2.parent rb = rb)
    (hne : ra ≠ rb)
    {s3 : UF}
    (hp3 : ∀ y, s3.parent y = if y = odr then nr else s2.parent y)
    (hn3 : s3.n = s2.n)
    (hnext3 : ∀ y, s3.nextp y = s2.nextp y)
    (hsize3 : ∀ y, s3.sizeOf y = s2.sizeOf y)
    (hrank3_ne : ∀ y, y ≠ nr → s3.rankOf y = s2.rankOf y)
    (hrank3_ge : s2.rankOf nr ≤ s3.rankOf nr)
    (hrank3_odr : s2.rankOf odr < s3.rankOf nr)
    (hrank3_bound : s3.rankOf nr + 1 ≤ s2.sizeOf nr + s2.sizeOf odr)
    (hrank3_lt : s3.rankOf nr < s2.n) :
    Inv ((((s3.setSize nr (s2.sizeOf ra + s2.sizeOf rb)).setSize odr 0).setNext ra
        (((s3.setSize nr (s2.sizeOf ra + s2.sizeOf rb)).setSize odr 0).nextp rb)).setNext rb
        (((s3.setSize nr (s2.sizeOf ra + s2.sizeOf rb)).setSize odr 0).nextp ra)) := by
  have hnrlt : nr < s2.n := by rcases hset with ⟨h1, _⟩ | ⟨h1, _⟩ <;> rw [h1] <;> assumption
  have hodrlt : odr < s2.n := by rcases hset with ⟨_, h2⟩ | ⟨_, h2⟩ <;> rw [h2] <;> assumption
  have hnr_root : s2.parent nr = nr := by
    rcases hset with ⟨h1, _⟩ | ⟨h1, _⟩ <;> rw [h1] <;> assumption
  have hodr_root : s2.parent odr = odr := by
    rcases hset with ⟨_, h2⟩ | ⟨_, h2⟩ <;> rw [h2] <;> assumption
  have hnodr : odr ≠ nr := by
    rcases hset with ⟨h1, h2⟩ | ⟨h1, h2⟩ <;> rw [h1, h2]
    · exact fun h => hne h.symm
    · exact hne
  set s4 := (s3.setSize nr (s2.sizeOf ra + s2.sizeOf rb)).setSize odr 0 with hs4
  have hn4 : s4.n = s2.n := by rw [hs4, setSize_n, setSize_n, hn3]
  have hp4 : ∀ y, s4.parent y = s3.parent y := fun y => by
    rw [hs4, setSize_parent, setSize_parent]
  have hnext4 : ∀ y, s4.nextp y = s2.nextp y := fun y => by
    rw [hs4, setSize_next, setSize_next, hnext3]
  have hrank4 : ∀ y, s4.rankOf y = s3.rankOf y := fun y => by
    rw [hs4, setSize_rank, setSize_rank]
  have hsize4nr : s4.sizeOf nr = s2.sizeOf nr + s2.sizeOf odr := by
    rw [hs4, setSize_size_ne _ _ _ _ (fun h => hnodr h), setSize_size_self _ _ _
      (by rw [hn3]; exact hnrlt)]
    rcases hset with ⟨h1, h2⟩ | ⟨h1, h2⟩
    · rw [h1, h2]
    · rw [h1, h2]
      omega
  have hsize4o : ∀ y, y ≠ nr → y ≠ odr → s4.sizeOf y = s2.sizeOf y := by
    intro y h1 h2
    rw [hs4, setSize_size_ne _ _ _ _ (fun h => h2 h.symm),
      setSize_size_ne _ _ _ _ (fun h => h1 h.symm), hsize3]
  set t5 := (s4.setNext ra (s4.nextp rb)).setNext rb (s4.nextp ra) with ht5
  have hralt4 : ra < s4.n := by rw [hn4]; exact hra
  have hrblt4 : rb < s4.n := by rw [hn4]; exact hrb
  have htn : t5.n = s2.n := by rw [ht5, setNext_n, setNext_n, hn4]
  have htp : ∀ y, t5.parent y = if y = odr then nr else s2.parent y := fun y => by
    rw [ht5, setNext_parent, setNext_parent, hp4, hp3]
  have htrank : ∀ y, t5.rankOf y = s3.rankOf y := fun y => by
    rw [ht5, setNext_rank, setNext_rank, hrank4]
  have htsize : ∀ y, t5.sizeOf y = s4.sizeOf y := fun y => by
    rw [ht5, setNext_size, setNext_size]
  have htnext_ra : t5.nextp ra = s2.nextp rb := by
    rw [ht5, setNext_next_ne _ rb _ _ (fun h => hne h.symm),
      setNext_next_self _ ra _ hralt4, hnext4]
  have htnext_rb : t5.nextp rb = s2.nextp ra := by
    rw [ht5, setNext_next_self _ rb _ (by rw [setNext_n]; exact hrblt4), hnext4]
  have htnext_o : ∀ y, y ≠ ra → y ≠ rb → t5.nextp y = s2.nextp y := by
    intro y h1 h2
    rw [ht5, setNext_next_ne _ rb _ _ (fun h => h2 h.symm),
      setNext_next_ne _ ra _ _ (fun h => h1 h.symm), hnext4]
  refine inv_merge hB2 hci2 hnrlt hodrlt hnr_root hodr_root hnodr htn htp
    (fun y hy => by rw [htrank, hrank3_ne y hy]) ?_ ?_ ?_ ?_ ?_ ?_ ?_ ?_ ?_
  · rw [htrank]; exact hrank3_ge
  · rw [htrank]; exact hrank3_odr
  · rw [htrank]; exact hrank3_bound
  · rw [htrank]; exact hrank3_lt
  · rcases hset with ⟨h1, h2⟩ | ⟨h1, h2⟩
    · rw [h1, h2]; exact htnext_ra
    · rw [h1, h2]; exact htnext_rb
  · rcases hset with ⟨h1, h2⟩ | ⟨h1, h2⟩
    · rw [h1, h2]; exact htnext_rb
    · rw [h1, h2]; exact htnext_ra
  · intro y h1 h2
    rcases hset with ⟨ha1, ha2⟩ | ⟨ha1, ha2⟩
    · rw [ha1] at h1; rw [ha2] at h2
      exact htnext_o y h1 h2
    · rw [ha1] at h1; rw [ha2] at h2
      exact htnext_o y h2 h1
  · rw [htsize]; exact hsize4nr
  · intro y h1 h2
    rw [htsize]; exact hsize4o y h1 h2

end UF

namespace UF

theorem inv_unite {s : UF} (hI : Inv s) {a b : Nat} (ha : a < s.n)
    (hb : b < s.n) : Inv (s.unite a b).1 := by
  have hB := hI.1
  obtain ⟨hra, hB1, hn1, hnext1, hrank1, hsize1, hrel1, hcr1⟩ := find_spec hB ha
  have hI1 : Inv (s.find a).2 := inv_find hI ha
  have hb1 : b < (s.find a).2.n := by rw [hn1]; exact hb
  obtain ⟨hrb, hB2, hn2, hnext2, hrank2, hsize2, hrel2, hcr2⟩ :=
    find_spec hI1.1 hb1
  have hI2 : Inv ((s.find a).2.find b).2 := inv_find hI1 hb1
  by_cases hguard : (s.find a).1 = ((s.find a).2.find b).1
  · have hcase : s.unite a b = (((s.find a).2.find b).2, false) := by
      rw [unite]; simp only [if_pos hguard]
    rw [hcase]
    exact hI2
  · have hB2' := hI2.1
    have hci2 := hI2.2
    have hn20 : ((s.find a).2.find b).2.n = s.n := by rw [hn2, hn1]
    have ha2 : a < ((s.find a).2.find b).2.n := by rw [hn20]; exact ha
    have hb2 : b < ((s.find a).2.find b).2.n := by rw [hn20]; exact hb
    have hcra : ((s.find a).2.find b).2.class_root a = (s.find a).1 := by
      rw [hcr2 a (by rw [hn1]; exact ha), hcr1 a ha, hra]
    have hcrb : ((s.find a).2.find b).2.class_root b = ((s.find a).2.find b).1 := by
      rw [hcr2 b hb1, hrb]
    have hralt : (s.find a).1 < ((s.find a).2.find b).2.n := by
      rw [← hcra]; exact class_root_lt hB2' ha2
    have hrblt : ((s.find a).2.find b).1 < ((s.find a).2.find b).2.n := by
      rw [← hcrb]; exact class_root_lt hB2' hb2
    have hra_root : ((s.find a).2.find b).2.parent (s.find a).1 = (s.find a).1 := by
      rw [← hcra]; exact class_root_isRoot hB2' ha2
    have hrb_root :
        ((s.find a).2.find b).2.parent ((s.find a).2.find b).1 =
          ((s.find a).2.find b).1 := by
      rw [← hcrb]; exact class_root_isRoot hB2' hb2
    set s2 := ((s.find a).2.find b).2 with hs2d
    set ra := (s.find a).1 with hrad
    set rb := ((s.find a).2.find b).1 with hrbd
    have hunf : s.unite a b =
        (let s3 :=
           if s2.rankOf ra < s2.rankOf rb then s2.setParent ra rb
           else if s2.rankOf rb < s2.rankOf ra then s2.setParent rb ra
           else (s2.setParent rb ra).setRank ra (s2.rankOf ra + 1)
         let nr := if s2.rankOf ra < s2.rankOf rb then rb else ra
         let odr := if s2.rankOf ra < s2.rankOf rb then ra else rb
         let s4 := (s3.setSize nr (s2.sizeOf ra + s2.sizeOf rb)).setSize odr 0
         ((s4.setNext ra (s4.nextp rb)).setNext rb (s4.nextp ra), true)) := by
      rw [unite]
      simp only [if_neg hguard]
    rw [hunf]
    simp only []
    rcases Nat.lt_trichotomy (s2.rankOf ra) (s2.rankOf rb) with hlt | heq | hgt
    · simp only [if_pos hlt]
      refine inv_unite_branch hB2' hci2 hralt hrblt (Or.inr ⟨rfl, rfl⟩)
        hra_root hrb_root hguard
        (fun y => setParent_parent_ite s2 ra rb y hralt)
        (setParent_n s2 ra rb)
        (fun y => setParent_next s2 ra rb y)
        (fun y => setParent_size s2 ra rb y)
        (fun y _ => setParent_rank s2 ra rb y)
        (by rw [setParent_rank])
        (by rw [setParent_rank]; exact hlt)
        ?_ ?_
      · rw [setParent_rank]
        have hb4 := (hB2' rb hrblt).2.2.2.2 hrb_root
        omega
      · rw [setParent_rank]
        exact (hB2' rb hrblt).2.2.2.1
    · have hnlt1 : ¬ s2.rankOf ra < s2.rankOf rb := by omega
      have hnlt2 : ¬ s2.rankOf rb < s2.rankOf ra := by omega
      simp only [if_neg hnlt1, if_neg hnlt2]
      have hn3' : ((s2.setParent rb ra).setRank ra (s2.rankOf ra + 1)).n = s2.n := by
        rw [setRank_n, setParent_n]
      have hrank_self :
          ((s2.setParent rb ra).setRank ra (s2.rankOf ra + 1)).rankOf ra =
            s2.rankOf ra + 1 := by
        rw [setRank_rank_self _ _ _ (by rw [setParent_n]; exact hralt)]
      obtain ⟨La, hcLa, hndLa, hheadLa, hmemLa, hszLa⟩ := hci2 ra hralt
      obtain ⟨Lb, hcLb, hndLb, hheadLb, hmemLb, hszLb⟩ := hci2 rb hrblt
      have hcr_ra : s2.class_root ra = ra := class_root_of_root _ _ hra_root
      have hcr_rb : s2.class_root rb = rb := class_root_of_root _ _ hrb_root
      rw [hcr_ra] at hszLa
      rw [hcr_rb] at hszLb
      have hdisj : ∀ y ∈ La, y ∉ Lb := by
        intro y hy hy2
        have h1 := ((hmemLa y).1 hy).2
        have h2 := ((hmemLb y).1 hy2).2
        rw [hcr_ra] at h1
        rw [hcr_rb] at h2
        rw [h1] at h2
        exact hguard h2
      have hsum : La.length + Lb.length ≤ s2.n :=
        disjoint_nodup_length_le La Lb s2.n hndLa hndLb hdisj
          (fun y hy => ((hmemLa y).1 hy).1) (fun y hy => ((hmemLb y).1 hy).1)
      have hb4a := (hB2' ra hralt).2.2.2.2 hra_root
      have hb4b := (hB2' rb hrblt).2.2.2.2 hrb_root
      refine inv_unite_branch hB2' hci2 hralt hrblt (Or.inl ⟨rfl, rfl⟩)
        hra_root hrb_root hguard
        (fun y => by
          rw [setRank_parent]
          exact setParent_parent_ite s2 rb ra y hrblt)
        hn3'
        (fun y => by rw [setRank_next, setParent_next])
        (fun y => by rw [setRank_size, setParent_size])
        (fun y hy => by
          rw [setRank_rank_ne _ _ _ _ (fun h => hy h.symm), setParent_rank])
        (by rw [hrank_self]; omega)
        (by rw [hrank_self]; omega)
        (by rw [hrank_self]; omega)
        (by rw [hrank_self]; omega)
    · simp only [if_neg (by omega : ¬ s2.rankOf ra < s2.rankOf rb),
        if_pos hgt]
      refine inv_unite_branch hB2' hci2 hralt hrblt (Or.inl ⟨rfl, rfl⟩)
        hra_root hrb_root hguard
        (fun y => setParent_parent_ite s2 rb ra y hrblt)
        (setParent_n s2 rb ra)
        (fun y => setParent_next s2 rb ra y)
        (fun y => setParent_size s2 rb ra y)
        (fun y _ => setParent_rank s2 rb ra y)
        (by rw [setParent_rank])
        (by rw [setParent_rank]; exact hgt)
        ?_ ?_
      · rw [setParent_rank]
        have hb4 := (hB2' ra hralt).2.2.2.2 hra_root
        omega
      · rw [setParent_rank]
        exact (hB2' ra hralt).2.2.2.1

end UF

-- ============================================================================
-- C9: get_class_members is exact on every reachable state
-- ============================================================================

namespace UF

theorem reachable_inv {s : UF} (h : Reachable s) : Inv s := by
  induction h with
  | empty => exact inv_empty
  | mk _ ih => exact inv_make_set ih
  | un _ ha hb ih => exact inv_unite ih ha hb
  | fnd _ hx ih => exact inv_find ih hx

end UF

/-- C9: after any sequence of `make_set` and `unite` operations (and any
interleaved `find` compressions), `get_class_members(x)` contains exactly
the elements whose `class_root` equals `class_root(x)`, each exactly once,
and its length equals `class_size(x)`. -/
theorem get_class_members_exact (s : UF) (hs : UF.Reachable s) (x : Nat)
    (hx : x < s.n) :
    (s.get_class_members x).Nodup ∧
    (∀ y, y ∈ s.get_class_members x ↔
      y < s.n ∧ s.class_root y = s.class_root x) ∧
    (s.get_class_members x).length = s.class_size x := by
  obtain ⟨hB, hci⟩ := UF.reachable_inv hs
  obtain ⟨L, hcyc, hnd, hhead, hmem, hsz⟩ := hci x hx
  have hbound : ∀ y ∈ L, y < s.n := fun y hy => ((hmem y).1 hy).1
  have hlen : L.length ≤ s.n := nodup_bounded_length_le L s.n hnd hbound
  have hgcm : s.get_class_members x = L := by
    have := UF.get_class_members_of_cycle hcyc hnd (by omega)
    rw [hhead] at this
    exact this
  rw [hgcm]
  exact ⟨hnd, hmem, by rw [UF.class_size]; omega⟩

/-- Witness for C9 at the concrete state `ufDemo` extended by one more
`make_set` and a `unite`: the class members of element 1 are read off
exactly. -/
theorem get_class_members_exact_witness :
    ((((ufDemo.make_set.unite 1 3).1).get_class_members 1).Nodup ∧
      (∀ y, y ∈ ((ufDemo.make_set.unite 1 3).1).get_class_members 1 ↔
        y < ((ufDemo.make_set.unite 1 3).1).n ∧
          ((ufDemo.make_set.unite 1 3).1).class_root y =
            ((ufDemo.make_set.unite 1 3).1).class_root 1) ∧
      (((ufDemo.make_set.unite 1 3).1).get_class_members 1).length =
        ((ufDemo.make_set.unite 1 3).1).class_size 1) :=
  get_class_members_exact ((ufDemo.make_set.unite 1 3).1)
    (UF.Reachable.un
      (UF.Reachable.mk
        (UF.Reachable.un
          (UF.Reachable.mk (UF.Reachable.mk (UF.Reachable.mk UF.Reachable.empty)))
          (by decide) (by decide)))
      (by decide) (by decide))
    1 (by decide)

-- ============================================================================
-- C6: the two-step abort-on-failure scenario
-- ============================================================================

/-- C6: for the two-step graph with linked int Create/Read fields, a
throwing step 0, and the single-threaded executor with
`abort_on_failure = true`, `build()` succeeds and `execute()` returns
`success = false`, `stopped = true`, `failed_steps = [0]`,
`cancelled_steps = [1]`, `completed_steps = []`.  The model of
`execute()` is a total function, mirroring that the C++ `execute()`
reports all outcomes through the result and never raises. -/
theorem executor_abort_scenario :
    GraphBuilder.build gcS6 = .ok planS6 ∧
    SingleThreadedExecutor.execute true (fun i => decide (i = 0)) planS6 =
      { success := false, stopped := true, failed_steps := [0],
        cancelled_steps := [1], completed_steps := [] } := by
  constructor
  · decide
  · decide

-- ============================================================================
-- C5: a failed task still notifies its successors
-- ============================================================================

/-- C5 counterexample: in the two-step plan of scenario S6, running the
throwing task 0 (which ends `Failed`) decrements its successor's
predecessor counter to 0 and leaves the successor `Queued`, not
`NotReady`; and with `abort_on_failure = false` the successor then
executes and completes instead of being reported cancelled, even though
every one of its predecessors failed. -/
theorem failed_task_notifies_counterexample :
    ((ExecState.runTask false (fun i => decide (i = 0)) stInitS6 0).getTask 0).state =
        .Failed ∧
    ((ExecState.runTask false (fun i => decide (i = 0)) stInitS6 0).getTask 1).preds_remaining = 0 ∧
    ((ExecState.runTask false (fun i => decide (i = 0)) stInitS6 0).getTask 1).state =
        .Queued ∧
    SingleThreadedExecutor.execute false (fun i => decide (i = 0)) planS6 =
      { success := false, stopped := false, failed_steps := [0],
        cancelled_steps := [], completed_steps := [1] } := by
  refine ⟨by decide, by decide, by decide, by decide⟩

namespace ExecState

theorem getTask_setTask_self (st : ExecState) (i : Nat) (t : TaskW)
    (h : i < st.tasks.length) : (st.setTask i t).getTask i = t :=
  UF.getD_set_self st.tasks i t _ h

theorem getTask_setTask_ne (st : ExecState) (i j : Nat) (t : TaskW)
    (h : i ≠ j) : (st.setTask i t).getTask j = st.getTask j :=
  UF.getD_set_ne st.tasks i j t _ h

theorem setTask_queue (st : ExecState) (i : Nat) (t : TaskW) :
    (st.setTask i t).queue = st.queue := rfl

theorem setTask_len (st : ExecState) (i : Nat) (t : TaskW) :
    (st.setTask i t).tasks.length = st.tasks.length := by
  simp [setTask]

theorem notifySuccessors_eq_fold (st : ExecState) (i : Nat) :
    st.notifySuccessors i = (st.getTask i).succs.foldl notifyStep st := rfl

theorem decrementPred_fst_getTask_ne (st : ExecState) (j k : Nat)
    (h : j ≠ k) : ((decrementPred st j).1).getTask k = st.getTask k := by
  by_cases hp : (st.getTask j).preds_remaining = 1 <;>
    simp only [decrementPred, hp, reduceIte] <;>
    exact getTask_setTask_ne _ _ _ _ h

theorem decrementPred_fst_queue (st : ExecState) (j : Nat) :
    ((decrementPred st j).1).queue = st.queue := by
  by_cases hp : (st.getTask j).preds_remaining = 1 <;>
    simp only [decrementPred, hp, reduceIte] <;> rfl

theorem decrementPred_fst_len (st : ExecState) (j : Nat) :
    ((decrementPred st j).1).tasks.length = st.tasks.length := by
  by_cases hp : (st.getTask j).preds_remaining = 1 <;>
    simp only [decrementPred, hp, reduceIte] <;>
    exact setTask_len _ _ _

theorem decrementPred_fst_preds (st : ExecState) (j : Nat)
    (h : j < st.tasks.length) :
    (((decrementPred st j).1).getTask j).preds_remaining =
      (st.getTask j).preds_remaining - 1 := by
  by_cases hp : (st.getTask j).preds_remaining = 1
  · simp only [decrementPred, hp, reduceIte]
    rw [getTask_setTask_self _ _ _ h]
  · simp only [decrementPred, hp, reduceIte]
    rw [getTask_setTask_self _ _ _ h]

theorem decrementPred_snd (st : ExecState) (j : Nat) :
    (decrementPred st j).2 = decide ((st.getTask j).preds_remaining = 1) := by
  by_cases hp : (st.getTask j).preds_remaining = 1
  · simp only [decrementPred, hp, reduceIte]
    simp [hp]
  · simp only [decrementPred, hp, reduceIte]
    simp [hp]

theorem markQueued_fst_getTask_ne (st : ExecState) (j k : Nat) (h : j ≠ k) :
    ((markQueued st j).1).getTask k = st.getTask k := by
  by_cases hs : (st.getTask j).state = StepState.Ready
  · simp only [markQueued, hs, reduceIte]
    exact getTask_setTask_ne _ _ _ _ h
  · simp only [markQueued, hs, reduceIte]

theorem markQueued_fst_queue (st : ExecState) (j : Nat) :
    ((markQueued st j).1).queue = st.queue := by
  by_cases hs : (st.getTask j).state = StepState.Ready
  · simp only [markQueued, hs, reduceIte]
    rfl
  · simp only [markQueued, hs, reduceIte]

theorem markQueued_fst_len (st : ExecState) (j : Nat) :
    ((markQueued st j).1).tasks.length = st.tasks.length := by
  by_cases hs : (st.getTask j).state = StepState.Ready
  · simp only [markQueued, hs, reduceIte]
    exact setTask_len _ _ _
  · simp only [markQueued, hs, reduceIte]

theorem markQueued_fst_preds (st : ExecState) (j : Nat)
    (h : j < st.tasks.length) :
    (((markQueued st j).1).getTask j).preds_remaining =
      (st.getTask j).preds_remaining := by
  by_cases hs : (st.getTask j).state = StepState.Ready
  · simp only [markQueued, hs, reduceIte]
    rw [getTask_setTask_self _ _ _ h]
  · simp only [markQueued, hs, reduceIte]

theorem notifyStep_def (acc : ExecState) (j : Nat) :
    notifyStep acc j =
      if (decrementPred acc j).2 then
        ((markQueued (decrementPred acc j).1 j).1.enqueue j)
      else (decrementPred acc j).1 := rfl

theorem enqueue_getTask (st : ExecState) (j k : Nat) :
    (st.enqueue j).getTask k = st.getTask k := rfl

theorem enqueue_queue (st : ExecState) (j : Nat) :
    (st.enqueue j).queue = st.queue ++ [j] := rfl

theorem enqueue_len (st : ExecState) (j : Nat) :
    (st.enqueue j).tasks.length = st.tasks.length := rfl

theorem notifyStep_getTask_ne (acc : ExecState) (j k : Nat) (h : j ≠ k) :
    (notifyStep acc j).getTask k = acc.getTask k := by
  rw [notifyStep_def]
  by_cases hdp : (decrementPred acc j).2
  · rw [if_pos hdp, enqueue_getTask, markQueued_fst_getTask_ne _ _ _ h,
      decrementPred_fst_getTask_ne _ _ _ h]
  · rw [if_neg hdp, decrementPred_fst_getTask_ne _ _ _ h]

theorem notifyStep_preds (acc : ExecState) (j : Nat) (h : j < acc.tasks.length) :
    ((notifyStep acc j).getTask j).preds_remaining =
      (acc.getTask j).preds_remaining - 1 := by
  rw [notifyStep_def]
  by_cases hdp : (decrementPred acc j).2
  · rw [if_pos hdp, enqueue_getTask,
      markQueued_fst_preds _ _ (by rw [decrementPred_fst_len]; exact h),
      decrementPred_fst_preds _ _ h]
  · rw [if_neg hdp, decrementPred_fst_preds _ _ h]

theorem notifyStep_queue_ext (acc : ExecState) (j : Nat) :
    ∃ ext, (notifyStep acc j).queue = acc.queue ++ ext := by
  rw [notifyStep_def]
  by_cases hdp : (decrementPred acc j).2
  · exact ⟨[j], by rw [if_pos hdp, enqueue_queue, markQueued_fst_queue,
      decrementPred_fst_queue]⟩
  · exact ⟨[], by rw [if_neg hdp, decrementPred_fst_queue, List.append_nil]⟩

theorem notifyStep_mem_queue (acc : ExecState) (j : Nat)
    (hp : (acc.getTask j).preds_remaining = 1) :
    j ∈ (notifyStep acc j).queue := by
  rw [notifyStep_def]
  have hdp : (decrementPred acc j).2 = true := by
    rw [decrementPred_snd]
    simp [hp]
  rw [if_pos hdp, enqueue_queue]
  simp

theorem notifyStep_len (acc : ExecState) (j : Nat) :
    (notifyStep acc j).tasks.length = acc.tasks.length := by
  rw [notifyStep_def]
  by_cases hdp : (decrementPred acc j).2
  · rw [if_pos hdp, enqueue_len, markQueued_fst_len, decrementPred_fst_len]
  · rw [if_neg hdp, decrementPred_fst_len]

end ExecState

namespace ExecState

/-- The `notify_successors` fold decrements each listed successor once,
queues the ones whose counter hits zero, leaves unlisted tasks untouched,
and only appends to the queue. -/
theorem foldNotify_spec (L : List Nat) : ∀ (st : ExecState),
    L.Nodup → (∀ j ∈ L, j < st.tasks.length) →
    (∀ j ∈ L,
      ((L.foldl notifyStep st).getTask j).preds_remaining =
        (st.getTask j).preds_remaining - 1 ∧
      ((st.getTask j).preds_remaining = 1 → j ∈ (L.foldl notifyStep st).queue)) ∧
    (∀ k, k ∉ L → (L.foldl notifyStep st).getTask k = st.getTask k) ∧
    (∃ ext, (L.foldl notifyStep st).queue = st.queue ++ ext) ∧
    (L.foldl notifyStep st).tasks.length = st.tasks.length := by
  induction L with
  | nil =>
    intro st _ _
    exact ⟨fun j hj => absurd hj (List.not_mem_nil j), fun k _ => rfl,
      ⟨[], (List.append_nil _).symm⟩, rfl⟩
  | cons j0 rest ih =>
    intro st hnd hbound
    have hj0 : j0 < st.tasks.length := hbound j0 (List.mem_cons_self j0 rest)
    have hndr : rest.Nodup := (List.nodup_cons.1 hnd).2
    have hj0r : j0 ∉ rest := (List.nodup_cons.1 hnd).1
    have hboundr : ∀ j ∈ rest, j < (notifyStep st j0).tasks.length := by
      intro j hj
      rw [notifyStep_len]
      exact hbound j (List.mem_cons_of_mem j0 hj)
    obtain ⟨ih1, ih2, ⟨ext2, ihq⟩, ihlen⟩ := ih (notifyStep st j0) hndr hboundr
    have hfold : (j0 :: rest).foldl notifyStep st = rest.foldl notifyStep (notifyStep st j0) := rfl
    rw [hfold]
    refine ⟨?_, ?_, ?_, ?_⟩
    · intro j hj
      rcases List.mem_cons.1 hj with rfl | hjr
      · constructor
        · rw [ih2 j hj0r, notifyStep_preds st j hj0]
        · intro hp
          rw [ihq]
          exact List.mem_append_left _ (notifyStep_mem_queue st j hp)
      · have hne : j0 ≠ j := fun he => hj0r (he ▸ hjr)
        constructor
        · rw [(ih1 j hjr).1, notifyStep_getTask_ne st j0 j hne]
        · intro hp
          apply (ih1 j hjr).2
          rw [notifyStep_getTask_ne st j0 j hne]
          exact hp
    · intro k hk
      have hk0 : j0 ≠ k := fun he => hk (he ▸ List.mem_cons_self j0 rest)
      have hkr : k ∉ rest := fun hkr => hk (List.mem_cons_of_mem j0 hkr)
      rw [ih2 k hkr, notifyStep_getTask_ne st j0 k hk0]
    · obtain ⟨ext1, hq1⟩ := notifyStep_queue_ext st j0
      exact ⟨ext1 ++ ext2, by rw [ihq, hq1, List.append_assoc]⟩
    · rw [ihlen, notifyStep_len]

theorem notifyCompletion_getTask (a : Bool) (st : ExecState) (i k : Nat) :
    (notifyCompletion a st i).getTask k = st.getTask k := by
  simp only [notifyCompletion]
  split <;> rfl

theorem notifyCompletion_queue (a : Bool) (st : ExecState) (i : Nat) :
    (notifyCompletion a st i).queue = st.queue := by
  simp only [notifyCompletion]
  split <;> rfl

end ExecState

/-- C5 (amended): a task whose execute callback throws ends `Failed` but
still notifies its successors exactly as a succeeded task does: each
successor's predecessor counter is decremented once, and a successor
whose counter reaches zero is queued.  (It therefore does not remain
`NotReady`; under `abort_on_failure` it is later reported cancelled only
because the stop flag set at the failed task's completion prevents it
from running.) -/
theorem failed_task_notifies_successors (abort : Bool) (throws : Nat → Bool)
    (st : ExecState) (i : Nat)
    (hstop : st.stop = false)
    (hstate : (st.getTask i).state = .Queued)
    (hthrow : throws i = true)
    (hi : i < st.tasks.length)
    (hnd : (st.getTask i).succs.Nodup)
    (hni : i ∉ (st.getTask i).succs)
    (hbound : ∀ j ∈ (st.getTask i).succs, j < st.tasks.length) :
    ((ExecState.runTask abort throws st i).getTask i).state = .Failed ∧
    ∀ j ∈ (st.getTask i).succs,
      ((ExecState.runTask abort throws st i).getTask j).preds_remaining =
        (st.getTask j).preds_remaining - 1 ∧
      ((st.getTask j).preds_remaining = 1 →
        j ∈ (ExecState.runTask abort throws st i).queue) := by
  have hstop' : ¬ st.stop = true := by rw [hstop]; exact Bool.false_ne_true
  have hrun : ExecState.runTask abort throws st i =
      ExecState.notifyCompletion abort
        (((st.setTask i { st.getTask i with state := .Executing }).setTask i
            { (st.setTask i { st.getTask i with state := .Executing }).getTask i with
                state := .Failed, has_exception := true }).notifySuccessors i) i := by
    simp only [ExecState.runTask, hstop, hstate, hthrow, Bool.false_eq_true,
      reduceIte]
  set st1 := st.setTask i { st.getTask i with state := .Executing } with hst1
  set st2 := st1.setTask i
    { st1.getTask i with state := .Failed, has_exception := true } with hst2
  have hlen1 : st1.tasks.length = st.tasks.length := ExecState.setTask_len _ _ _
  have hlen2 : st2.tasks.length = st.tasks.length := by
    rw [hst2, ExecState.setTask_len, hlen1]
  have hi1 : i < st1.tasks.length := by rw [hlen1]; exact hi
  have hi2 : i < st2.tasks.length := by rw [hlen2]; exact hi
  have hgt1 : st1.getTask i = { st.getTask i with state := .Executing } :=
    ExecState.getTask_setTask_self st i _ hi
  have hgt2 : st2.getTask i =
      { st1.getTask i with state := .Failed, has_exception := true } :=
    ExecState.getTask_setTask_self st1 i _ hi1
  have hgt2' : (st2.getTask i).succs = (st.getTask i).succs := by
    rw [hgt2, hgt1]
  have hgt2ne : ∀ k, k ≠ i → st2.getTask k = st.getTask k := by
    intro k hk
    rw [hst2, ExecState.getTask_setTask_ne _ _ _ _ (fun he => hk he.symm),
      ExecState.getTask_setTask_ne _ _ _ _ (fun he => hk he.symm)]
  have hboundr : ∀ j ∈ (st2.getTask i).succs, j < st2.tasks.length := by
    intro j hj
    rw [hgt2'] at hj
    rw [hlen2]
    exact hbound j hj
  obtain ⟨f1, f2, ⟨ext, fq⟩, flen⟩ :=
    ExecState.foldNotify_spec (st2.getTask i).succs st2
      (by rw [hgt2']; exact hnd) hboundr
  rw [hrun]
  rw [← ExecState.notifySuccessors_eq_fold] at f1 f2 fq
  constructor
  · rw [ExecState.notifyCompletion_getTask,
      f2 i (by rw [hgt2']; exact hni), hgt2]
  · intro j hj
    have hji : j ≠ i := fun he => hni (he ▸ hj)
    constructor
    · rw [ExecState.notifyCompletion_getTask,
        (f1 j (by rw [hgt2']; exact hj)).1, hgt2ne j hji]
    · intro hp
      rw [ExecState.notifyCompletion_queue]
      apply (f1 j (by rw [hgt2']; exact hj)).2
      rw [hgt2ne j hji]
      exact hp

/-- Witness for the amended C5 theorem on the concrete S6 executor state:
running the throwing task 0 leaves it `Failed` and decrements task 1's
counter from 1 to 0, queueing it. -/
theorem failed_task_notifies_successors_witness :
    ((ExecState.runTask true (fun i => decide (i = 0)) stInitS6 0).getTask 0).state =
        .Failed ∧
    ((ExecState.runTask true (fun i => decide (i = 0)) stInitS6 0).getTask 1).preds_remaining =
        (stInitS6.getTask 1).preds_remaining - 1 ∧
    ((stInitS6.getTask 1).preds_remaining = 1 →
      1 ∈ (ExecState.runTask true (fun i => decide (i = 0)) stInitS6 0).queue) := by
  have h := failed_task_notifies_successors true (fun i => decide (i = 0))
    stInitS6 0 (by decide) (by decide) (by decide) (by decide) (by decide)
    (by decide) (by decide)
  exact ⟨h.1, (h.2 1 (by decide)).1, (h.2 1 (by decide)).2⟩

-- ============================================================================
-- C1/C2/C3 development: field equivalence-class buckets
-- ============================================================================

/-- Generic `getD` membership at a valid index. -/
theorem getD_mem_of_lt {α : Type} (L : List α) (i : Nat) (d : α)
    (h : i < L.length) : L.getD i d ∈ L := by
  rw [List.getD_eq_getElem L d h]
  exact List.getElem_mem h

/-- The keys of `addClassMember`: unchanged if the root already has a
bucket, extended by the root otherwise. -/
theorem addClassMember_keys (acc : List (Nat × List Nat)) (root f : Nat) :
    (addClassMember acc root f).map Prod.fst =
      if root ∈ acc.map Prod.fst then acc.map Prod.fst
      else acc.map Prod.fst ++ [root] := by
  induction acc with
  | nil => simp [addClassMember]
  | cons q rest ih =>
    obtain ⟨r, fs⟩ := q
    by_cases hr : r = root
    · subst hr
      simp [addClassMember]
    · simp only [addClassMember, if_neg hr, List.map_cons]
      rw [ih]
      by_cases hm : root ∈ rest.map Prod.fst
      · rw [if_pos hm, if_pos (by simp [hm])]
      · rw [if_neg hm, if_neg (by simp [hm, Ne.symm hr])]
        simp

/-- Every element of a bucket of `addClassMember` either was already in a
bucket with the same key or is the newly added field under its root. -/
theorem addClassMember_mem_elem (acc : List (Nat × List Nat)) (root f : Nat) :
    ∀ p ∈ addClassMember acc root f, ∀ y ∈ p.2,
      (∃ q ∈ acc, y ∈ q.2 ∧ q.1 = p.1) ∨ (y = f ∧ p.1 = root) := by
  induction acc with
  | nil =>
    intro p hp y hy
    simp only [addClassMember, List.mem_singleton] at hp
    subst hp
    simp only [List.mem_singleton] at hy
    exact Or.inr ⟨hy, rfl⟩
  | cons q rest ih =>
    obtain ⟨r, fs⟩ := q
    intro p hp y hy
    simp only [addClassMember] at hp
    by_cases hr : r = root
    · rw [if_pos hr] at hp
      rcases List.mem_cons.1 hp with h1 | h2
      · subst h1
        rcases List.mem_append.1 hy with hyf | hyf
        · exact Or.inl ⟨(r, fs), List.mem_cons_self _ _, hyf, rfl⟩
        · simp only [List.mem_singleton] at hyf
          exact Or.inr ⟨hyf, hr⟩
      · exact Or.inl ⟨p, List.mem_cons_of_mem _ h2, hy, rfl⟩
    · rw [if_neg hr] at hp
      rcases List.mem_cons.1 hp with h1 | h2
      · subst h1
        exact Or.inl ⟨(r, fs), List.mem_cons_self _ _, hy, rfl⟩
      · rcases ih p h2 y hy with ⟨q, hq, hyq, hk⟩ | hrf
        · exact Or.inl ⟨q, List.mem_cons_of_mem _ hq, hyq, hk⟩
        · exact Or.inr hrf

/-- `addClassMember` keeps every previously bucketed element bucketed. -/
theorem addClassMember_covers (acc : List (Nat × List Nat)) (root f y : Nat)
    (h : ∃ q ∈ acc, y ∈ q.2) : ∃ p ∈ addClassMember acc root f, y ∈ p.2 := by
  induction acc with
  | nil =>
    rcases h with ⟨q, hq, _⟩
    exact absurd hq (List.not_mem_nil q)
  | cons q0 rest ih =>
    obtain ⟨r, fs⟩ := q0
    rcases h with ⟨q, hq, hyq⟩
    simp only [addClassMember]
    by_cases hr : r = root
    · rw [if_pos hr]
      rcases List.mem_cons.1 hq with h1 | h2
      · subst h1
        exact ⟨(r, fs ++ [f]), List.mem_cons_self _ _, List.mem_append_left _ hyq⟩
      · exact ⟨q, List.mem_cons_of_mem _ h2, hyq⟩
    · rw [if_neg hr]
      rcases List.mem_cons.1 hq with h1 | h2
      · subst h1
        exact ⟨(r, fs), List.mem_cons_self _ _, hyq⟩
      · rcases ih ⟨q, h2, hyq⟩ with ⟨p, hp, hyp⟩
        exact ⟨p, List.mem_cons_of_mem _ hp, hyp⟩

/-- `addClassMember` puts the new field into a bucket keyed by its root. -/
theorem addClassMember_adds (acc : List (Nat × List Nat)) (root f : Nat) :
    ∃ p ∈ addClassMember acc root f, f ∈ p.2 ∧ p.1 = root := by
  induction acc with
  | nil =>
    exact ⟨(root, [f]), List.mem_singleton_self _, List.mem_singleton_self f, rfl⟩
  | cons q rest ih =>
    obtain ⟨r, fs⟩ := q
    simp only [addClassMember]
    by_cases hr : r = root
    · rw [if_pos hr]
      exact ⟨(r, fs ++ [f]), List.mem_cons_self _ _,
        List.mem_append_right _ (List.mem_singleton_self f), hr⟩
    · rw [if_neg hr]
      rcases ih with ⟨p, hp, hfp, hk⟩
      exact ⟨p, List.mem_cons_of_mem _ hp, hfp, hk⟩

/-- Master lemma for the bucket-building fold: keys stay duplicate-free,
every bucket element is keyed by `K` and comes from the accumulator or the
list, and every accumulator element and list element ends up bucketed. -/
theorem foldACM_spec (K : Nat → Nat) :
    ∀ (xs : List Nat) (acc : List (Nat × List Nat)),
      (∀ p ∈ acc, ∀ y ∈ p.2, K y = p.1) →
      (∀ p ∈ xs.foldl (fun a x => addClassMember a (K x) x) acc, ∀ y ∈ p.2,
          K y = p.1 ∧ ((∃ q ∈ acc, y ∈ q.2) ∨ y ∈ xs)) ∧
      (∀ y, ((∃ q ∈ acc, y ∈ q.2) ∨ y ∈ xs) →
          ∃ p ∈ xs.foldl (fun a x => addClassMember a (K x) x) acc, y ∈ p.2) ∧
      ((acc.map Prod.fst).Nodup →
        ((xs.foldl (fun a x => addClassMember a (K x) x) acc).map
          Prod.fst).Nodup) := by
  intro xs
  induction xs with
  | nil =>
    intro acc hacc
    refine ⟨?_, ?_, fun h => h⟩
    · intro p hp y hy
      exact ⟨hacc p hp y hy, Or.inl ⟨p, hp, hy⟩⟩
    · intro y hy
      rcases hy with h | h
      · exact h
      · exact absurd h (List.not_mem_nil y)
  | cons x xs ih =>
    intro acc hacc
    simp only [List.foldl_cons]
    have hacc'K : ∀ p ∈ addClassMember acc (K x) x, ∀ y ∈ p.2, K y = p.1 := by
      intro p hp y hy
      rcases addClassMember_mem_elem acc (K x) x p hp y hy with
        ⟨q, hq, hyq, hk⟩ | ⟨hyx, hpk⟩
      · rw [← hk]
        exact hacc q hq y hyq
      · rw [hyx, hpk]
    obtain ⟨ihmem, ihcov, ihnd⟩ := ih (addClassMember acc (K x) x) hacc'K
    refine ⟨?_, ?_, ?_⟩
    · intro p hp y hy
      obtain ⟨hK, hsrc⟩ := ihmem p hp y hy
      refine ⟨hK, ?_⟩
      rcases hsrc with ⟨q, hq, hyq⟩ | hxs
      · rcases addClassMember_mem_elem acc (K x) x q hq y hyq with
          ⟨q0, hq0, hyq0, _⟩ | ⟨hyx, _⟩
        · exact Or.inl ⟨q0, hq0, hyq0⟩
        · exact Or.inr (by rw [hyx]; exact List.mem_cons_self x xs)
      · exact Or.inr (List.mem_cons_of_mem x hxs)
    · intro y hy
      rcases hy with ⟨q, hq, hyq⟩ | hmem
      · exact ihcov y (Or.inl (addClassMember_covers acc (K x) x y ⟨q, hq, hyq⟩))
      · rcases List.mem_cons.1 hmem with h1 | h2
        · subst h1
          rcases addClassMember_adds acc (K y) y with ⟨p, hp, hyp, _⟩
          exact ihcov y (Or.inl ⟨p, hp, hyp⟩)
        · exact ihcov y (Or.inr h2)
    · intro hnd
      apply ihnd
      rw [addClassMember_keys]
      by_cases hin : K x ∈ acc.map Prod.fst
      · rw [if_pos hin]
        exact hnd
      · rw [if_neg hin, List.nodup_append]
        refine ⟨hnd, List.nodup_singleton _, ?_⟩
        intro a ha hb
        simp only [List.mem_singleton] at hb
        subst hb
        exact hin ha

/-- In a list with duplicate-free keys, elements with equal keys are
equal. -/
theorem nodup_map_key_inj {α β : Type} (f : α → β) (L : List α)
    (h : (L.map f).Nodup) (p q : α) (hp : p ∈ L) (hq : q ∈ L)
    (hk : f p = f q) : p = q := by
  obtain ⟨i, hi, hip⟩ := List.getElem_of_mem hp
  obtain ⟨j, hj, hjq⟩ := List.getElem_of_mem hq
  have hli : i < (L.map f).length := by simpa using hi
  have hlj : j < (L.map f).length := by simpa using hj
  have hmi : (L.map f)[i] = f p := by
    rw [List.getElem_map]
    exact congrArg f hip
  have hmj : (L.map f)[j] = f q := by
    rw [List.getElem_map]
    exact congrArg f hjq
  have hij : i = j := h.getElem_inj_iff.mp (hmi.trans (hk.trans hmj.symm))
  subst hij
  rw [← hip, ← hjq]

namespace GraphCore

/-- Every bucket of `fieldClasses` holds in-range fields keyed by their
class root. -/
theorem fieldClasses_mem (gc : GraphCore) :
    ∀ p ∈ gc.fieldClasses, ∀ f ∈ p.2,
      gc.field_uf.class_root f = p.1 ∧ f < gc.field_count := by
  have h := (foldACM_spec gc.field_uf.class_root (List.range gc.field_count)
    [] (by intro p hp; exact absurd hp (List.not_mem_nil p))).1
  intro p hp f hf
  unfold fieldClasses at hp
  obtain ⟨hK, hsrc⟩ := h p hp f hf
  refine ⟨hK, ?_⟩
  rcases hsrc with ⟨q, hq, _⟩ | hr
  · exact absurd hq (List.not_mem_nil q)
  · exact List.mem_range.1 hr

/-- Every in-range field appears in some bucket of `fieldClasses`. -/
theorem fieldClasses_covers (gc : GraphCore) :
    ∀ f, f < gc.field_count → ∃ p ∈ gc.fieldClasses, f ∈ p.2 := by
  have h := (foldACM_spec gc.field_uf.class_root (List.range gc.field_count)
    [] (by intro p hp; exact absurd hp (List.not_mem_nil p))).2.1
  intro f hf
  unfold fieldClasses
  exact h f (Or.inr (List.mem_range.2 hf))

/-- The class keys of `fieldClasses` are duplicate-free. -/
theorem fieldClasses_keys_nodup (gc : GraphCore) :
    (gc.fieldClasses.map Prod.fst).Nodup := by
  have h := (foldACM_spec gc.field_uf.class_root (List.range gc.field_count)
    [] (by intro p hp; exact absurd hp (List.not_mem_nil p))).2.2
  unfold fieldClasses
  exact h (by simp)

/-- Two buckets of `fieldClasses` with the same key are the same bucket. -/
theorem fieldClasses_unique (gc : GraphCore) (p q : Nat × List Nat)
    (hp : p ∈ gc.fieldClasses) (hq : q ∈ gc.fieldClasses)
    (hk : p.1 = q.1) : p = q :=
  nodup_map_key_inj Prod.fst gc.fieldClasses (fieldClasses_keys_nodup gc)
    p q hp hq hk

/-- Membership introduction for the cross-product link lists. -/
theorem crossLinks_mem (as_ bs : List Nat) (a b : Nat) (ha : a ∈ as_)
    (hb : b ∈ bs) (hne : b ≠ a) : (a, b) ∈ crossLinks as_ bs := by
  simp only [crossLinks, List.mem_flatMap]
  refine ⟨a, ha, ?_⟩
  simp only [List.mem_map, List.mem_filter]
  exact ⟨b, ⟨hb, by simp [hne]⟩, rfl⟩

/-- Endpoint membership for the cross-product link lists. -/
theorem crossLinks_endpoints (as_ bs : List Nat) (l : Nat × Nat)
    (hl : l ∈ crossLinks as_ bs) : l.1 ∈ as_ ∧ l.2 ∈ bs := by
  simp only [crossLinks, List.mem_flatMap, List.mem_map, List.mem_filter] at hl
  obtain ⟨a, ha, b, ⟨hb, _⟩, hab⟩ := hl
  rw [← hab]
  exact ⟨ha, hb⟩

/-- Both endpoints of a class's implicit links are owner steps of class
fields. -/
theorem classImplicitLinks_endpoints (gc : GraphCore) (fs : List Nat)
    (l : Nat × Nat) (hl : l ∈ gc.classImplicitLinks fs) :
    (∃ f ∈ fs, gc.ownerOf f = l.1) ∧ (∃ f ∈ fs, gc.ownerOf f = l.2) := by
  have hsub : ∀ (sub : List Nat), (∀ f ∈ sub, f ∈ fs) →
      ∀ x ∈ sub.map gc.ownerOf, ∃ f ∈ fs, gc.ownerOf f = x := by
    intro sub hs x hx
    obtain ⟨f, hf, hfx⟩ := List.mem_map.1 hx
    exact ⟨f, hs f hf, hfx⟩
  have hc : ∀ f ∈ gc.createFields fs, f ∈ fs := by
    intro f hf
    exact (List.mem_filter.1 hf).1
  have hr : ∀ f ∈ gc.readFields fs, f ∈ fs := by
    intro f hf
    exact (List.mem_filter.1 hf).1
  have hd : ∀ f ∈ gc.destroyFields fs, f ∈ fs := by
    intro f hf
    exact (List.mem_filter.1 hf).1
  simp only [classImplicitLinks] at hl
  rcases List.mem_append.1 hl with h12 | h3
  · rcases List.mem_append.1 h12 with h1 | h2
    · obtain ⟨ha, hb⟩ := crossLinks_endpoints _ _ l h1
      exact ⟨hsub _ hc _ ha, hsub _ hr _ hb⟩
    · obtain ⟨ha, hb⟩ := crossLinks_endpoints _ _ l h2
      exact ⟨hsub _ hc _ ha, hsub _ hd _ hb⟩
  · obtain ⟨ha, hb⟩ := crossLinks_endpoints _ _ l h3
    exact ⟨hsub _ hr _ ha, hsub _ hd _ hb⟩

/-- On well-formed states, a valid field's owner step is in range. -/
theorem ownerOf_lt (gc : GraphCore) (hwf : gc.WF) (f : Nat)
    (hf : f < gc.field_count) : gc.ownerOf f < gc.step_count := by
  obtain ⟨_, _, h3, _, _, _, _, _, h9⟩ := hwf
  have hmem : gc.field_owner_step.getD f 0 ∈ gc.field_owner_step :=
    getD_mem _ f (by rw [h3]; exact hf)
  exact h9 _ hmem

/-- On well-formed states, every implicit link joins in-range steps. -/
theorem implicitLinks_bound (gc : GraphCore) (hwf : gc.WF) :
    ∀ l ∈ gc.implicitLinks, l.1 < gc.step_count ∧ l.2 < gc.step_count := by
  intro l hl
  simp only [implicitLinks, List.mem_flatMap] at hl
  obtain ⟨c, hc, hlc⟩ := hl
  obtain ⟨⟨f1, hf1, ho1⟩, ⟨f2, hf2, ho2⟩⟩ :=
    classImplicitLinks_endpoints gc c.2 l hlc
  have hb1 : f1 < gc.field_count := (fieldClasses_mem gc c hc f1 hf1).2
  have hb2 : f2 < gc.field_count := (fieldClasses_mem gc c hc f2 hf2).2
  exact ⟨ho1 ▸ ownerOf_lt gc hwf f1 hb1, ho2 ▸ ownerOf_lt gc hwf f2 hb2⟩

/-- On well-formed states, every combined link joins in-range steps. -/
theorem combinedLinks_bound (gc : GraphCore) (hwf : gc.WF) :
    ∀ l ∈ gc.combinedLinks, l.1 < gc.step_count ∧ l.2 < gc.step_count := by
  intro l hl
  unfold combinedLinks at hl
  rcases List.mem_append.1 hl with h | h
  · exact hwf.2.2.2.2.2.2.2.1 l h
  · exact implicitLinks_bound gc hwf l h

end GraphCore

-- ============================================================================
-- C1 development: Kahn's algorithm drains accepted graphs
-- ============================================================================

/-- Processing one successor list preserves the Kahn loop invariant and
only appends to the queue. -/
theorem kahnVisit_spec (n : Nat) :
    ∀ (succ : List Nat), (∀ v ∈ succ, v < n) →
      ∀ (queue : List Nat) (indeg : List Int) (popped : List Nat),
        KahnInv n queue indeg popped →
        KahnInv n (kahnVisit succ queue indeg).1 (kahnVisit succ queue indeg).2
          popped ∧
        ∃ ext, (kahnVisit succ queue indeg).1 = queue ++ ext := by
  intro succ
  induction succ with
  | nil =>
    intro _ queue indeg popped hinv
    exact ⟨hinv, [], by simp [kahnVisit]⟩
  | cons v vs ih =>
    intro hb queue indeg popped hinv
    have hv : v < n := hb v (List.mem_cons_self v vs)
    have hbs : ∀ w ∈ vs, w < n := fun w hw => hb w (List.mem_cons_of_mem v hw)
    obtain ⟨hpnd, hqnd, hdisj, hpb, hqb, hind, hlen⟩ := hinv
    have hvlen : v < indeg.length := by rw [hlen]; exact hv
    by_cases hz : (indeg.set v (indeg.getD v 0 - 1)).getD v 0 = 0
    · have hdv : (indeg.set v (indeg.getD v 0 - 1)).getD v 0 =
          indeg.getD v 0 - 1 := UF.getD_set_self indeg v _ 0 hvlen
      have hpos : indeg.getD v 0 = 1 := by
        rw [hdv] at hz
        omega
      have hvq : v ∉ queue := by
        intro hmem
        have := hind v (Or.inr hmem)
        omega
      have hvp : v ∉ popped := by
        intro hmem
        have := hind v (Or.inl hmem)
        omega
      have hinv' :
          KahnInv n (queue ++ [v]) (indeg.set v (indeg.getD v 0 - 1)) popped := by
        refine ⟨hpnd, ?_, ?_, hpb, ?_, ?_, ?_⟩
        · rw [List.nodup_append]
          refine ⟨hqnd, List.nodup_singleton _, ?_⟩
          intro a ha hmem
          simp only [List.mem_singleton] at hmem
          subst hmem
          exact hvq ha
        · intro w hw hmem
          rcases List.mem_append.1 hmem with h | h
          · exact hdisj w hw h
          · simp only [List.mem_singleton] at h
            subst h
            exact hvp hw
        · intro w hw
          rcases List.mem_append.1 hw with h | h
          · exact hqb w h
          · simp only [List.mem_singleton] at h
            subst h
            exact hv
        · intro w hw
          by_cases hwv : w = v
          · subst hwv
            exact le_of_eq hz
          · rw [UF.getD_set_ne indeg v w _ 0 (fun h => hwv h.symm)]
            apply hind
            rcases hw with h | h
            · exact Or.inl h
            · rcases List.mem_append.1 h with h' | h'
              · exact Or.inr h'
              · simp only [List.mem_singleton] at h'
                exact absurd h' hwv
        · rw [List.length_set]
          exact hlen
      obtain ⟨hinv'', ext, hext⟩ := ih hbs (queue ++ [v]) _ popped hinv'
      have hrw : kahnVisit (v :: vs) queue indeg =
          kahnVisit vs (queue ++ [v]) (indeg.set v (indeg.getD v 0 - 1)) := by
        simp only [kahnVisit, List.foldl_cons]
        rw [if_pos hz]
      rw [hrw]
      exact ⟨hinv'', [v] ++ ext, by rw [hext, List.append_assoc]⟩
    · have hinv' :
          KahnInv n queue (indeg.set v (indeg.getD v 0 - 1)) popped := by
        refine ⟨hpnd, hqnd, hdisj, hpb, hqb, ?_, ?_⟩
        · intro w hw
          by_cases hwv : w = v
          · subst hwv
            rw [UF.getD_set_self indeg w _ 0 hvlen]
            have := hind w hw
            omega
          · rw [UF.getD_set_ne indeg v w _ 0 (fun h => hwv h.symm)]
            exact hind w hw
        · rw [List.length_set]
          exact hlen
      obtain ⟨hinv'', ext, hext⟩ := ih hbs queue _ popped hinv'
      have hrw : kahnVisit (v :: vs) queue indeg =
          kahnVisit vs queue (indeg.set v (indeg.getD v 0 - 1)) := by
        simp only [kahnVisit, List.foldl_cons]
        rw [if_neg hz]
      rw [hrw]
      exact ⟨hinv'', ext, hext⟩

/-- With fuel at least `n + 1 - |popped|`, the Kahn loop always returns
with an empty queue (so the C++ `while (!queue.empty())` loop is never cut
short by the fuel), and the popped list stays duplicate-free and in
range. -/
theorem kahn_queue_drains (n : Nat) (succs : List (List Nat))
    (hs : ∀ ls ∈ succs, ∀ v ∈ ls, v < n) :
    ∀ (f : Nat) (queue : List Nat) (indeg : List Int) (popped : List Nat),
      KahnInv n queue indeg popped →
      n + 1 ≤ f + popped.length →
      (kahnLoop succs f queue indeg popped).1 = [] ∧
      (kahnLoop succs f queue indeg popped).2.2.Nodup ∧
      (∀ v ∈ (kahnLoop succs f queue indeg popped).2.2, v < n) := by
  intro f
  induction f with
  | zero =>
    intro queue indeg popped hinv hfuel
    obtain ⟨hpnd, _, _, hpb, _, _, _⟩ := hinv
    have := nodup_bounded_length_le popped n hpnd hpb
    omega
  | succ f ih =>
    intro queue indeg popped hinv hfuel
    cases queue with
    | nil => exact ⟨rfl, hinv.1, hinv.2.2.2.1⟩
    | cons s rest =>
      obtain ⟨hpnd, hqnd, hdisj, hpb, hqb, hind, hlen⟩ := hinv
      have hsn : s < n := hqb s (List.mem_cons_self s rest)
      have hsp : s ∉ popped := fun hmem =>
        hdisj s hmem (List.mem_cons_self s rest)
      have hsrest : s ∉ rest := (List.nodup_cons.1 hqnd).1
      have hinv' : KahnInv n rest indeg (popped ++ [s]) := by
        refine ⟨?_, (List.nodup_cons.1 hqnd).2, ?_, ?_, ?_, ?_, hlen⟩
        · rw [List.nodup_append]
          refine ⟨hpnd, List.nodup_singleton _, ?_⟩
          intro a ha hmem
          simp only [List.mem_singleton] at hmem
          subst hmem
          exact hsp ha
        · intro v hv hmem
          rcases List.mem_append.1 hv with h | h
          · exact hdisj v h (List.mem_cons_of_mem s hmem)
          · simp only [List.mem_singleton] at h
            subst h
            exact hsrest hmem
        · intro v hv
          rcases List.mem_append.1 hv with h | h
          · exact hpb v h
          · simp only [List.mem_singleton] at h
            subst h
            exact hsn
        · exact fun v hv => hqb v (List.mem_cons_of_mem s hv)
        · intro v hv
          apply hind
          rcases hv with h | h
          · rcases List.mem_append.1 h with h' | h'
            · exact Or.inl h'
            · simp only [List.mem_singleton] at h'
              rw [h']
              exact Or.inr (List.mem_cons_self s rest)
          · exact Or.inr (List.mem_cons_of_mem s h)
      have hsb : ∀ v ∈ succs.getD s [], v < n := by
        by_cases hslen : s < succs.length
        · intro v hv
          exact hs _ (getD_mem_of_lt succs s [] hslen) v hv
        · have hnil : succs.getD s [] = [] := by
            rw [List.getD_eq_getD_get?, List.get?_eq_getElem?,
              List.getElem?_eq_none (Nat.le_of_not_lt hslen)]
            rfl
          rw [hnil]
          intro v hv
          exact absurd hv (List.not_mem_nil v)
      obtain ⟨hinv'', ext, hext⟩ :=
        kahnVisit_spec n (succs.getD s []) hsb rest indeg (popped ++ [s]) hinv'
      have hfuel' : n + 1 ≤ f + (popped ++ [s]).length := by
        rw [List.length_append, List.length_singleton]
        omega
      have hres := ih (kahnVisit (succs.getD s []) rest indeg).1
        (kahnVisit (succs.getD s []) rest indeg).2 (popped ++ [s]) hinv'' hfuel'
      have hrw : kahnLoop succs (f + 1) (s :: rest) indeg popped =
          kahnLoop succs f (kahnVisit (succs.getD s []) rest indeg).1
            (kahnVisit (succs.getD s []) rest indeg).2 (popped ++ [s]) := rfl
      rw [hrw]
      exact hres

/-- `buildInDegree` always produces one counter per node. -/
theorem buildInDegree_length (n : Nat) (links : List (Nat × Nat)) :
    (buildInDegree n links).length = n := by
  unfold buildInDegree
  suffices h : ∀ (L : List (Nat × Nat)) (acc : List Int),
      (L.foldl (fun acc l => acc.set l.2 ((acc.getD l.2 0) + 1)) acc).length =
        acc.length by
    rw [h]
    simp
  intro L
  induction L with
  | nil =>
    intro acc
    rfl
  | cons l L ih =>
    intro acc
    rw [List.foldl_cons, ih, List.length_set]

/-- All adjacency entries of `buildSuccessors` are link targets, hence in
range when the links are. -/
theorem buildSuccessors_bound (n : Nat) (links : List (Nat × Nat))
    (hl : ∀ l ∈ links, l.2 < n) :
    ∀ ls ∈ buildSuccessors n links, ∀ v ∈ ls, v < n := by
  unfold buildSuccessors
  suffices h : ∀ (L : List (Nat × Nat)) (acc : List (List Nat)),
      (∀ l ∈ L, l.2 < n) →
      (∀ ls ∈ acc, ∀ v ∈ ls, v < n) →
      ∀ ls ∈
        L.foldl (fun acc l => acc.set l.1 ((acc.getD l.1 []) ++ [l.2])) acc,
        ∀ v ∈ ls, v < n by
    apply h links _ hl
    intro ls hls v hv
    rw [List.eq_of_mem_replicate hls] at hv
    exact absurd hv (List.not_mem_nil v)
  intro L
  induction L with
  | nil =>
    intro acc _ hacc
    exact hacc
  | cons l L ih =>
    intro acc hL hacc
    rw [List.foldl_cons]
    apply ih
    · intro l' hl'
      exact hL l' (List.mem_cons_of_mem l hl')
    · intro ls hls v hv
      rcases List.mem_or_eq_of_mem_set hls with h | h
      · exact hacc ls h v hv
      · subst h
        rcases List.mem_append.1 hv with h' | h'
        · by_cases hlt : l.1 < acc.length
          · exact hacc _ (getD_mem_of_lt acc l.1 [] hlt) v h'
          · have hnil : acc.getD l.1 [] = ([] : List Nat) := by
              rw [List.getD_eq_getD_get?, List.get?_eq_getElem?,
                List.getElem?_eq_none (Nat.le_of_not_lt hlt)]
              rfl
            rw [hnil] at h'
            exact absurd h' (List.not_mem_nil v)
        · simp only [List.mem_singleton] at h'
          subst h'
          exact hL l (List.mem_cons_self l L)

/-- A duplicate-free list of naturals below `n` of length at least `n`
contains every natural below `n`. -/
theorem nodup_bounded_full (L : List Nat) (n : Nat) (hnd : L.Nodup)
    (hb : ∀ v ∈ L, v < n) (hlen : n ≤ L.length) : ∀ s, s < n → s ∈ L := by
  have h1 : L.toFinset.card = L.length := List.toFinset_card_of_nodup hnd
  have h2 : L.toFinset ⊆ Finset.range n := by
    intro y hy
    rw [Finset.mem_range]
    exact hb y (List.mem_toFinset.1 hy)
  have h3 : L.toFinset = Finset.range n := by
    apply Finset.eq_of_subset_of_card_le h2
    rw [Finset.card_range, h1]
    exact hlen
  intro s hs
  have hmem : s ∈ L.toFinset := by
    rw [h3, Finset.mem_range]
    exact hs
  exact List.mem_toFinset.1 hmem

/-- If Kahn's algorithm pops at least `n` nodes on in-range links, it pops
every node. -/
theorem kahnRun_complete (n : Nat) (links : List (Nat × Nat))
    (hl : ∀ l ∈ links, l.2 < n)
    (hlen : n ≤ (kahnRun n links).1.length) :
    ∀ s, s < n → s ∈ (kahnRun n links).1 := by
  have hsb : ∀ ls ∈ buildSuccessors n links, ∀ v ∈ ls, v < n :=
    buildSuccessors_bound n links hl
  have hinv : KahnInv n
      ((List.range n).filter
        (fun s => decide ((buildInDegree n links).getD s 0 = 0)))
      (buildInDegree n links) [] := by
    refine ⟨List.nodup_nil, (List.nodup_range n).filter _, ?_, ?_, ?_, ?_,
      buildInDegree_length n links⟩
    · intro v hv
      exact absurd hv (List.not_mem_nil v)
    · intro v hv
      exact absurd hv (List.not_mem_nil v)
    · intro v hv
      exact List.mem_range.1 (List.mem_filter.1 hv).1
    · intro v hv
      rcases hv with h | h
      · exact absurd h (List.not_mem_nil v)
      · have := (List.mem_filter.1 h).2
        simp only [decide_eq_true_eq] at this
        exact le_of_eq this
  have h := kahn_queue_drains n (buildSuccessors n links) hsb (n + 1)
    ((List.range n).filter
      (fun s => decide ((buildInDegree n links).getD s 0 = 0)))
    (buildInDegree n links) [] hinv (by simp)
  intro s hs
  have hrw : (kahnRun n links).1 =
      (kahnLoop (buildSuccessors n links) (n + 1)
        ((List.range n).filter
          (fun s => decide ((buildInDegree n links).getD s 0 = 0)))
        (buildInDegree n links) []).2.2 := rfl
  rw [hrw] at hlen ⊢
  exact nodup_bounded_full _ n h.2.1 h.2.2 hlen s hs

/-- A successful export's combined link list is the `combinedLinks` of the
core, and the sealed diagnostics reported no errors. -/
theorem export_graph_combined (gc : GraphCore) (g : ExportedGraph)
    (hg : gc.export_graph = .ok g) :
    g.combined_step_links = gc.combinedLinks ∧
    (gc.get_diagnostics true).has_errors = false := by
  unfold GraphCore.export_graph at hg
  by_cases herr : (gc.get_diagnostics true).has_errors = true
  · rw [if_pos herr] at hg
    simp at hg
  · rw [if_neg herr] at hg
    rw [Bool.not_eq_true] at herr
    simp only [Except.ok.injEq] at hg
    subst hg
    exact ⟨rfl, herr⟩

/-- If the sealed diagnostics report no errors, the Kahn run over the
combined links pops at least `step_count` steps (the cycle check of
`get_diagnostics` phase 4 did not fire). -/
theorem diagnostics_no_cycle (gc : GraphCore)
    (herr : (gc.get_diagnostics true).has_errors = false)
    (hpos : 0 < gc.step_count) :
    gc.step_count ≤ (kahnRun gc.step_count gc.combinedLinks).1.length := by
  have hnil : (gc.get_diagnostics true).errors = [] := by
    unfold GraphCoreDiagnostics.has_errors at herr
    simpa using herr
  simp only [GraphCore.get_diagnostics] at hnil
  rcases List.append_eq_nil.1 hnil with ⟨_, hcyc⟩
  by_contra hlen
  have hlt : (kahnRun gc.step_count gc.combinedLinks).1.length <
      gc.step_count := Nat.lt_of_not_le hlen
  rw [if_pos hpos, if_pos hlt] at hcyc
  simp at hcyc

/-- C1: for every well-formed graph state accepted by the sealed
validation gate shared by `export_graph` and `GraphBuilder::build` (the
export succeeds exactly when `get_diagnostics(true)` reports no errors,
and `build` forwards that same check), the combined edge set of the
emitted graph is acyclic: running Kahn's algorithm over
`combined_step_links` on the plan's steps drains (pops) every step. -/
theorem export_combined_acyclic (gc : GraphCore) (hwf : gc.WF)
    (g : ExportedGraph) (hg : gc.export_graph = .ok g) :
    ∀ s, s < gc.step_count →
      s ∈ (kahnRun gc.step_count g.combined_step_links).1 := by
  obtain ⟨hcomb, herr⟩ := export_graph_combined gc g hg
  intro s hs
  have hpos : 0 < gc.step_count := Nat.lt_of_le_of_lt (Nat.zero_le s) hs
  have hlen := diagnostics_no_cycle gc herr hpos
  rw [hcomb]
  exact kahnRun_complete gc.step_count gc.combinedLinks
    (fun l hl => (GraphCore.combinedLinks_bound gc hwf l hl).2) hlen s hs

/-- Witness for C1 on the scenario-S1 graph: its export succeeds and
step 2 is drained by Kahn's algorithm over the exported combined links. -/
theorem export_combined_acyclic_witness :
    (gcS1.WF ∧ gcS1.export_graph = .ok exportedS1 ∧ 2 < gcS1.step_count) ∧
    2 ∈ (kahnRun gcS1.step_count exportedS1.combined_step_links).1 :=
  ⟨⟨by decide, by decide, by decide⟩,
    export_combined_acyclic gcS1 (by decide) exportedS1 (by decide) 2
      (by decide)⟩

-- ============================================================================
-- C2: implicit ordering edges between fields of one class
-- ============================================================================

/-- C2: for every pair of fields `(a, b)` in the same field-equivalence
class of a graph accepted by the export gate of `build()`, with `usage(a)`
ranked strictly below `usage(b)` under Create < Read < Destroy and
`step(a) ≠ step(b)`, the exported `combined_step_links` contains the edge
`step(a) → step(b)`. -/
theorem implicit_edge_present (gc : GraphCore) (g : ExportedGraph)
    (hg : gc.export_graph = .ok g) (a b : Nat)
    (ha : a < gc.field_count) (hb : b < gc.field_count)
    (hsame : gc.field_uf.class_root a = gc.field_uf.class_root b)
    (hrank : (gc.usageOf a).rank < (gc.usageOf b).rank)
    (hstep : gc.ownerOf a ≠ gc.ownerOf b) :
    (gc.ownerOf a, gc.ownerOf b) ∈ g.combined_step_links := by
  obtain ⟨hcomb, _⟩ := export_graph_combined gc g hg
  rw [hcomb]
  obtain ⟨p, hp, hap⟩ := GraphCore.fieldClasses_covers gc a ha
  obtain ⟨q, hq, hbq⟩ := GraphCore.fieldClasses_covers gc b hb
  have hpk : gc.field_uf.class_root a = p.1 :=
    (GraphCore.fieldClasses_mem gc p hp a hap).1
  have hqk : gc.field_uf.class_root b = q.1 :=
    (GraphCore.fieldClasses_mem gc q hq b hbq).1
  have hpq : p = q :=
    GraphCore.fieldClasses_unique gc p q hp hq (by rw [← hpk, ← hqk, hsame])
  rw [← hpq] at hbq
  have hseg : (gc.ownerOf a, gc.ownerOf b) ∈ gc.classImplicitLinks p.2 := by
    simp only [GraphCore.classImplicitLinks]
    cases hua : gc.usageOf a with
    | Create =>
      have hca : gc.ownerOf a ∈ (gc.createFields p.2).map gc.ownerOf :=
        List.mem_map_of_mem _ (List.mem_filter.2 ⟨hap, by rw [hua]; simp⟩)
      cases hub : gc.usageOf b with
      | Create =>
        rw [hua, hub] at hrank
        simp [Usage.rank] at hrank
      | Read =>
        have hrb : gc.ownerOf b ∈ (gc.readFields p.2).map gc.ownerOf :=
          List.mem_map_of_mem _ (List.mem_filter.2 ⟨hbq, by rw [hub]; simp⟩)
        exact List.mem_append_left _ (List.mem_append_left _
          (GraphCore.crossLinks_mem _ _ _ _ hca hrb (Ne.symm hstep)))
      | Destroy =>
        have hdb : gc.ownerOf b ∈ (gc.destroyFields p.2).map gc.ownerOf :=
          List.mem_map_of_mem _ (List.mem_filter.2 ⟨hbq, by rw [hub]; simp⟩)
        exact List.mem_append_left _ (List.mem_append_right _
          (GraphCore.crossLinks_mem _ _ _ _ hca hdb (Ne.symm hstep)))
    | Read =>
      have hra : gc.ownerOf a ∈ (gc.readFields p.2).map gc.ownerOf :=
        List.mem_map_of_mem _ (List.mem_filter.2 ⟨hap, by rw [hua]; simp⟩)
      cases hub : gc.usageOf b with
      | Create =>
        rw [hua, hub] at hrank
        simp [Usage.rank] at hrank
      | Read =>
        rw [hua, hub] at hrank
        simp [Usage.rank] at hrank
      | Destroy =>
        have hdb : gc.ownerOf b ∈ (gc.destroyFields p.2).map gc.ownerOf :=
          List.mem_map_of_mem _ (List.mem_filter.2 ⟨hbq, by rw [hub]; simp⟩)
        exact List.mem_append_right _
          (GraphCore.crossLinks_mem _ _ _ _ hra hdb (Ne.symm hstep))
    | Destroy =>
      cases hub : gc.usageOf b with
      | Create =>
        rw [hua, hub] at hrank
        simp [Usage.rank] at hrank
      | Read =>
        rw [hua, hub] at hrank
        simp [Usage.rank] at hrank
      | Destroy =>
        rw [hua, hub] at hrank
        simp [Usage.rank] at hrank
  have himp : (gc.ownerOf a, gc.ownerOf b) ∈ gc.implicitLinks := by
    simp only [GraphCore.implicitLinks, List.mem_flatMap]
    exact ⟨p, hp, hseg⟩
  unfold GraphCore.combinedLinks
  exact List.mem_append_right _ himp

/-- Witness for C2 on the scenario-S1 graph: fields 0 (Create at step 0)
and 2 (Destroy at step 2) share a class, and the exported combined links
contain the edge 0 → 2. -/
theorem implicit_edge_present_witness :
    (gcS1.export_graph = .ok exportedS1 ∧ 0 < gcS1.field_count ∧
      2 < gcS1.field_count ∧
      gcS1.field_uf.class_root 0 = gcS1.field_uf.class_root 2 ∧
      (gcS1.usageOf 0).rank < (gcS1.usageOf 2).rank ∧
      gcS1.ownerOf 0 ≠ gcS1.ownerOf 2) ∧
    (gcS1.ownerOf 0, gcS1.ownerOf 2) ∈ exportedS1.combined_step_links :=
  ⟨⟨by decide, by decide, by decide, by decide, by decide, by decide⟩,
    implicit_edge_present gcS1 exportedS1 (by decide) 0 2 (by decide)
      (by decide) (by decide) (by decide) (by decide)⟩

-- ============================================================================
-- C3: predecessor counts and successor lists deduplicate combined links
-- ============================================================================

/-- `getD` on a replicated list whose default matches the element. -/
theorem getD_replicate {α : Type} (m i : Nat) (a : α) :
    (List.replicate m a).getD i a = a := by
  by_cases h : i < m
  · rw [List.getD_eq_getD_get?, List.get?_eq_getElem?,
      List.getElem?_eq_getElem (by simpa using h)]
    simp
  · rw [List.getD_eq_getD_get?, List.get?_eq_getElem?,
      List.getElem?_eq_none (by simpa using Nat.le_of_not_lt h)]
    rfl

/-- Two duplicate-free lists with the same members have the same length. -/
theorem nodup_same_mem_length (A B : List Nat) (hA : A.Nodup) (hB : B.Nodup)
    (h : ∀ x, x ∈ A ↔ x ∈ B) : A.length = B.length := by
  rw [← List.toFinset_card_of_nodup hA, ← List.toFinset_card_of_nodup hB]
  congr 1
  ext x
  simp only [List.mem_toFinset]
  exact h x

/-- The `computePredSucc` fold preserves its invariant across any suffix
of in-range links. -/
theorem computePredSucc_fold (n : Nat) :
    ∀ (L P : List (Nat × Nat))
      (acc : List Nat × List (List Nat) × List (List Nat)),
      (∀ l ∈ L, l.1 < n ∧ l.2 < n) →
      PredSuccInv n P acc →
      PredSuccInv n (P ++ L)
        (L.foldl
          (fun acc l =>
            if l.1 ∈ acc.2.2.getD l.2 [] then acc
            else
              (acc.1.set l.2 (acc.1.getD l.2 0 + 1),
                acc.2.1.set l.1 ((acc.2.1.getD l.1 []) ++ [l.2]),
                acc.2.2.set l.2 ((acc.2.2.getD l.2 []) ++ [l.1])))
          acc) := by
  intro L
  induction L with
  | nil =>
    intro P acc _ hinv
    simpa using hinv
  | cons l L ih =>
    intro P acc hb hinv
    have hl1 : l.1 < n := (hb l (List.mem_cons_self _ _)).1
    have hl2 : l.2 < n := (hb l (List.mem_cons_self _ _)).2
    have hbL : ∀ l' ∈ L, l'.1 < n ∧ l'.2 < n :=
      fun l' hl' => hb l' (List.mem_cons_of_mem _ hl')
    obtain ⟨h1, h2, h3, h4, h5, h6, h7⟩ := hinv
    simp only [List.foldl_cons]
    by_cases hmem : l.1 ∈ acc.2.2.getD l.2 []
    · rw [if_pos hmem]
      have hlP : l ∈ P := by
        have := (h5 l.1 l.2).1 hmem
        rwa [Prod.mk.eta] at this
      have hiff : ∀ b s, ((b, s) ∈ P ++ [l]) ↔ ((b, s) ∈ P) := by
        intro b s
        rw [List.mem_append, List.mem_singleton]
        constructor
        · rintro (h | h)
          · exact h
          · rw [h]
            exact hlP
        · exact Or.inl
      have hinv' : PredSuccInv n (P ++ [l]) acc := by
        refine ⟨h1, h2, h3, h4, ?_, h6, ?_⟩
        · intro b s
          simp only [hiff]
          exact h5 b s
        · intro b s
          simp only [hiff]
          exact h7 b s
      have hres := ih (P ++ [l]) acc hbL hinv'
      rw [List.append_assoc, List.singleton_append] at hres
      exact hres
    · rw [if_neg hmem]
      have hinv' : PredSuccInv n (P ++ [l])
          (acc.1.set l.2 (acc.1.getD l.2 0 + 1),
            acc.2.1.set l.1 ((acc.2.1.getD l.1 []) ++ [l.2]),
            acc.2.2.set l.2 ((acc.2.2.getD l.2 []) ++ [l.1])) := by
        refine ⟨?_, ?_, ?_, ?_, ?_, ?_, ?_⟩
        · rw [List.length_set]
          exact h1
        · rw [List.length_set]
          exact h2
        · rw [List.length_set]
          exact h3
        · intro s
          by_cases hss : s = l.2
          · subst hss
            rw [UF.getD_set_self _ _ _ _ (by rw [h3]; exact hl2)]
            rw [List.nodup_append]
            refine ⟨h4 l.2, List.nodup_singleton _, ?_⟩
            intro a ha hmem'
            simp only [List.mem_singleton] at hmem'
            subst hmem'
            exact hmem ha
          · rw [UF.getD_set_ne _ _ _ _ _ (fun h => hss h.symm)]
            exact h4 s
        · intro b s
          by_cases hss : s = l.2
          · subst hss
            rw [UF.getD_set_self _ _ _ _ (by rw [h3]; exact hl2)]
            rw [List.mem_append, List.mem_singleton,
              List.mem_append, List.mem_singleton]
            constructor
            · rintro (h | h)
              · exact Or.inl ((h5 b l.2).1 h)
              · subst h
                exact Or.inr (by rw [Prod.mk.eta])
            · rintro (h | h)
              · exact Or.inl ((h5 b l.2).2 h)
              · exact Or.inr (congrArg Prod.fst h)
          · rw [UF.getD_set_ne _ _ _ _ _ (fun h => hss h.symm)]
            rw [List.mem_append, List.mem_singleton]
            constructor
            · intro h
              exact Or.inl ((h5 b s).1 h)
            · rintro (h | h)
              · exact (h5 b s).2 h
              · exact absurd (congrArg Prod.snd h) hss
        · intro s
          by_cases hss : s = l.2
          · subst hss
            rw [UF.getD_set_self _ _ _ _ (by rw [h1]; exact hl2),
              UF.getD_set_self _ _ _ _ (by rw [h3]; exact hl2)]
            rw [List.length_append, List.length_singleton, h6 l.2]
          · rw [UF.getD_set_ne _ _ _ _ _ (fun h => hss h.symm),
              UF.getD_set_ne _ _ _ _ _ (fun h => hss h.symm)]
            exact h6 s
        · intro b s
          by_cases hbb : b = l.1
          · subst hbb
            rw [UF.getD_set_self _ _ _ _ (by rw [h2]; exact hl1)]
            rw [List.count_append]
            by_cases hss : s = l.2
            · subst hss
              have hnot : (l.1, l.2) ∉ P := by
                intro hP
                exact hmem ((h5 l.1 l.2).2 hP)
              have hin : (l.1, l.2) ∈ P ++ [l] := by
                rw [List.mem_append, List.mem_singleton]
                exact Or.inr (by rw [Prod.mk.eta])
              rw [h7 l.1 l.2, if_neg hnot, if_pos hin]
              simp
            · have hin : ((l.1, s) ∈ P ++ [l]) ↔ ((l.1, s) ∈ P) := by
                rw [List.mem_append, List.mem_singleton]
                constructor
                · rintro (h | h)
                  · exact h
                  · exact absurd (congrArg Prod.snd h) hss
                · exact Or.inl
              have hcnt : List.count s [l.2] = 0 := by
                rw [List.count_eq_zero]
                intro hmem2
                rw [List.mem_singleton] at hmem2
                exact hss hmem2
              rw [h7 l.1 s, hcnt]
              simp only [hin]
              omega
          · rw [UF.getD_set_ne _ _ _ _ _ (fun h => hbb h.symm)]
            have hin : ((b, s) ∈ P ++ [l]) ↔ ((b, s) ∈ P) := by
              rw [List.mem_append, List.mem_singleton]
              constructor
              · rintro (h | h)
                · exact h
                · exact absurd (congrArg Prod.fst h) hbb
              · exact Or.inl
            rw [h7 b s]
            simp only [hin]
      have hres := ih (P ++ [l]) _ hbL hinv'
      rw [List.append_assoc, List.singleton_append] at hres
      exact hres

/-- The invariant holds of `computePredSucc` itself. -/
theorem computePredSucc_spec (n : Nat) (links : List (Nat × Nat))
    (hb : ∀ l ∈ links, l.1 < n ∧ l.2 < n) :
    PredSuccInv n links (computePredSucc n links) := by
  have hbase : PredSuccInv n []
      (List.replicate n 0, List.replicate n ([] : List Nat),
        List.replicate n ([] : List Nat)) := by
    refine ⟨?_, ?_, ?_, ?_, ?_, ?_, ?_⟩
    · simp
    · simp
    · simp
    · intro s
      rw [getD_replicate]
      exact List.nodup_nil
    · intro b s
      rw [getD_replicate]
      simp
    · intro s
      rw [getD_replicate, getD_replicate]
      rfl
    · intro b s
      rw [getD_replicate]
      simp
  have h := computePredSucc_fold n links [] _ hb hbase
  rw [List.nil_append] at h
  unfold computePredSucc
  exact h

/-- C3: for every plan produced by `GraphBuilder::build()` and every step
`s`, `predecessor_counts[s]` equals the number of distinct steps `b` with
an edge `(b, s)` in the exported `combined_step_links` (repeated edges
counted once), and `successors[b]` holds the entry `s` exactly once when
such an edge occurs and not at all otherwise. -/
theorem build_predecessor_counts (gc : GraphCore) (hwf : gc.WF)
    (plan : ExecutableGraph) (hb : GraphBuilder.build gc = .ok plan)
    (g : ExportedGraph) (hg : gc.export_graph = .ok g) (s : Nat) :
    plan.predecessor_counts.getD s 0 =
      ((List.range gc.step_count).filter
        (fun b => decide ((b, s) ∈ g.combined_step_links))).length ∧
    ∀ b, (plan.successors.getD b []).count s =
      if (b, s) ∈ g.combined_step_links then 1 else 0 := by
  obtain ⟨hcomb, herr⟩ := export_graph_combined gc g hg
  unfold GraphBuilder.build at hb
  rw [if_neg (by rw [herr]; simp)] at hb
  rw [hg] at hb
  simp only [Except.ok.injEq] at hb
  subst hb
  have hbound : ∀ l ∈ g.combined_step_links,
      l.1 < gc.step_count ∧ l.2 < gc.step_count := by
    rw [hcomb]
    exact GraphCore.combinedLinks_bound gc hwf
  obtain ⟨h1, h2, h3, h4, h5, h6, h7⟩ :=
    computePredSucc_spec gc.step_count g.combined_step_links hbound
  constructor
  · refine (h6 s).trans ?_
    apply nodup_same_mem_length _ _ (h4 s)
      ((List.nodup_range gc.step_count).filter _)
    intro x
    rw [h5 x s, List.mem_filter, List.mem_range]
    constructor
    · intro hx
      exact ⟨(hbound _ hx).1, by simpa using hx⟩
    · rintro ⟨_, hx⟩
      simpa using hx
  · intro b
    exact h7 b s

/-- Witness for C3 on the scenario-S1 plan: step 2's predecessor count is
the number of distinct sources of edges into step 2, and `successors[0]`
holds the entry 2 exactly once. -/
theorem build_predecessor_counts_witness :
    (gcS1.WF ∧ GraphBuilder.build gcS1 = .ok planS1 ∧
      gcS1.export_graph = .ok exportedS1) ∧
    (planS1.predecessor_counts.getD 2 0 =
      ((List.range gcS1.step_count).filter
        (fun b => decide ((b, 2) ∈ exportedS1.combined_step_links))).length ∧
     (planS1.successors.getD 0 []).count 2 =
      if (0, 2) ∈ exportedS1.combined_step_links then 1 else 0) :=
  ⟨⟨by decide, by decide, by decide⟩,
    ⟨(build_predecessor_counts gcS1 (by decide) planS1 (by decide) exportedS1
        (by decide) 2).1,
      (build_predecessor_counts gcS1 (by decide) planS1 (by decide) exportedS1
        (by decide) 2).2 0⟩⟩

-- ============================================================================
-- C4: eager MultipleCreate raises before any observable mutation
-- ============================================================================

namespace UF

/-- The circular-list walk depends only on the `next` pointers. -/
theorem walkAux_congr {s t : UF} (hnext : ∀ y, t.nextp y = s.nextp y)
    (x : Nat) : ∀ (f cur : Nat), walkAux t x f cur = walkAux s x f cur := by
  intro f
  induction f with
  | zero =>
    intro cur
    rfl
  | succ f ih =>
    intro cur
    simp only [walkAux]
    by_cases hc : cur = x
    · rw [if_pos hc, if_pos hc]
    · rw [if_neg hc, if_neg hc, hnext cur, ih]

/-- `get_class_members` depends only on the element count and the `next`
pointers (in particular, path compression does not change it). -/
theorem get_class_members_congr {s t : UF} (hn : t.n = s.n)
    (hnext : ∀ y, t.nextp y = s.nextp y) (x : Nat) :
    t.get_class_members x = s.get_class_members x := by
  unfold get_class_members
  rw [hn, hnext x, walkAux_congr hnext]

end UF

/-- C4: in eager-validation mode, calling `link_fields(f1, f2, trust)` on
two valid, type-compatible fields in different equivalence classes whose
combined classes hold more than one Create field raises `MultipleCreate`
at that call, and all observable `GraphCore` state — every non-union-find
component, the class roots, and the class member lists — is exactly as it
was before the call (only the unobservable path compression of the two
`find` calls is kept, as in the C++). -/
theorem link_fields_multiple_create (gc : GraphCore) (hwf : gc.WF)
    (f1 f2 : Nat) (trust : TrustLevel)
    (hf1 : f1 < gc.field_count) (hf2 : f2 < gc.field_count)
    (hne : f1 ≠ f2)
    (heager : gc.eager_validation = true)
    (htype : gc.typeOf f1 = gc.typeOf f2)
    (hroots : gc.field_uf.class_root f1 ≠ gc.field_uf.class_root f2)
    (hcreate : 1 <
      (gc.field_uf.get_class_members f1).countP
        (fun f => decide (gc.usageOf f = Usage.Create)) +
      (gc.field_uf.get_class_members f2).countP
        (fun f => decide (gc.usageOf f = Usage.Create))) :
    (gc.link_fields f1 f2 trust).2 = some GraphCoreErrorCode.MultipleCreate ∧
    (gc.link_fields f1 f2 trust).1.step_count = gc.step_count ∧
    (gc.link_fields f1 f2 trust).1.field_count = gc.field_count ∧
    (gc.link_fields f1 f2 trust).1.step_fields = gc.step_fields ∧
    (gc.link_fields f1 f2 trust).1.step_successors = gc.step_successors ∧
    (gc.link_fields f1 f2 trust).1.explicit_step_links =
      gc.explicit_step_links ∧
    (gc.link_fields f1 f2 trust).1.explicit_step_link_trust =
      gc.explicit_step_link_trust ∧
    (gc.link_fields f1 f2 trust).1.field_links = gc.field_links ∧
    (gc.link_fields f1 f2 trust).1.field_link_trust = gc.field_link_trust ∧
    (gc.link_fields f1 f2 trust).1.field_owner_step = gc.field_owner_step ∧
    (gc.link_fields f1 f2 trust).1.field_types = gc.field_types ∧
    (gc.link_fields f1 f2 trust).1.field_usages = gc.field_usages ∧
    (∀ x, x < gc.field_count →
      (gc.link_fields f1 f2 trust).1.field_uf.class_root x =
        gc.field_uf.class_root x) ∧
    (∀ x, (gc.link_fields f1 f2 trust).1.field_uf.get_class_members x =
      gc.field_uf.get_class_members x) := by
  obtain ⟨_, _, _, _, _, hn, hB, _, _⟩ := hwf
  have hf1n : f1 < gc.field_uf.n := by rw [hn]; exact hf1
  have hf2n : f2 < gc.field_uf.n := by rw [hn]; exact hf2
  obtain ⟨hr1, hB1, hn1, hnext1, _, _, _, hcr1⟩ := UF.find_spec hB hf1n
  have hf2n1 : f2 < (gc.field_uf.find f1).2.n := by rw [hn1]; exact hf2n
  obtain ⟨hr2, hB2, hn2, hnext2, _, _, _, hcr2⟩ := UF.find_spec hB1 hf2n1
  have hr2' : ((gc.field_uf.find f1).2.find f2).1 =
      gc.field_uf.class_root f2 := hr2.trans (hcr1 f2 hf2n)
  have hcond : (gc.field_uf.find f1).1 ≠
      ((gc.field_uf.find f1).2.find f2).1 := by
    rw [hr1, hr2']
    exact hroots
  have hnB : ∀ y, ((gc.field_uf.find f1).2.find f2).2.nextp y =
      gc.field_uf.nextp y := fun y => (hnext2 y).trans (hnext1 y)
  have hnn : ((gc.field_uf.find f1).2.find f2).2.n = gc.field_uf.n :=
    hn2.trans hn1
  have hgcm : ∀ x, ((gc.field_uf.find f1).2.find f2).2.get_class_members x =
      gc.field_uf.get_class_members x :=
    fun x => UF.get_class_members_congr hnn hnB x
  have hcount : 1 <
      (((gc.field_uf.find f1).2.find f2).2.get_class_members f1).countP
        (fun f => decide (gc.usageOf f = Usage.Create)) +
      (((gc.field_uf.find f1).2.find f2).2.get_class_members f2).countP
        (fun f => decide (gc.usageOf f = Usage.Create)) := by
    rw [hgcm f1, hgcm f2]
    exact hcreate
  have hred : gc.link_fields f1 f2 trust =
      ({ gc with field_uf := ((gc.field_uf.find f1).2.find f2).2 },
        some GraphCoreErrorCode.MultipleCreate) := by
    simp only [GraphCore.link_fields]
    rw [if_neg (Nat.not_le.2 hf1), if_neg (Nat.not_le.2 hf2), if_neg hne,
      if_neg (fun h => h htype), if_neg hcond, if_pos heager, if_pos hcount]
  rw [hred]
  refine ⟨rfl, rfl, rfl, rfl, rfl, rfl, rfl, rfl, rfl, rfl, rfl, rfl, ?_, ?_⟩
  · intro x hx
    have hxn : x < gc.field_uf.n := by rw [hn]; exact hx
    exact (hcr2 x (by rw [hn1]; exact hxn)).trans (hcr1 x hxn)
  · intro x
    exact hgcm x

/-- Witness for C4 on the scenario-S3 prefix: linking the Read field 1 to
the second Create field 2 raises `MultipleCreate` and leaves the links,
successor lists, class roots, and class member lists unchanged. -/
theorem link_fields_multiple_create_witness :
    (gcS3.WF ∧ 1 < gcS3.field_count ∧ 2 < gcS3.field_count ∧ (1 : Nat) ≠ 2 ∧
      gcS3.eager_validation = true ∧ gcS3.typeOf 1 = gcS3.typeOf 2 ∧
      gcS3.field_uf.class_root 1 ≠ gcS3.field_uf.class_root 2 ∧
      1 < (gcS3.field_uf.get_class_members 1).countP
            (fun f => decide (gcS3.usageOf f = Usage.Create)) +
          (gcS3.field_uf.get_class_members 2).countP
            (fun f => decide (gcS3.usageOf f = Usage.Create))) ∧
    ((gcS3.link_fields 1 2 TrustLevel.High).2 =
        some GraphCoreErrorCode.MultipleCreate ∧
      (gcS3.link_fields 1 2 TrustLevel.High).1.field_links =
        gcS3.field_links ∧
      (gcS3.link_fields 1 2 TrustLevel.High).1.step_successors =
        gcS3.step_successors ∧
      (gcS3.link_fields 1 2 TrustLevel.High).1.field_uf.class_root 1 =
        gcS3.field_uf.class_root 1 ∧
      (gcS3.link_fields 1 2 TrustLevel.High).1.field_uf.get_class_members 2 =
        gcS3.field_uf.get_class_members 2) := by
  refine ⟨⟨by decide, by decide, by decide, by decide, by decide, by decide,
    by decide, by decide⟩, ?_⟩
  have h := link_fields_multiple_create gcS3 (by decide) 1 2 TrustLevel.High
    (by decide) (by decide) (by decide) (by decide) (by decide) (by decide)
    (by decide)
  exact ⟨h.1, h.2.2.2.2.2.2.2.1, h.2.2.2.2.1,
    h.2.2.2.2.2.2.2.2.2.2.2.2.1 1 (by decide),
    h.2.2.2.2.2.2.2.2.2.2.2.2.2 2⟩

-- ============================================================================
-- C7: MissingCreate is the only seal-sensitive severity
-- ============================================================================

/-- Every item emitted by `classItems` carries the severity determined by
its category alone, with `MissingCreate` following the seal flag. -/
theorem classItems_severity (gc : GraphCore) (sealed : Bool) (fs : List Nat) :
    ∀ it ∈ (gc.classItems sealed fs).1 ++ (gc.classItems sealed fs).2,
      it.severity =
        if it.category = DiagnosticCategory.MissingCreate then
          (if sealed then DiagnosticSeverity.Error
            else DiagnosticSeverity.Warning)
        else catFixedSeverity it.category := by
  intro it hit
  simp only [GraphCore.classItems, List.mem_append] at hit
  rcases hit with (((h | h) | h) | h) | h
  · by_cases h1 : (gc.createFields fs).length > 1
    · rw [if_pos h1] at h
      rw [List.mem_singleton] at h
      subst h
      simp [catFixedSeverity]
    · rw [if_neg h1] at h
      exact absurd h (List.not_mem_nil it)
  · by_cases h1 : (gc.destroyFields fs).length > 1
    · rw [if_pos h1] at h
      rw [List.mem_singleton] at h
      subst h
      simp [catFixedSeverity]
    · rw [if_neg h1] at h
      exact absurd h (List.not_mem_nil it)
  · by_cases hse : sealed = true
    · rw [if_pos hse] at h
      by_cases hcnd : ((gc.createFields fs).isEmpty &&
          (!(gc.readFields fs).isEmpty || !(gc.destroyFields fs).isEmpty))
            = true
      · rw [if_pos hcnd] at h
        rw [List.mem_singleton] at h
        subst h
        simp
      · rw [if_neg hcnd] at h
        exact absurd h (List.not_mem_nil it)
    · rw [if_neg hse] at h
      exact absurd h (List.not_mem_nil it)
  · obtain ⟨p, hp, hsome⟩ := List.mem_filterMap.1 h
    by_cases hcnd : (decide (p.2.length > 1) &&
        p.2.any fun u => decide (u ≠ Usage.Read)) = true
    · rw [if_pos hcnd] at hsome
      rw [Option.some_inj] at hsome
      subst hsome
      simp [catFixedSeverity]
    · rw [if_neg hcnd] at hsome
      exact absurd hsome (by simp)
  · by_cases hse : sealed = true
    · rw [if_pos hse] at h
      exact absurd h (List.not_mem_nil it)
    · rw [if_neg hse] at h
      by_cases hcnd : ((gc.createFields fs).isEmpty &&
          (!(gc.readFields fs).isEmpty || !(gc.destroyFields fs).isEmpty))
            = true
      · rw [if_pos hcnd] at h
        rw [List.mem_singleton] at h
        subst h
        simp
      · rw [if_neg hcnd] at h
        exact absurd h (List.not_mem_nil it)

/-- C7: every diagnostic emitted by `get_diagnostics` carries the fixed
severity of its category (Error for Cycle, MultipleCreate, MultipleDestroy
and UnsafeSelfAliasing; Warning for OrphanStep and UnusedData) except
`MissingCreate`, whose severity follows the seal flag — Error when
`treat_as_sealed` is true, Warning when false; and the missing-Create
condition (a class with no Create field but at least one Read or Destroy
field, including singleton classes) always emits its `MissingCreate` item
over the whole class, into the errors when sealed and into the warnings
when not. -/
theorem missing_create_seal_sensitivity (gc : GraphCore) (sealed : Bool) :
    (∀ it ∈ (gc.get_diagnostics sealed).all_items,
      it.severity =
        if it.category = DiagnosticCategory.MissingCreate then
          (if sealed then DiagnosticSeverity.Error
            else DiagnosticSeverity.Warning)
        else catFixedSeverity it.category) ∧
    (∀ p ∈ gc.fieldClasses, gc.createFields p.2 = [] →
      (gc.readFields p.2 ≠ [] ∨ gc.destroyFields p.2 ≠ []) →
      (⟨(if sealed then DiagnosticSeverity.Error
          else DiagnosticSeverity.Warning),
        DiagnosticCategory.MissingCreate,
        p.2.map gc.ownerOf, p.2⟩ : DiagnosticItem) ∈
        (if sealed then (gc.get_diagnostics sealed).errors
          else (gc.get_diagnostics sealed).warnings)) := by
  constructor
  · intro it hit
    unfold GraphCoreDiagnostics.all_items at hit
    simp only [GraphCore.get_diagnostics, List.mem_append] at hit
    rcases hit with (h | h) | ((h | h) | h)
    · obtain ⟨pr, hpr, hitp⟩ := List.mem_flatMap.1 h
      obtain ⟨c, hc, hfc⟩ := List.mem_map.1 hpr
      rw [← hfc] at hitp
      exact classItems_severity gc sealed c.2 it (List.mem_append_left _ hitp)
    · by_cases h0 : gc.step_count > 0
      · rw [if_pos h0] at h
        by_cases hlt : (kahnRun gc.step_count gc.combinedLinks).1.length <
            gc.step_count
        · rw [if_pos hlt] at h
          rw [List.mem_singleton] at h
          subst h
          simp [catFixedSeverity]
        · rw [if_neg hlt] at h
          exact absurd h (List.not_mem_nil it)
      · rw [if_neg h0] at h
        exact absurd h (List.not_mem_nil it)
    · obtain ⟨pr, hpr, hitp⟩ := List.mem_flatMap.1 h
      obtain ⟨c, hc, hfc⟩ := List.mem_map.1 hpr
      rw [← hfc] at hitp
      exact classItems_severity gc sealed c.2 it (List.mem_append_right _ hitp)
    · obtain ⟨sidx, hsidx, hsome⟩ := List.mem_filterMap.1 h
      by_cases hcnd : ((gc.step_fields.getD sidx []).isEmpty &&
          !gc.stepHasLink sidx) = true
      · rw [if_pos hcnd] at hsome
        rw [Option.some_inj] at hsome
        subst hsome
        simp [catFixedSeverity]
      · rw [if_neg hcnd] at hsome
        exact absurd hsome (by simp)
    · obtain ⟨c, hc, hsome⟩ := List.mem_filterMap.1 h
      rcases hcs : c.2 with _ | ⟨f, rest⟩
      · rw [hcs] at hsome
        simp at hsome
      · rcases rest with _ | ⟨g, rest'⟩
        · rw [hcs] at hsome
          by_cases hu : gc.usageOf f = Usage.Create
          · simp only [hu, reduceIte, Option.some.injEq] at hsome
            subst hsome
            simp [catFixedSeverity]
          · simp [hu] at hsome
        · rw [hcs] at hsome
          simp at hsome
  · intro p hp hcf hrd
    have hcnd : ((gc.createFields p.2).isEmpty &&
        (!(gc.readFields p.2).isEmpty || !(gc.destroyFields p.2).isEmpty))
          = true := by
      rw [hcf]
      rcases hrd with h | h
      · rcases List.exists_cons_of_ne_nil h with ⟨a, t, hr⟩
        rw [hr]
        simp
      · rcases List.exists_cons_of_ne_nil h with ⟨a, t, hd⟩
        rw [hd]
        simp
    cases sealed with
    | false =>
      simp only [Bool.false_eq_true, reduceIte]
      simp only [GraphCore.get_diagnostics]
      apply List.mem_append_left
      apply List.mem_append_left
      rw [List.mem_flatMap]
      refine ⟨gc.classItems false p.2, List.mem_map_of_mem _ hp, ?_⟩
      simp only [GraphCore.classItems, Bool.false_eq_true, reduceIte]
      rw [if_pos hcnd]
      exact List.mem_singleton_self _
    | true =>
      simp only [reduceIte]
      simp only [GraphCore.get_diagnostics]
      apply List.mem_append_left
      rw [List.mem_flatMap]
      refine ⟨gc.classItems true p.2, List.mem_map_of_mem _ hp, ?_⟩
      simp only [GraphCore.classItems, reduceIte]
      apply List.mem_append_left
      apply List.mem_append_right
      rw [if_pos hcnd]
      exact List.mem_singleton_self _

/-- Witness for C7 on the singleton-Read graph, sealed: the class `{0}`
has no Create and a Read, and the `MissingCreate` item over the whole
class appears in the errors with severity Error. -/
theorem missing_create_seal_sensitivity_witness :
    ((0, [0]) ∈ gcSingletonRead.fieldClasses ∧
      gcSingletonRead.createFields [0] = [] ∧
      gcSingletonRead.readFields [0] ≠ []) ∧
    (⟨(if true then DiagnosticSeverity.Error
        else DiagnosticSeverity.Warning),
      DiagnosticCategory.MissingCreate,
      [0].map gcSingletonRead.ownerOf, [0]⟩ : DiagnosticItem) ∈
      (if true then (gcSingletonRead.get_diagnostics true).errors
        else (gcSingletonRead.get_diagnostics true).warnings) := by
  refine ⟨⟨by decide, by decide, by decide⟩, ?_⟩
  exact (missing_create_seal_sensitivity gcSingletonRead true).2 (0, [0])
    (by decide) (by decide) (Or.inl (by decide))
